import Mathlib

/-!
# Turtle lexer and parser (`lexer.go`, `parser.go`)

A shallow embedding of the Turtle tokenizer and recursive-descent parser.

Conventions of the embedding.

* A Go `string` is a `Str`, the list of its runes.  The lexer reads its input
  rune by rune (`bufio.Reader.ReadRune`) and builds every token text with
  `strings.Builder.WriteRune`, so runes are the only unit the program sees.
* `Lexer.input` is the part of the reader that has not been read yet.
* Go's `(rune, error)` result of `Lexer.next` is a `Char × Bool`; the flag is
  `err != nil`, and the rune is `0` when the flag is set, as in the source.
* The `for { ... }` loops take a fuel argument and return `none` when it runs
  out.  Every entry point computes its fuel from the unread input, and
  `Lex_total` and `Parse_total` prove that this fuel is never exhausted.
* `line`, `col` are Go `int`s; they are `Int` here (a column goes below zero
  when a newline is pushed back).
* Error values built with `errors.New` / `fmt.Errorf` are the constructors of
  `ParseErr`, one per message, carrying the token the message prints.
-/

namespace Turtle

/-- A Go string, as the list of its runes. -/
abbrev Str := List Char

/-- The tables of Go's standard library that the lexer consults and that are
not part of the repository: `unicode.IsSpace`, `unicode.IsLetter` and
`unicode.IsDigit` beyond the ranges fixed below, and the `%q` rendering of a
rune. -/
structure StdLib where
  /-- The value of `unicode.IsSpace` on runes above U+00FF. -/
  isSpaceHigh : Char → Bool
  /-- The value of `unicode.IsLetter` on runes above U+007F. -/
  isLetterHigh : Char → Bool
  /-- The value of `unicode.IsDigit` on runes above U+00FF. -/
  isDigitHigh : Char → Bool
  /-- The text `fmt.Sprintf("%q", ch)` of a rune. -/
  quoteRune : Char → Str

/-- `unicode.IsSpace`: in Latin-1 the runes `\t \n \v \f \r`, space, U+0085
and U+00A0; above Latin-1 the library table. -/
def isSpace (lib : StdLib) (ch : Char) : Bool :=
  if ch.toNat ≤ 0xFF then
    ch.toNat = 0x09 || ch.toNat = 0x0A || ch.toNat = 0x0B || ch.toNat = 0x0C ||
    ch.toNat = 0x0D || ch.toNat = 0x20 || ch.toNat = 0x85 || ch.toNat = 0xA0
  else lib.isSpaceHigh ch

/-- `unicode.IsLetter`: in ASCII the letters `A-Z` and `a-z`; above ASCII the
library table. -/
def isLetter (lib : StdLib) (ch : Char) : Bool :=
  if ch.toNat < 0x80 then
    (0x41 ≤ ch.toNat && ch.toNat ≤ 0x5A) || (0x61 ≤ ch.toNat && ch.toNat ≤ 0x7A)
  else lib.isLetterHigh ch

/-- `unicode.IsDigit`: in Latin-1 the digits `0`-`9`; above Latin-1 the
library table. -/
def isDigit (lib : StdLib) (ch : Char) : Bool :=
  if ch.toNat ≤ 0xFF then 0x30 ≤ ch.toNat && ch.toNat ≤ 0x39
  else lib.isDigitHigh ch

/-- `strings.ContainsRune(".,;()[]<>", ch)`. -/
def isDelim (ch : Char) : Bool :=
  ch = '.' || ch = ',' || ch = ';' || ch = '(' || ch = ')' || ch = '[' ||
  ch = ']' || ch = '<' || ch = '>'

/-- `TokenType` of `lexer.go`. -/
inductive TokenType where
  | Error
  | EOF
  | IRI
  | Prefix
  | Base
  | Literal
  | BlankNode
  | CollectionStart
  | CollectionEnd
  | Comment
  | Dot
  | Comma
  | Semicolon
  | A
  | Colon
  deriving DecidableEq, Repr

/-- `Token` of `lexer.go` (`Typ` is the field `Type`). -/
structure Token where
  Typ : TokenType
  Value : Str
  Line : Int
  Col : Int
  deriving DecidableEq, Repr

/-- `Lexer` of `lexer.go`; `input` is what the reader has not delivered yet. -/
structure Lexer where
  input : Str
  line : Int
  col : Int
  buffered : Bool
  buffer : Char
  deriving DecidableEq, Repr

/-- `NewLexer`. -/
def NewLexer (input : Str) : Lexer :=
  { input := input, line := 1, col := 0, buffered := false, buffer := Char.ofNat 0 }

/-- `Lexer.next`: the pushed-back rune if there is one, else the next rune of
the reader with the position advanced; at end of input `(0, err)`. -/
def Lexer.next (l : Lexer) : (Char × Bool) × Lexer :=
  if l.buffered then
    ((l.buffer, false), { l with buffered := false })
  else
    match l.input with
    | [] => ((Char.ofNat 0, true), l)
    | ch :: rest =>
      if ch = '\n' then
        ((ch, false), { l with input := rest, line := l.line + 1, col := 0 })
      else
        ((ch, false), { l with input := rest, col := l.col + 1 })

/-- `Lexer.backup`. -/
def Lexer.backup (l : Lexer) (ch : Char) : Lexer :=
  { l with buffer := ch, buffered := true, col := l.col - 1 }

/-- Fuel that covers every loop over the unread input of `l`: one step for
each unread rune, one for a pushed-back rune and one for the end of input. -/
def Lexer.fuel (l : Lexer) : Nat :=
  l.input.length + 2

/-- The loop of `lexComment`. -/
def Lexer.lexCommentLoop : Nat → Lexer → Str → Option (Str × Lexer)
  | 0, _, _ => none
  | fuel + 1, l, sb =>
    match l.next with
    | ((ch, err), l) =>
      if err || ch = '\n' then some (sb, l)
      else Lexer.lexCommentLoop fuel l (sb ++ [ch])

/-- `Lexer.lexComment`. -/
def Lexer.lexComment (l : Lexer) : Option (Token × Lexer) :=
  match Lexer.lexCommentLoop l.fuel l [] with
  | none => none
  | some (sb, l) =>
    some ({ Typ := TokenType.Comment, Value := sb, Line := l.line, Col := l.col }, l)

/-- The loop of `lexIRI`. -/
def Lexer.lexIRILoop : Nat → Lexer → Str → Option (Str × Lexer)
  | 0, _, _ => none
  | fuel + 1, l, sb =>
    match l.next with
    | ((ch, err), l) =>
      if err || ch = '>' then some (sb, l)
      else Lexer.lexIRILoop fuel l (sb ++ [ch])

/-- `Lexer.lexIRI`. -/
def Lexer.lexIRI (l : Lexer) : Option (Token × Lexer) :=
  match Lexer.lexIRILoop l.fuel l [] with
  | none => none
  | some (sb, l) =>
    some ({ Typ := TokenType.IRI, Value := sb, Line := l.line, Col := l.col }, l)

/-- The loop of `lexLanguageTag`; the flag of the result is `err != nil`. -/
def Lexer.lexLanguageTagLoop (lib : StdLib) :
    Nat → Lexer → Str → Option ((Str × Bool) × Lexer)
  | 0, _, _ => none
  | fuel + 1, l, sb =>
    match l.next with
    | ((ch, err), l) =>
      if err || isSpace lib ch || isDelim ch then some ((sb, false), l.backup ch)
      else if !isLetter lib ch && ch ≠ '-' then some (([], true), l)
      else Lexer.lexLanguageTagLoop lib fuel l (sb ++ [ch])

/-- `Lexer.lexLanguageTag`. -/
def Lexer.lexLanguageTag (lib : StdLib) (l : Lexer) : Option ((Str × Bool) × Lexer) :=
  Lexer.lexLanguageTagLoop lib l.fuel l []

/-- The first loop of `lexLiteral`. -/
def Lexer.lexLiteralLoop : Nat → Lexer → Str → Option (Str × Lexer)
  | 0, _, _ => none
  | fuel + 1, l, sb =>
    match l.next with
    | ((ch, err), l) =>
      if err || ch = '"' then some (sb, l)
      else Lexer.lexLiteralLoop fuel l (sb ++ [ch])

/-- `Lexer.lexLiteral`. -/
def Lexer.lexLiteral (lib : StdLib) (l : Lexer) : Option (Token × Lexer) :=
  match Lexer.lexLiteralLoop l.fuel l [] with
  | none => none
  | some (value, l) =>
    let token : Token :=
      { Typ := TokenType.Literal, Value := value, Line := l.line, Col := l.col }
    match l.next with
    | ((ch, err), l) =>
      if err then some (token, l)
      else if ch = '@' then
        match Lexer.lexLanguageTag lib l with
        | none => none
        | some ((langTag, err), l) =>
          if err then
            some ({ Typ := TokenType.Error, Value := "Invalid language tag".toList,
                    Line := l.line, Col := l.col }, l)
          else some ({ token with Value := token.Value ++ "@".toList ++ langTag }, l)
      else if ch = '^' then
        match l.next with
        | ((next, err), l) =>
          if !err && next = '^' then
            match Lexer.lexIRI l with
            | none => none
            | some (dataType, l) =>
              if dataType.Typ = TokenType.IRI then
                some ({ token with Value := token.Value ++ "^^".toList ++ dataType.Value }, l)
              else
                some ({ Typ := TokenType.Error, Value := "Invalid datatype".toList,
                        Line := l.line, Col := l.col }, l)
          else some (token, l.backup ch)
      else some (token, l.backup ch)

/-- The loop of `lexWord`; `lexBlankNode` and `lexUnquotedLiteral` end with the
same loop, rune for rune. -/
def Lexer.lexWordLoop (lib : StdLib) : Nat → Lexer → Str → Option (Str × Lexer)
  | 0, _, _ => none
  | fuel + 1, l, sb =>
    match l.next with
    | ((ch, err), l) =>
      if err || isSpace lib ch || isDelim ch then some (sb, l.backup ch)
      else Lexer.lexWordLoop lib fuel l (sb ++ [ch])

/-- `Lexer.lexBlankNode`. -/
def Lexer.lexBlankNode (lib : StdLib) (l : Lexer) : Option (Token × Lexer) :=
  match l.next with
  | ((ch, err), l) =>
    if err || ch ≠ ':' then
      some ({ Typ := TokenType.Error, Value := "Invalid blank node syntax".toList,
              Line := l.line, Col := l.col }, l)
    else
      match Lexer.lexWordLoop lib l.fuel l ['_', ch] with
      | none => none
      | some (sb, l) =>
        some ({ Typ := TokenType.BlankNode, Value := sb, Line := l.line, Col := l.col }, l)

/-- The boolean datatype suffix attached by `lexWord`. -/
def xsdBoolean : Str := "^^<http://www.w3.org/2001/XMLSchema#boolean>".toList

/-- `Lexer.lexWord`. -/
def Lexer.lexWord (lib : StdLib) (l : Lexer) : Option (Token × Lexer) :=
  match Lexer.lexWordLoop lib l.fuel l [] with
  | none => none
  | some (word, l) =>
    if word = "true".toList ∨ word = "false".toList then
      some ({ Typ := TokenType.Literal, Value := word ++ xsdBoolean,
              Line := l.line, Col := l.col }, l)
    else
      some ({ Typ := TokenType.BlankNode, Value := word, Line := l.line, Col := l.col }, l)

/-- The decimal datatype suffix attached by `lexUnquotedLiteral`. -/
def xsdDecimal : Str := "^^<http://www.w3.org/2001/XMLSchema#decimal>".toList

/-- The integer datatype suffix attached by `lexUnquotedLiteral`. -/
def xsdInteger : Str := "^^<http://www.w3.org/2001/XMLSchema#integer>".toList

/-- `Lexer.lexUnquotedLiteral`.  No case of `Lex` calls it. -/
def Lexer.lexUnquotedLiteral (lib : StdLib) (l : Lexer) : Option (Token × Lexer) :=
  match l.next with
  | ((ch0, _), l0) =>
    let signed : Str × Char × Lexer :=
      if ch0 = '-' ∨ ch0 = '+' then
        match l0.next with
        | ((ch1, _), l1) => ([ch0], ch1, l1)
      else ([], ch0, l0)
    match signed with
    | (sb, ch, l) =>
      if !isDigit lib ch && ch ≠ 't' && ch ≠ 'f' then
        some ({ Typ := TokenType.Error, Value := "Invalid unquoted literal".toList,
                Line := l.line, Col := l.col }, l)
      else
        match Lexer.lexWordLoop lib (l.backup ch).fuel (l.backup ch) sb with
        | none => none
        | some (value, l) =>
          let token : Token :=
            { Typ := TokenType.Literal, Value := value, Line := l.line, Col := l.col }
          if value = "true".toList ∨ value = "false".toList then
            some ({ token with Value := token.Value ++ xsdBoolean }, l)
          else if value.contains '.' || value.contains 'e' || value.contains 'E' then
            some ({ token with Value := token.Value ++ xsdDecimal }, l)
          else
            some ({ token with Value := token.Value ++ xsdInteger }, l)

/-- The loop of `lexDirective`. -/
def Lexer.lexDirectiveLoop (lib : StdLib) : Nat → Lexer → Str → Option (Str × Lexer)
  | 0, _, _ => none
  | fuel + 1, l, sb =>
    match l.next with
    | ((ch, err), l) =>
      if err || isSpace lib ch then some (sb, l)
      else Lexer.lexDirectiveLoop lib fuel l (sb ++ [ch])

/-- `Lexer.lexDirective`.  No case of `Lex` calls it. -/
def Lexer.lexDirective (lib : StdLib) (l : Lexer) : Option (Token × Lexer) :=
  match Lexer.lexDirectiveLoop lib l.fuel l [] with
  | none => none
  | some (sb, l) =>
    if sb = "prefix".toList then
      some ({ Typ := TokenType.Prefix, Value := "@prefix".toList,
              Line := l.line, Col := l.col }, l)
    else if sb = "base".toList then
      some ({ Typ := TokenType.Base, Value := "@base".toList,
              Line := l.line, Col := l.col }, l)
    else
      some ({ Typ := TokenType.Error, Value := sb, Line := l.line, Col := l.col }, l)

/-- The loop of `Lex`. -/
def Lexer.LexLoop (lib : StdLib) : Nat → Lexer → Option (Token × Lexer)
  | 0, _ => none
  | fuel + 1, l =>
    match l.next with
    | ((ch, err), l) =>
      if err then
        some ({ Typ := TokenType.EOF, Value := [], Line := l.line, Col := l.col }, l)
      else if isSpace lib ch then Lexer.LexLoop lib fuel l
      else if ch = '#' then l.lexComment
      else if ch = '.' then
        some ({ Typ := TokenType.Dot, Value := ['.'], Line := l.line, Col := l.col }, l)
      else if ch = ',' then
        some ({ Typ := TokenType.Comma, Value := [','], Line := l.line, Col := l.col }, l)
      else if ch = ';' then
        some ({ Typ := TokenType.Semicolon, Value := [';'], Line := l.line, Col := l.col }, l)
      else if ch = '(' then
        some ({ Typ := TokenType.CollectionStart, Value := ['('],
                Line := l.line, Col := l.col }, l)
      else if ch = ')' then
        some ({ Typ := TokenType.CollectionEnd, Value := [')'],
                Line := l.line, Col := l.col }, l)
      else if ch = '<' then l.lexIRI
      else if ch = '"' then l.lexLiteral lib
      else if ch = '_' then l.lexBlankNode lib
      else if isLetter lib ch then (l.backup ch).lexWord lib
      else
        some ({ Typ := TokenType.Error,
                Value := "Unexpected character: ".toList ++ lib.quoteRune ch,
                Line := l.line, Col := l.col }, l)

/-- `Lexer.Lex`. -/
def Lexer.Lex (lib : StdLib) (l : Lexer) : Option (Token × Lexer) :=
  Lexer.LexLoop lib l.fuel l

/-- `Triple` of `parser.go`. -/
structure Triple where
  Subject : Str
  Predicate : Str
  Object : Str
  deriving DecidableEq, Repr

/-- The error values of `parser.go`, one constructor per message; a message
formatted with `%v` carries the token it prints. -/
inductive ParseErr where
  /-- The text "expected prefix declaration". -/
  | expectedPrefixDeclaration
  /-- The text "expected IRI after prefix declaration". -/
  | expectedIRIAfterPrefix
  /-- The text "expected '.' after prefix declaration". -/
  | expectedDotAfterPrefix
  /-- The text "expected IRI after @base". -/
  | expectedIRIAfterBase
  /-- The text "expected '.' after @base declaration". -/
  | expectedDotAfterBase
  /-- The text "expected '.', got %v". -/
  | expectedDot (token : Token)
  /-- The text "invalid subject: %v". -/
  | invalidSubject (token : Token)
  /-- The text "invalid predicate: %v". -/
  | invalidPredicate (token : Token)
  /-- The text "invalid object: %v". -/
  | invalidObject (token : Token)
  deriving DecidableEq, Repr

/-- `Parser` of `parser.go`.  The Go map `prefixes` is the partial function
from keys to values. -/
structure Parser where
  lexer : Lexer
  tokens : List Token
  pos : Nat
  prefixes : Str → Option Str
  base : Str
  triples : List Triple

/-- `NewParser`. -/
def NewParser (input : Str) : Parser :=
  { lexer := NewLexer input, tokens := [], pos := 0,
    prefixes := fun _ => none, base := [], triples := [] }

/-- `strings.SplitN(s, sep, n)` for a one-rune separator and `n ≥ 0`: at most
`n` pieces, the last one being the unsplit rest. -/
def SplitN (s : Str) (sep : Char) : Nat → List Str
  | 0 => []
  | 1 => [s]
  | n + 2 =>
    match s.span (fun c => c != sep) with
    | (_, []) => [s]
    | (before, _ :: after) => before :: SplitN after sep (n + 1)

/-- `Parser.expandIRI`.  `none` stands for a run-time panic (an index out of
range on `parts`). -/
def Parser.expandIRI (p : Parser) (value : Str) : Option Str :=
  if [':'].isPrefixOf value then
    some (p.base ++ value.drop 1)
  else if value.contains ':' then
    let parts := SplitN value ':' 2
    match parts[0]?, parts[1]? with
    | some pfx, some loc =>
      match p.prefixes pfx with
      | some iri => some (iri ++ loc)
      | none => some value
    | _, _ => none
  else some value

/-- `Parser.nextToken`: the cached token at `pos` if there is one, else a
fresh token from the lexer, appended to the cache. -/
def Parser.nextToken (lib : StdLib) (p : Parser) : Option (Token × Parser) :=
  match p.tokens[p.pos]? with
  | some token => some (token, { p with pos := p.pos + 1 })
  | none =>
    match p.lexer.Lex lib with
    | none => none
    | some (token, l) =>
      some (token, { p with lexer := l, tokens := p.tokens ++ [token], pos := p.pos + 1 })

/-- `Parser.backup`. -/
def Parser.backup (p : Parser) : Parser :=
  if p.pos > 0 then { p with pos := p.pos - 1 } else p

/-- `Parser.parsePrefix`; the result is the returned `error`. -/
def Parser.parsePrefix (lib : StdLib) (p : Parser) : Option (Option ParseErr × Parser) :=
  match p.nextToken lib with
  | none => none
  | some (prefixToken, p) =>
    if prefixToken.Typ ≠ TokenType.Prefix then
      some (some ParseErr.expectedPrefixDeclaration, p)
    else
      match p.nextToken lib with
      | none => none
      | some (iriToken, p) =>
        if iriToken.Typ ≠ TokenType.IRI then
          some (some ParseErr.expectedIRIAfterPrefix, p)
        else
          match p.nextToken lib with
          | none => none
          | some (endToken, p) =>
            if endToken.Typ ≠ TokenType.Dot then
              some (some ParseErr.expectedDotAfterPrefix, p)
            else
              let pfx : Str :=
                if [':'].isSuffixOf prefixToken.Value then prefixToken.Value.dropLast
                else prefixToken.Value
              some (none, { p with prefixes :=
                fun k => if k = pfx then some iriToken.Value else p.prefixes k })

/-- `Parser.parseBase`; the result is the returned `error`. -/
def Parser.parseBase (lib : StdLib) (p : Parser) : Option (Option ParseErr × Parser) :=
  match p.nextToken lib with
  | none => none
  | some (iriToken, p) =>
    if iriToken.Typ ≠ TokenType.IRI then
      some (some ParseErr.expectedIRIAfterBase, p)
    else
      match p.nextToken lib with
      | none => none
      | some (endToken, p) =>
        if endToken.Typ ≠ TokenType.Dot then
          some (some ParseErr.expectedDotAfterBase, p)
        else some (none, { p with base := iriToken.Value })

/-- `Parser.parseSubject`. -/
def Parser.parseSubject (lib : StdLib) (p : Parser) :
    Option (Except ParseErr Str × Parser) :=
  match p.nextToken lib with
  | none => none
  | some (token, p) =>
    match token.Typ with
    | TokenType.IRI =>
      match p.expandIRI token.Value with
      | none => none
      | some v => some (Except.ok v, p)
    | TokenType.BlankNode => some (Except.ok token.Value, p)
    | _ => some (Except.error (ParseErr.invalidSubject token), p)

/-- The text `rdf:type` returned for the `a` keyword. -/
def rdfType : Str := "rdf:type".toList

/-- `Parser.parsePredicate`. -/
def Parser.parsePredicate (lib : StdLib) (p : Parser) :
    Option (Except ParseErr Str × Parser) :=
  match p.nextToken lib with
  | none => none
  | some (token, p) =>
    match token.Typ with
    | TokenType.IRI =>
      match p.expandIRI token.Value with
      | none => none
      | some v => some (Except.ok v, p)
    | TokenType.A => some (Except.ok rdfType, p)
    | _ => some (Except.error (ParseErr.invalidPredicate token), p)

/-- `strings.Join(items, " ")`. -/
def joinSpace : List Str → Str
  | [] => []
  | [x] => x
  | x :: y :: rest => x ++ ' ' :: joinSpace (y :: rest)

/-- `fmt.Sprintf("(%v)", strings.Join(items, " "))`. -/
def collectionText (items : List Str) : Str :=
  '(' :: joinSpace items ++ [')']

mutual
/-- `Parser.parseObject`. -/
def Parser.parseObject (lib : StdLib) : Nat → Parser → Option (Except ParseErr Str × Parser)
  | 0, _ => none
  | fuel + 1, p =>
    match p.nextToken lib with
    | none => none
    | some (token, p) =>
      match token.Typ with
      | TokenType.IRI =>
        match p.expandIRI token.Value with
        | none => none
        | some v => some (Except.ok v, p)
      | TokenType.Literal => some (Except.ok token.Value, p)
      | TokenType.BlankNode => some (Except.ok token.Value, p)
      | TokenType.CollectionStart => Parser.parseCollection lib fuel p []
      | _ => some (Except.error (ParseErr.invalidObject token), p)
/-- `Parser.parseCollection`, with the items collected so far. -/
def Parser.parseCollection (lib : StdLib) :
    Nat → Parser → List Str → Option (Except ParseErr Str × Parser)
  | 0, _, _ => none
  | fuel + 1, p, items =>
    match p.nextToken lib with
    | none => none
    | some (token, p) =>
      if token.Typ = TokenType.CollectionEnd then
        some (Except.ok (collectionText items), p)
      else
        match Parser.parseObject lib fuel p.backup with
        | none => none
        | some (Except.error e, p) => some (Except.error e, p)
        | some (Except.ok item, p) => Parser.parseCollection lib fuel p (items ++ [item])
end

/-- `Parser.parseTriple`. -/
def Parser.parseTriple (lib : StdLib) (fuel : Nat) (p : Parser) :
    Option (Except ParseErr Triple × Parser) :=
  match p.parseSubject lib with
  | none => none
  | some (Except.error e, p) => some (Except.error e, p)
  | some (Except.ok subject, p) =>
    match p.parsePredicate lib with
    | none => none
    | some (Except.error e, p) => some (Except.error e, p)
    | some (Except.ok predicate, p) =>
      match p.parseObject lib fuel with
      | none => none
      | some (Except.error e, p) => some (Except.error e, p)
      | some (Except.ok object, p) =>
        match p.nextToken lib with
        | none => none
        | some (token, p) =>
          if token.Typ ≠ TokenType.Dot then
            some (Except.error (ParseErr.expectedDot token), p)
          else
            some (Except.ok { Subject := subject, Predicate := predicate, Object := object }, p)

/-- The loop of `Parser.Parse`; the result is the returned pair
`([]Triple, error)`. -/
def Parser.ParseLoop (lib : StdLib) : Nat → Parser → Option (List Triple × Option ParseErr)
  | 0, _ => none
  | fuel + 1, p =>
    match p.nextToken lib with
    | none => none
    | some (token, p) =>
      if token.Typ = TokenType.EOF then some (p.triples, none)
      else if token.Typ = TokenType.Prefix ∧ token.Value = "@prefix".toList then
        match p.parsePrefix lib with
        | none => none
        | some (some err, _) => some ([], some err)
        | some (none, p) => Parser.ParseLoop lib fuel p
      else if token.Typ = TokenType.Prefix ∧ token.Value = "@base".toList then
        match p.parseBase lib with
        | none => none
        | some (some err, _) => some ([], some err)
        | some (none, p) => Parser.ParseLoop lib fuel p
      else
        match p.backup.parseTriple lib fuel with
        | none => none
        | some (Except.error err, _) => some ([], some err)
        | some (Except.ok triple, p) =>
          Parser.ParseLoop lib fuel { p with triples := p.triples ++ [triple] }

/-- Fuel for `Parse`: six steps for each rune of the input, and six more. -/
def parseFuel (input : Str) : Nat :=
  6 * input.length + 6

/-- `Parser.Parse` on a fresh parser for `input` (`NewParser(input).Parse()`):
the returned pair `([]Triple, error)`, a `nil` slice being `[]`. -/
def Parse (lib : StdLib) (input : Str) : Option (List Triple × Option ParseErr) :=
  Parser.ParseLoop lib (parseFuel input) (NewParser input)

/-! ## Definitions used to state the properties -/

/-- The reference definition of IRI resolution, following the words of the
specification: a value beginning with `:` is the base followed by the local
part; a value `pfx:local` with `pfx` a registered key is the registered
namespace followed by `local`; every other value is passed through. -/
def expandReference (prefixes : Str → Option Str) (base : Str) (value : Str) : Str :=
  match value with
  | ':' :: loc => base ++ loc
  | _ =>
    if ':' ∈ value then
      match prefixes (value.takeWhile (fun c => c != ':')) with
      | some ns => ns ++ (value.dropWhile (fun c => c != ':')).tail
      | none => value
    else value

/-- A parser at a token boundary of its input: the token cache is used up,
nothing is pushed back in the lexer, `rest` is still unread, and no prefix or
base has been declared. -/
structure Parser.At (p : Parser) (rest : Str) : Prop where
  pos_eq : p.pos = p.tokens.length
  unbuffered : p.lexer.buffered = false
  input_eq : p.lexer.input = rest
  prefixes_eq : p.prefixes = fun _ => none
  base_eq : p.base = []

/-- The value `expandIRI` gives a text when no prefix and no base is declared. -/
def plainIRI (v : Str) : Str :=
  expandReference (fun _ => none) [] v

/-- The error token `Lex` returns for a rune no case of its switch accepts. -/
def unexpectedCharacter (lib : StdLib) (ch : Char) (line col : Int) : Token :=
  { Typ := TokenType.Error, Value := "Unexpected character: ".toList ++ lib.quoteRune ch,
    Line := line, Col := col }

/-- The text `<s> <p> <o> .` of a triple written with IRIs. -/
def statementText (t : Triple) : Str :=
  '<' :: (t.Subject ++ '>' :: ' ' :: '<' :: (t.Predicate ++ '>' :: ' ' :: '<' ::
    (t.Object ++ ['>', ' ', '.'])))

/-- The document that writes each triple of a list as `<s> <p> <o> .`, in
list order, one statement per line. -/
def documentText : List Triple → Str
  | [] => []
  | t :: ts => statementText t ++ '\n' :: documentText ts

/-- A text that can stand between `<` and `>` and is returned as it stands:
it holds no `>` and does not begin with `:`. -/
def PlainText (s : Str) : Prop :=
  '>' ∉ s ∧ s.head? ≠ some ':'

/-- The text `<s> <p1> <o1> ; <p2> <o2> .`. -/
def semicolonText (s p1 o1 p2 o2 : Str) : Str :=
  '<' :: (s ++ '>' :: ' ' :: '<' :: (p1 ++ '>' :: ' ' :: '<' :: (o1 ++ '>' :: ' ' :: ';' :: ' ' ::
    '<' :: (p2 ++ '>' :: ' ' :: '<' :: (o2 ++ ['>', ' ', '.'])))))

/-- A hexadecimal digit, in lower case. -/
def hexDigit (n : Nat) : Char :=
  "0123456789abcdef".toList.getD n '0'

/-- The text `fmt.Sprintf("%q", ch)` of a rune below U+0080, as
`strconv.QuoteRune` writes it: the rune between apostrophes; an apostrophe and
a backslash after a backslash; a control rune as one of `\a \b \f \n \r \t
\v`, or as `\x` and two hexadecimal digits.  A rune from U+0080 on, for which
the library's table of printable runes decides, is left as it stands. -/
def quoteRuneLow (c : Char) : Str :=
  if c = '\'' ∨ c = '\\' then ['\'', '\\', c, '\'']
  else if c = Char.ofNat 7 then ['\'', '\\', 'a', '\'']
  else if c = Char.ofNat 8 then ['\'', '\\', 'b', '\'']
  else if c = Char.ofNat 12 then ['\'', '\\', 'f', '\'']
  else if c = '\n' then ['\'', '\\', 'n', '\'']
  else if c = '\r' then ['\'', '\\', 'r', '\'']
  else if c = '\t' then ['\'', '\\', 't', '\'']
  else if c = Char.ofNat 11 then ['\'', '\\', 'v', '\'']
  else if c.toNat < 32 ∨ c.toNat = 127 then
    ['\'', '\\', 'x', hexDigit (c.toNat / 16), hexDigit (c.toNat % 16), '\'']
  else ['\'', c, '\'']

/-- Library tables for evaluating the lexer on concrete ASCII inputs: no space
and no letter above the fixed ranges, and the `%q` text of a rune as
`quoteRuneLow` gives it. -/
def sampleLib : StdLib :=
  { isSpaceHigh := fun _ => false, isLetterHigh := fun _ => false,
    isDigitHigh := fun _ => false, quoteRune := quoteRuneLow }

/-- The document of the prefix example: a prefix declaration, then a statement
written with prefixed names. -/
def prefixDocument : Str :=
  "@prefix ex: <http://example.org/> .\nex:s ex:p ex:o .".toList

/-- The document of the base example: a base declaration, then a statement
written with `:`-initial names. -/
def baseDocument : Str :=
  "@base <http://example.org/> .\n:s :p :o .".toList

/-- The members `<o1> <o2> ... <on>` of a collection of IRIs. -/
def membersText : List Str → Str
  | [] => []
  | [o] => '<' :: (o ++ ['>'])
  | o :: o' :: os => '<' :: (o ++ '>' :: ' ' :: membersText (o' :: os))

/-- The text `<s> <p> (<o1> ... <on>) .` of a statement whose object is a
collection of IRIs. -/
def collectionStatement (s p : Str) (os : List Str) : Str :=
  '<' :: (s ++ '>' :: ' ' :: '<' :: (p ++ '>' :: ' ' :: '(' :: (membersText os ++ [')', ' ', '.'])))

/-- The token kinds that `Lex` can return: every kind but the directive kinds
`Prefix` and `Base`, the keyword kind `A` and the kind `Colon`. -/
def TokenType.lexed : TokenType → Bool
  | TokenType.Prefix => false
  | TokenType.Base => false
  | TokenType.A => false
  | TokenType.Colon => false
  | _ => true

/-- The lexer states that calls of `Lex` reach from `l`. -/
inductive Lexer.Reaches (lib : StdLib) (l : Lexer) : Lexer → Prop where
  | refl : Lexer.Reaches lib l l
  | step {l1 l2 : Lexer} {tok : Token} :
      Lexer.Reaches lib l l1 → l1.Lex lib = some (tok, l2) → Lexer.Reaches lib l l2

/-- The token `tok` is one of the tokens that repeated calls of `Lex` return
on `input`. -/
def Lexed (lib : StdLib) (input : Str) (tok : Token) : Prop :=
  ∃ l l' : Lexer, Lexer.Reaches lib (NewLexer input) l ∧ l.Lex lib = some (tok, l')

/-- A subject that comes from a token of `input`: the text of an IRI token
resolved by `expandIRI`, or the text of a blank-node (bareword) token. -/
def SubjectOf (lib : StdLib) (input : Str) (v : Str) : Prop :=
  ∃ tok : Token, Lexed lib input tok ∧
    ((tok.Typ = TokenType.IRI ∧ v = plainIRI tok.Value) ∨
     (tok.Typ = TokenType.BlankNode ∧ v = tok.Value))

/-- A predicate that comes from a token of `input`: the text of an IRI token
resolved by `expandIRI`. -/
def PredicateOf (lib : StdLib) (input : Str) (v : Str) : Prop :=
  ∃ tok : Token, Lexed lib input tok ∧ tok.Typ = TokenType.IRI ∧ v = plainIRI tok.Value

/-- An object that comes from tokens of `input`: the resolved text of an IRI
token, the text of a literal or blank-node token, or the parenthesised text of
a collection of such objects. -/
inductive ObjectOf (lib : StdLib) (input : Str) : Str → Prop where
  | iri (tok : Token) : Lexed lib input tok → tok.Typ = TokenType.IRI →
      ObjectOf lib input (plainIRI tok.Value)
  | literal (tok : Token) : Lexed lib input tok → tok.Typ = TokenType.Literal →
      ObjectOf lib input tok.Value
  | blankNode (tok : Token) : Lexed lib input tok → tok.Typ = TokenType.BlankNode →
      ObjectOf lib input tok.Value
  | collection (items : List Str) : (∀ i ∈ items, ObjectOf lib input i) →
      ObjectOf lib input (collectionText items)

/-- A triple whose three terms come from tokens of `input`. -/
def TripleOf (lib : StdLib) (input : Str) (t : Triple) : Prop :=
  SubjectOf lib input t.Subject ∧ PredicateOf lib input t.Predicate ∧
    ObjectOf lib input t.Object

/-- The invariant of the parser on `input`: its lexer is in a state reached
from the start, every cached token was returned by `Lex`, no prefix and no
base is declared, and the terms of every triple parsed so far come from tokens
of `input`. -/
structure Parser.Inv (lib : StdLib) (input : Str) (p : Parser) : Prop where
  reaches : Lexer.Reaches lib (NewLexer input) p.lexer
  cached : ∀ tok ∈ p.tokens, Lexed lib input tok
  prefixes_eq : p.prefixes = fun _ => none
  base_eq : p.base = []
  triples_ok : ∀ t ∈ p.triples, TripleOf lib input t

/-- The weight of a pushed-back rune in the measure of a lexer: a letter makes
`Lex` push it back once more. -/
def runeWeight (lib : StdLib) (ch : Char) : Nat :=
  if isLetter lib ch then 2 else 1

/-- A measure of what a lexer has left to do; every call of `Lex` that does not
return the end-of-input token makes it smaller. -/
def Lexer.measure (lib : StdLib) (l : Lexer) : Nat :=
  3 * l.input.length + (if l.buffered then runeWeight lib l.buffer else 0)

/-- The number of runes `next` can still deliver. -/
def Lexer.steps (l : Lexer) : Nat :=
  l.input.length + (if l.buffered then 1 else 0)

/-- A measure of what a parser has left to read: the cached tokens ahead of
`pos` and the measure of its lexer. -/
def Parser.measure (lib : StdLib) (p : Parser) : Nat :=
  (p.tokens.length - p.pos) + p.lexer.measure lib

/-- A rune that ends a bareword, a blank-node label or a language tag: white
space or one of `.,;()[]<>`. -/
def endsRun (lib : StdLib) (ch : Char) : Bool :=
  isSpace lib ch || isDelim ch

/-- The text `rest` ends a run of word runes: it is empty or begins with white
space or a delimiter. -/
def EndsRun (lib : StdLib) (rest : Str) : Prop :=
  rest = [] ∨ ∃ (c : Char) (r : Str), rest = c :: r ∧ endsRun lib c = true

/-- The state of the lexer after the loop of `lexWord` has read a run up to
`rest`: the rune that ended the run is pushed back, the zero rune when the
input ended. -/
def Lexer.AfterRun (l' : Lexer) (rest : Str) : Prop :=
  l'.buffered = true ∧ l'.input = rest.tail ∧ l'.buffer = rest.headD (Char.ofNat 0)

/-- The token `lexWord` builds for a word: a boolean literal for `true` and
`false`, a blank-node token for every other word. -/
def wordToken (word : Str) (line col : Int) : Token :=
  if word = "true".toList ∨ word = "false".toList then
    { Typ := TokenType.Literal, Value := word ++ xsdBoolean, Line := line, Col := col }
  else
    { Typ := TokenType.BlankNode, Value := word, Line := line, Col := col }

/-- The text `<s> <p> true .`. -/
def booleanStatement (s p : Str) : Str :=
  '<' :: (s ++ '>' :: ' ' :: '<' :: (p ++ "> true .".toList))

/-- The text `<s> a <o> .`. -/
def aStatement (s o : Str) : Str :=
  '<' :: (s ++ "> a <".toList ++ o ++ "> .".toList)

/-- The text `<s> <p> 42 .`. -/
def integerStatement (s p : Str) : Str :=
  '<' :: (s ++ '>' :: ' ' :: '<' :: (p ++ "> 42 .".toList))

/-- The error token `lexBlankNode` returns when `_` is not followed by `:`. -/
def invalidBlankNode (line col : Int) : Token :=
  { Typ := TokenType.Error, Value := "Invalid blank node syntax".toList, Line := line, Col := col }

/-- The error token `lexLiteral` returns for a malformed language tag. -/
def invalidLanguageTag (line col : Int) : Token :=
  { Typ := TokenType.Error, Value := "Invalid language tag".toList, Line := line, Col := col }

/-- The result of the call of `Lex` that follows `n` earlier calls on `l`. -/
def Lexer.LexN (lib : StdLib) : Nat → Lexer → Option (Token × Lexer)
  | 0, l => l.Lex lib
  | n + 1, l =>
    match l.Lex lib with
    | none => none
    | some (_, l') => Lexer.LexN lib n l'

/-- The text `<s> <p> (<o1> ... <on>` of a statement whose collection is not
closed before the end of input. -/
def unclosedStatement (s p : Str) (os : List Str) : Str :=
  '<' :: (s ++ '>' :: ' ' :: '<' :: (p ++ '>' :: ' ' :: '(' :: membersText os))

/-- The tokens that calls of `Lex` return from the lexer `l`, up to and
including the first end-of-input token; `n` bounds the number of calls. -/
def Lexer.tokens (lib : StdLib) : Nat → Lexer → Option (List Token)
  | 0, _ => none
  | n + 1, l =>
    match l.Lex lib with
    | none => none
    | some (tok, l') =>
      if tok.Typ = TokenType.EOF then some [tok]
      else
        match Lexer.tokens lib n l' with
        | none => none
        | some toks => some (tok :: toks)

/-- The token sequence of `input`: what `Lex` returns on it, call after call,
up to and including the end-of-input token. -/
def tokensOf (lib : StdLib) (input : Str) : Option (List Token) :=
  Lexer.tokens lib (3 * input.length + 1) (NewLexer input)

/-- The subject a token stands for: the resolved value of an IRI token, the
value of a blank-node token as it stands. -/
def subjectTerm (prefixes : Str → Option Str) (base : Str) (tok : Token) : Option Str :=
  match tok.Typ with
  | TokenType.IRI => some (expandReference prefixes base tok.Value)
  | TokenType.BlankNode => some tok.Value
  | _ => none

/-- The predicate a token stands for: the resolved value of an IRI token. -/
def predicateTerm (prefixes : Str → Option Str) (base : Str) (tok : Token) : Option Str :=
  match tok.Typ with
  | TokenType.IRI => some (expandReference prefixes base tok.Value)
  | _ => none

mutual
/-- The object at the head of a token list, and the tokens after it: the
resolved value of an IRI token, the value of a literal or blank-node token as
it stands, and for `(` the parenthesised text of the members up to the
matching `)`.  The number bounds the depth of the reading. -/
def objectTerm (prefixes : Str → Option Str) (base : Str) :
    Nat → List Token → Option (Str × List Token)
  | 0, _ => none
  | _ + 1, [] => none
  | n + 1, tok :: rest =>
    match tok.Typ with
    | TokenType.IRI => some (expandReference prefixes base tok.Value, rest)
    | TokenType.Literal => some (tok.Value, rest)
    | TokenType.BlankNode => some (tok.Value, rest)
    | TokenType.CollectionStart =>
      match memberTerms prefixes base n rest with
      | none => none
      | some (members, rest') => some (collectionText members, rest')
    | _ => none
/-- The members of a collection whose `(` has been read: the objects up to the
closing `)`, in order, and the tokens after the `)`. -/
def memberTerms (prefixes : Str → Option Str) (base : Str) :
    Nat → List Token → Option (List Str × List Token)
  | 0, _ => none
  | _ + 1, [] => none
  | n + 1, tok :: rest =>
    if tok.Typ = TokenType.CollectionEnd then some ([], rest)
    else
      match objectTerm prefixes base n (tok :: rest) with
      | none => none
      | some (v, rest') =>
        match memberTerms prefixes base n rest' with
        | none => none
        | some (members, rest'') => some (v :: members, rest'')
end

/-- The statement at the head of a token list, and the tokens after it: a
subject token, a predicate token, an object and a dot. -/
def statementTriple (prefixes : Str → Option Str) (base : Str) :
    List Token → Option (Triple × List Token)
  | tokS :: tokP :: rest =>
    match subjectTerm prefixes base tokS, predicateTerm prefixes base tokP,
      objectTerm prefixes base rest.length rest with
    | some s, some p, some (o, dot :: rest') =>
      if dot.Typ = TokenType.Dot then some (⟨s, p, o⟩, rest') else none
    | _, _, _ => none
  | _ => none

/-- The statements of a token list that ends in the end-of-input token, one
triple for each, in order. -/
def statementTriples (prefixes : Str → Option Str) (base : Str) :
    Nat → List Token → Option (List Triple)
  | 0, _ => none
  | _ + 1, [] => none
  | n + 1, tok :: rest =>
    if tok.Typ = TokenType.EOF then some []
    else
      match statementTriple prefixes base (tok :: rest) with
      | none => none
      | some (t, rest') =>
        match statementTriples prefixes base n rest' with
        | none => none
        | some ts => some (t :: ts)

/-- The triples of a token sequence: one for each of its statements. -/
def triplesOf (prefixes : Str → Option Str) (base : Str) (toks : List Token) :
    Option (List Triple) :=
  statementTriples prefixes base toks.length toks

/-- A parser that is to read the tokens `toks` next: its next token is the
head of `toks`, read from the cache or from the lexer, and the lexer returns
the tokens after it. -/
def Parser.Rem (lib : StdLib) (p : Parser) (toks : List Token) : Prop :=
  ∃ (tok : Token) (p1 : Parser) (rest : List Token),
    p.nextToken lib = some (tok, p1) ∧ p1.pos = p1.tokens.length ∧ toks = tok :: rest ∧
    tok.Typ.lexed = true ∧
    ((tok.Typ = TokenType.EOF ∧ rest = []) ∨
     (tok.Typ ≠ TokenType.EOF ∧ ∃ n, Lexer.tokens lib n p1.lexer = some rest))

/-- A parser at a token boundary whose lexer returns the tokens `toks`. -/
def Parser.Ahead (lib : StdLib) (p : Parser) (toks : List Token) : Prop :=
  p.pos = p.tokens.length ∧ ∃ n, Lexer.tokens lib n p.lexer = some toks

/-- The text after the opening parenthesis of a collection whose members are a
literal, a blank-node label and a nested collection of an IRI and a bareword;
the statement's dot follows the closing parenthesis. -/
def mixedMembers : Str :=
  "\"v\" _:b (<:c> d)) .".toList

/-- The token sequence of `mixedMembers`. -/
def mixedTokens : List Token :=
  [⟨TokenType.Literal, "v".toList, 1, 3⟩, ⟨TokenType.BlankNode, "_:b".toList, 1, 6⟩,
    ⟨TokenType.CollectionStart, "(".toList, 1, 7⟩, ⟨TokenType.IRI, ":c".toList, 1, 11⟩,
    ⟨TokenType.BlankNode, "d".toList, 1, 12⟩, ⟨TokenType.CollectionEnd, ")".toList, 1, 12⟩,
    ⟨TokenType.CollectionEnd, ")".toList, 1, 13⟩, ⟨TokenType.Dot, ".".toList, 1, 15⟩,
    ⟨TokenType.EOF, [], 1, 15⟩]

/-- A document of two statements: a bareword subject with a collection of a
literal, a blank-node label and a nested collection as object, then a
statement of three IRIs, the last one beginning with `:`. -/
def mixedDocument : Str :=
  "ex:s <p> (\"v\" _:b (<:c> d)) .\n<a> <b> <:c> .".toList

/-- The triples `Parse` returns on `mixedDocument`. -/
def mixedTriples : List Triple :=
  [⟨"ex:s".toList, "p".toList, "(v _:b (c d))".toList⟩, ⟨"a".toList, "b".toList, "c".toList⟩]

/-- A parser at the start of `<ex:s> <:p> <o> .` that holds a prefix `ex` and
a base, as after a prefix and a base declaration. -/
def resolvingParser : Parser :=
  { NewParser "<ex:s> <:p> <o> .".toList with
    prefixes := fun k => if k = "ex".toList then some "http://e/".toList else none,
    base := "http://b/".toList }

/-- The token sequence of `<ex:s> <:p> <o> .`. -/
def resolvingTokens : List Token :=
  [⟨TokenType.IRI, "ex:s".toList, 1, 6⟩, ⟨TokenType.IRI, ":p".toList, 1, 11⟩,
    ⟨TokenType.IRI, "o".toList, 1, 15⟩, ⟨TokenType.Dot, ".".toList, 1, 17⟩,
    ⟨TokenType.EOF, [], 1, 17⟩]

/-- The triple of `<ex:s> <:p> <o> .` under the prefix and the base of
`resolvingParser`. -/
def resolvingTriples : List Triple :=
  [⟨"http://e/s".toList, "http://b/p".toList, "o".toList⟩]
/-! ## Lemmas -/

/-! ### `expandIRI` -/

theorem SplitN_two (s : Str) (h : ':' ∈ s) :
    SplitN s ':' 2 =
      [s.takeWhile (fun c => c != ':'), (s.dropWhile (fun c => c != ':')).tail] := by
  have hne : s.dropWhile (fun c => c != ':') ≠ [] := by
    intro h0
    rw [List.dropWhile_eq_nil_iff] at h0
    simpa using h0 ':' h
  simp only [SplitN, List.span_eq_take_drop]
  cases hd : s.dropWhile (fun c => c != ':') with
  | nil => exact absurd hd hne
  | cons c after => simp

theorem expandIRI_eq (p : Parser) (value : Str) :
    p.expandIRI value = some (expandReference p.prefixes p.base value) := by
  match value with
  | [] => simp [Parser.expandIRI, expandReference]
  | c :: rest =>
    by_cases hc : c = ':'
    · subst hc
      simp [Parser.expandIRI, expandReference]
    · have h1 : ¬ ([':'].isPrefixOf (c :: rest) = true) := by
        simp
        exact fun h => hc h.symm
      have href : expandReference p.prefixes p.base (c :: rest) =
          if ':' ∈ (c :: rest) then
            match p.prefixes ((c :: rest).takeWhile (fun c => c != ':')) with
            | some ns => ns ++ ((c :: rest).dropWhile (fun c => c != ':')).tail
            | none => c :: rest
          else c :: rest := by
        unfold expandReference
        split
        · rename_i heq
          exact absurd (List.cons.inj heq).1 hc
        · rfl
      rw [href]
      unfold Parser.expandIRI
      rw [if_neg h1]
      by_cases h2 : ':' ∈ (c :: rest)
      · have h2' : (c :: rest).contains ':' = true := by simpa using h2
        rw [if_pos h2', if_pos h2]
        simp only [SplitN_two _ h2, List.getElem?_cons_zero, List.getElem?_cons_succ]
        cases p.prefixes ((c :: rest).takeWhile (fun c => c != ':')) <;> rfl
      · have h2' : ¬ ((c :: rest).contains ':' = true) := by simpa using h2
        rw [if_neg h2', if_neg h2]


/-! ### The lexer on an IRI, a dot, white space and the end of input -/

theorem lexIRILoop_closed (s rest : Str) (hs : '>' ∉ s) :
    ∀ (fuel : Nat) (l : Lexer) (sb : Str), l.buffered = false →
      l.input = s ++ '>' :: rest → s.length + 1 ≤ fuel →
      ∃ l', Lexer.lexIRILoop fuel l sb = some (sb ++ s, l') ∧
        l'.input = rest ∧ l'.buffered = false := by
  induction s with
  | nil =>
    intro fuel l sb hb hin hf
    obtain ⟨f, rfl⟩ : ∃ f, fuel = f + 1 := ⟨fuel - 1, by simp at hf; omega⟩
    simp only [List.nil_append] at hin
    simp [Lexer.lexIRILoop, Lexer.next, hb, hin]
  | cons c s ih =>
    intro fuel l sb hb hin hf
    obtain ⟨f, rfl⟩ : ∃ f, fuel = f + 1 := ⟨fuel - 1, by simp at hf; omega⟩
    have hc : c ≠ '>' := fun h => hs (by simp [h])
    have hs' : '>' ∉ s := fun h => hs (by simp [h])
    simp only [List.cons_append] at hin
    by_cases hnl : c = '\n'
    · obtain ⟨l', h1, h2, h3⟩ := ih hs' f
        { l with input := s ++ '>' :: rest, line := l.line + 1, col := 0 } (sb ++ [c])
        hb rfl (by simp at hf ⊢; omega)
      refine ⟨l', ?_, h2, h3⟩
      simp [Lexer.lexIRILoop, Lexer.next, hb, hin, hnl, hc] at h1 ⊢
      simpa [hnl] using h1
    · obtain ⟨l', h1, h2, h3⟩ := ih hs' f
        { l with input := s ++ '>' :: rest, col := l.col + 1 } (sb ++ [c])
        hb rfl (by simp at hf ⊢; omega)
      refine ⟨l', ?_, h2, h3⟩
      simp [Lexer.lexIRILoop, Lexer.next, hb, hin, hnl, hc] at h1 ⊢
      exact h1

/-- `Lex` on `<s>`: the IRI token with text `s`. -/
theorem Lex_IRI (lib : StdLib) (s rest : Str) (hs : '>' ∉ s) (l : Lexer)
    (hb : l.buffered = false) (hin : l.input = '<' :: (s ++ '>' :: rest)) :
    ∃ tok l', l.Lex lib = some (tok, l') ∧ tok.Typ = TokenType.IRI ∧ tok.Value = s ∧
      l'.input = rest ∧ l'.buffered = false := by
  have hstep : l.Lex lib =
      Lexer.lexIRI { l with input := s ++ '>' :: rest, col := l.col + 1 } := by
    simp [Lexer.Lex, Lexer.fuel, Lexer.LexLoop, Lexer.next, hb, hin, isSpace]
  obtain ⟨l', h1, h2, h3⟩ := lexIRILoop_closed s rest hs
    (Lexer.fuel { l with input := s ++ '>' :: rest, col := l.col + 1 })
    { l with input := s ++ '>' :: rest, col := l.col + 1 } [] hb rfl
    (by simp [Lexer.fuel]; omega)
  refine ⟨⟨TokenType.IRI, s, l'.line, l'.col⟩, l', ?_, rfl, rfl, h2, h3⟩
  rw [hstep, Lexer.lexIRI, h1]
  rfl

/-- `Lex` skips a leading space or newline. -/
theorem Lex_skip (lib : StdLib) (c : Char) (hc : c = ' ' ∨ c = '\n') (rest : Str) (l : Lexer)
    (hb : l.buffered = false) (hin : l.input = c :: rest) :
    ∃ l1 : Lexer, l1.buffered = false ∧ l1.input = rest ∧ l.Lex lib = l1.Lex lib := by
  rcases hc with rfl | rfl
  · refine ⟨{ l with input := rest, col := l.col + 1 }, hb, rfl, ?_⟩
    simp [Lexer.Lex, Lexer.fuel, Lexer.LexLoop, Lexer.next, hb, hin, isSpace]
  · refine ⟨{ l with input := rest, line := l.line + 1, col := 0 }, hb, rfl, ?_⟩
    simp [Lexer.Lex, Lexer.fuel, Lexer.LexLoop, Lexer.next, hb, hin, isSpace]

/-- `Lex` on `.`: the dot token. -/
theorem Lex_dot (lib : StdLib) (rest : Str) (l : Lexer)
    (hb : l.buffered = false) (hin : l.input = '.' :: rest) :
    ∃ tok l', l.Lex lib = some (tok, l') ∧ tok.Typ = TokenType.Dot ∧
      l'.input = rest ∧ l'.buffered = false := by
  refine ⟨⟨TokenType.Dot, ['.'], l.line, l.col + 1⟩,
    { l with input := rest, col := l.col + 1 }, ?_, rfl, rfl, hb⟩
  simp [Lexer.Lex, Lexer.fuel, Lexer.LexLoop, Lexer.next, hb, hin, isSpace]

/-- `Lex` on `;`: the semicolon token. -/
theorem Lex_semicolon (lib : StdLib) (rest : Str) (l : Lexer)
    (hb : l.buffered = false) (hin : l.input = ';' :: rest) :
    ∃ tok l', l.Lex lib = some (tok, l') ∧ tok.Typ = TokenType.Semicolon ∧
      l'.input = rest ∧ l'.buffered = false := by
  refine ⟨⟨TokenType.Semicolon, [';'], l.line, l.col + 1⟩,
    { l with input := rest, col := l.col + 1 }, ?_, rfl, rfl, hb⟩
  simp [Lexer.Lex, Lexer.fuel, Lexer.LexLoop, Lexer.next, hb, hin, isSpace]

/-- `Lex` at the end of the input: the end-of-input token, the lexer unchanged. -/
theorem Lex_eof (lib : StdLib) (l : Lexer) (hb : l.buffered = false) (hin : l.input = []) :
    l.Lex lib = some (⟨TokenType.EOF, [], l.line, l.col⟩, l) := by
  simp [Lexer.Lex, Lexer.fuel, Lexer.LexLoop, Lexer.next, hb, hin]


/-! ### The parser at a token boundary -/

theorem expandReference_plain (v : Str) (hv : v.head? ≠ some ':') :
    expandReference (fun _ => none) [] v = v := by
  unfold expandReference
  split
  · simp at hv
  · split <;> rfl

theorem expandIRI_At (p : Parser) (rest : Str) (h : p.At rest) (v : Str) :
    p.expandIRI v = some (expandReference (fun _ => none) [] v) := by
  rw [expandIRI_eq, h.prefixes_eq, h.base_eq]

/-- At a token boundary `nextToken` takes its token from the lexer. -/
theorem nextToken_At (lib : StdLib) (p : Parser) (rest rest' : Str) (h : p.At rest)
    (tok : Token) (l' : Lexer) (hlex : p.lexer.Lex lib = some (tok, l'))
    (hb : l'.buffered = false) (hin : l'.input = rest') :
    ∃ p', p.nextToken lib = some (tok, p') ∧ p'.At rest' ∧ p'.triples = p.triples ∧
      p'.tokens = p.tokens ++ [tok] ∧ p'.pos = p.tokens.length + 1 := by
  refine ⟨{ p with lexer := l', tokens := p.tokens ++ [tok], pos := p.pos + 1 }, ?_,
    ⟨?_, hb, hin, h.prefixes_eq, h.base_eq⟩, rfl, rfl, ?_⟩
  · unfold Parser.nextToken
    rw [h.pos_eq, List.getElem?_eq_none (Nat.le_refl _), hlex]
  · simp [h.pos_eq]
  · simp [h.pos_eq]

/-- White space before a token is invisible to `nextToken`. -/
theorem nextToken_skip (lib : StdLib) (p : Parser) (c : Char) (hc : c = ' ' ∨ c = '\n')
    (rest : Str) (h : p.At (c :: rest)) :
    ∃ p1 : Parser, p1.At rest ∧ p1.triples = p.triples ∧ p1.tokens = p.tokens ∧
      p.nextToken lib = p1.nextToken lib := by
  obtain ⟨l1, hb1, hin1, hlex⟩ := Lex_skip lib c hc rest p.lexer h.unbuffered h.input_eq
  refine ⟨{ p with lexer := l1 }, ⟨h.pos_eq, hb1, hin1, h.prefixes_eq, h.base_eq⟩, rfl, rfl, ?_⟩
  unfold Parser.nextToken
  rw [h.pos_eq, List.getElem?_eq_none (Nat.le_refl _)]
  simp only [hlex]

/-- After `backup` the token just read is read again, from the cache. -/
theorem nextToken_backup (lib : StdLib) (p : Parser) (tok : Token)
    (ht : p.tokens = p.tokens.dropLast ++ [tok]) (hp : p.pos = p.tokens.length) (hpos : 0 < p.pos) :
    p.backup.nextToken lib = some (tok, p) := by
  have hlen : p.tokens.dropLast.length = p.pos - 1 := by
    rw [List.length_dropLast, hp]
  have hget : p.tokens[p.pos - 1]? = some tok := by
    rw [ht, ← hlen]
    simp
  unfold Parser.backup Parser.nextToken
  simp only [gt_iff_lt, hpos, if_true, hget]
  have : p.pos - 1 + 1 = p.pos := by omega
  rw [this]

/-! ### Statements written with IRIs -/

theorem nextToken_IRI (lib : StdLib) (p : Parser) (s rest : Str) (hs : '>' ∉ s)
    (h : p.At ('<' :: (s ++ '>' :: rest))) :
    ∃ tok p', p.nextToken lib = some (tok, p') ∧ tok.Typ = TokenType.IRI ∧ tok.Value = s ∧
      p'.At rest ∧ p'.triples = p.triples ∧
      p'.tokens = p.tokens ++ [tok] ∧ p'.pos = p.tokens.length + 1 := by
  obtain ⟨tok, l', hlex, ht, hv, hin, hb⟩ :=
    Lex_IRI lib s rest hs p.lexer h.unbuffered h.input_eq
  obtain ⟨p', h1, h2, h3, h4, h5⟩ := nextToken_At lib p _ rest h tok l' hlex hb hin
  exact ⟨tok, p', h1, ht, hv, h2, h3, h4, h5⟩

theorem nextToken_sp_IRI (lib : StdLib) (p : Parser) (s rest : Str) (hs : '>' ∉ s)
    (h : p.At (' ' :: '<' :: (s ++ '>' :: rest))) :
    ∃ tok p', p.nextToken lib = some (tok, p') ∧ tok.Typ = TokenType.IRI ∧ tok.Value = s ∧
      p'.At rest ∧ p'.triples = p.triples := by
  obtain ⟨p1, hp1, ht1, _, heq⟩ := nextToken_skip lib p ' ' (Or.inl rfl) _ h
  obtain ⟨tok, p', h1, h2, h3, h4, h5, _, _⟩ := nextToken_IRI lib p1 s rest hs hp1
  exact ⟨tok, p', heq ▸ h1, h2, h3, h4, h5.trans ht1⟩

theorem nextToken_sp_dot (lib : StdLib) (p : Parser) (rest : Str)
    (h : p.At (' ' :: '.' :: rest)) :
    ∃ tok p', p.nextToken lib = some (tok, p') ∧ tok.Typ = TokenType.Dot ∧
      p'.At rest ∧ p'.triples = p.triples := by
  obtain ⟨p1, hp1, ht1, _, heq⟩ := nextToken_skip lib p ' ' (Or.inl rfl) _ h
  obtain ⟨tok, l', hlex, ht, hin, hb⟩ := Lex_dot lib rest p1.lexer hp1.unbuffered hp1.input_eq
  obtain ⟨p', h1, h2, h3, _, _⟩ := nextToken_At lib p1 _ rest hp1 tok l' hlex hb hin
  exact ⟨tok, p', heq ▸ h1, ht, h2, h3.trans ht1⟩

theorem nextToken_sp_semicolon (lib : StdLib) (p : Parser) (rest : Str)
    (h : p.At (' ' :: ';' :: rest)) :
    ∃ tok p', p.nextToken lib = some (tok, p') ∧ tok.Typ = TokenType.Semicolon ∧
      p'.At rest ∧ p'.triples = p.triples := by
  obtain ⟨p1, hp1, ht1, _, heq⟩ := nextToken_skip lib p ' ' (Or.inl rfl) _ h
  obtain ⟨tok, l', hlex, ht, hin, hb⟩ :=
    Lex_semicolon lib rest p1.lexer hp1.unbuffered hp1.input_eq
  obtain ⟨p', h1, h2, h3, _, _⟩ := nextToken_At lib p1 _ rest hp1 tok l' hlex hb hin
  exact ⟨tok, p', heq ▸ h1, ht, h2, h3.trans ht1⟩

theorem parsePredicate_IRI (lib : StdLib) (p : Parser) (s rest : Str) (hs : '>' ∉ s)
    (h : p.At (' ' :: '<' :: (s ++ '>' :: rest))) :
    ∃ p', p.parsePredicate lib = some (Except.ok (plainIRI s), p') ∧
      p'.At rest ∧ p'.triples = p.triples := by
  obtain ⟨tok, p', h1, h2, h3, h4, h5⟩ := nextToken_sp_IRI lib p s rest hs h
  refine ⟨p', ?_, h4, h5⟩
  simp only [Parser.parsePredicate, h1, h2, expandIRI_At p' rest h4, h3, plainIRI]

theorem parseObject_IRI (lib : StdLib) (fuel : Nat) (p : Parser) (s rest : Str) (hs : '>' ∉ s)
    (h : p.At (' ' :: '<' :: (s ++ '>' :: rest))) :
    ∃ p', p.parseObject lib (fuel + 1) = some (Except.ok (plainIRI s), p') ∧
      p'.At rest ∧ p'.triples = p.triples := by
  obtain ⟨tok, p', h1, h2, h3, h4, h5⟩ := nextToken_sp_IRI lib p s rest hs h
  refine ⟨p', ?_, h4, h5⟩
  simp only [Parser.parseObject, h1, h2, expandIRI_At p' rest h4, h3, plainIRI]

/-- The first three terms of a statement `<s> <p> <o>` read by the loop of
`Parse`: the subject is read, pushed back and read again by `parseTriple`;
what is left is the token that closes the statement. -/
theorem ParseLoop_terms (lib : StdLib) (fuel : Nat) (p : Parser) (s pr o rest : Str)
    (hs : '>' ∉ s) (hpr : '>' ∉ pr) (ho : '>' ∉ o)
    (h : p.At ('<' :: (s ++ '>' :: ' ' :: '<' :: (pr ++ '>' :: ' ' :: '<' :: (o ++ '>' :: rest))))) :
    ∃ p' : Parser, p'.At rest ∧ p'.triples = p.triples ∧
      Parser.ParseLoop lib (fuel + 2) p =
        match p'.nextToken lib with
        | none => none
        | some (token, p'') =>
          if token.Typ ≠ TokenType.Dot then some ([], some (ParseErr.expectedDot token))
          else Parser.ParseLoop lib (fuel + 1)
            { p'' with triples := p''.triples ++
                [{ Subject := plainIRI s, Predicate := plainIRI pr, Object := plainIRI o }] } := by
  obtain ⟨tok, p1, h1, h2, h3, h4, h5, h6, h7⟩ := nextToken_IRI lib p s _ hs h
  have hback : p1.backup.nextToken lib = some (tok, p1) := by
    apply nextToken_backup
    · rw [h6]; simp
    · rw [h7, h6]; simp
    · rw [h7]; omega
  obtain ⟨p2, hp2, hat2, ht2⟩ := parsePredicate_IRI lib p1 pr _ hpr h4
  obtain ⟨p3, hp3, hat3, ht3⟩ := parseObject_IRI lib fuel p2 o _ ho hat2
  refine ⟨p3, hat3, by rw [ht3, ht2, h5], ?_⟩
  simp only [Parser.ParseLoop, h1, h2, Parser.parseTriple, Parser.parseSubject, hback,
    expandIRI_At p1 _ h4, h3, hp2, hp3]
  simp only [plainIRI]
  cases hnt : p3.nextToken lib with
  | none => simp
  | some r =>
    obtain ⟨token, p4⟩ := r
    by_cases hd : token.Typ = TokenType.Dot <;> simp [hd]

/-! ### Documents that begin with `@` -/

theorem parseFuel_cons (c : Char) (rest : Str) :
    parseFuel (c :: rest) = (6 * rest.length + 11) + 1 := by
  simp [parseFuel]
  omega

/-- A document that begins with `@`: `Lex` has no case for `@`, so the first
token is an error token and `Parse` fails on the subject. -/
theorem Parse_leading_at (lib : StdLib) (rest : Str) :
    Parse lib ('@' :: rest) =
      some ([], some (ParseErr.invalidSubject (unexpectedCharacter lib '@' 1 1))) := by
  rw [Parse, parseFuel_cons]
  simp [Parser.ParseLoop, NewParser, NewLexer, Parser.nextToken, Lexer.Lex, Lexer.fuel,
    Lexer.LexLoop, Lexer.next, isSpace, isLetter, Parser.backup, Parser.parseTriple,
    Parser.parseSubject, unexpectedCharacter]

/-! ### Documents of IRI statements -/

theorem NewParser_At (input : Str) : (NewParser input).At input :=
  ⟨rfl, rfl, rfl, rfl, rfl⟩

theorem plainIRI_of_PlainText (s : Str) (h : PlainText s) : plainIRI s = s :=
  expandReference_plain s h.2

theorem ParseLoop_skip (lib : StdLib) (fuel : Nat) (p : Parser) (c : Char)
    (hc : c = ' ' ∨ c = '\n') (rest : Str) (h : p.At (c :: rest)) :
    ∃ p1 : Parser, p1.At rest ∧ p1.triples = p.triples ∧
      Parser.ParseLoop lib fuel p = Parser.ParseLoop lib fuel p1 := by
  obtain ⟨p1, h1, h2, _, h4⟩ := nextToken_skip lib p c hc rest h
  refine ⟨p1, h1, h2, ?_⟩
  cases fuel with
  | zero => rfl
  | succ f => simp only [Parser.ParseLoop, h4]

theorem ParseLoop_eof (lib : StdLib) (fuel : Nat) (p : Parser) (h : p.At []) :
    Parser.ParseLoop lib (fuel + 1) p = some (p.triples, none) := by
  have hlex := Lex_eof lib p.lexer h.unbuffered h.input_eq
  obtain ⟨p', h1, _, h3, _, _⟩ := nextToken_At lib p [] [] h _ _ hlex h.unbuffered h.input_eq
  simp [Parser.ParseLoop, h1, h3]

/-- One round of the loop of `Parse` on a statement `<s> <p> <o> .`. -/
theorem ParseLoop_statement (lib : StdLib) (fuel : Nat) (p : Parser) (s pr o rest : Str)
    (hs : '>' ∉ s) (hpr : '>' ∉ pr) (ho : '>' ∉ o)
    (h : p.At ('<' :: (s ++ '>' :: ' ' :: '<' :: (pr ++ '>' :: ' ' :: '<' ::
      (o ++ '>' :: ' ' :: '.' :: rest))))) :
    ∃ p' : Parser, p'.At rest ∧
      p'.triples = p.triples ++
        [{ Subject := plainIRI s, Predicate := plainIRI pr, Object := plainIRI o }] ∧
      Parser.ParseLoop lib (fuel + 2) p = Parser.ParseLoop lib (fuel + 1) p' := by
  obtain ⟨p1, hat1, ht1, hloop⟩ := ParseLoop_terms lib fuel p s pr o _ hs hpr ho h
  obtain ⟨tok, p2, hnt, htyp, hat2, ht2⟩ := nextToken_sp_dot lib p1 rest hat1
  refine ⟨{ p2 with triples := p2.triples ++
      [{ Subject := plainIRI s, Predicate := plainIRI pr, Object := plainIRI o }] },
    ⟨hat2.pos_eq, hat2.unbuffered, hat2.input_eq, hat2.prefixes_eq, hat2.base_eq⟩, ?_, ?_⟩
  · simp [ht2, ht1]
  · rw [hloop, hnt]
    simp [htyp]

theorem length_le_documentText (ts : List Triple) : ts.length ≤ (documentText ts).length := by
  induction ts with
  | nil => simp
  | cons t ts ih =>
    simp [documentText, statementText]
    omega

theorem ParseLoop_document (lib : StdLib) (ts : List Triple)
    (hts : ∀ t ∈ ts, PlainText t.Subject ∧ PlainText t.Predicate ∧ PlainText t.Object) :
    ∀ (fuel : Nat) (p : Parser), p.At (documentText ts) → ts.length + 2 ≤ fuel →
      Parser.ParseLoop lib fuel p = some (p.triples ++ ts, none) := by
  induction ts with
  | nil =>
    intro fuel p h hf
    obtain ⟨f, rfl⟩ : ∃ f, fuel = f + 1 := ⟨fuel - 1, by omega⟩
    simpa using ParseLoop_eof lib f p h
  | cons t ts ih =>
    intro fuel p h hf
    obtain ⟨f, rfl⟩ : ∃ f, fuel = f + 2 := ⟨fuel - 2, by simp at hf; omega⟩
    obtain ⟨h1, h2, h3⟩ := hts t (by simp)
    have h' : p.At ('<' :: (t.Subject ++ '>' :: ' ' :: '<' :: (t.Predicate ++ '>' :: ' ' :: '<' ::
        (t.Object ++ '>' :: ' ' :: '.' :: '\n' :: documentText ts)))) := by
      simpa [documentText, statementText] using h
    obtain ⟨p1, hat1, ht1, hloop1⟩ :=
      ParseLoop_statement lib f p _ _ _ _ h1.1 h2.1 h3.1 h'
    obtain ⟨p2, hat2, ht2, hloop2⟩ := ParseLoop_skip lib (f + 1) p1 '\n' (Or.inr rfl) _ hat1
    rw [hloop1, hloop2, ih (fun t ht => hts t (by simp [ht])) (f + 1) p2 hat2
      (by simp at hf; omega), ht2, ht1, plainIRI_of_PlainText _ h1, plainIRI_of_PlainText _ h2,
      plainIRI_of_PlainText _ h3]
    simp

theorem Parse_semicolonText_aux (lib : StdLib) (s p1 o1 p2 o2 : Str)
    (hs : '>' ∉ s) (hp1 : '>' ∉ p1) (ho1 : '>' ∉ o1) :
    ∃ tok : Token, tok.Typ = TokenType.Semicolon ∧
      Parse lib (semicolonText s p1 o1 p2 o2) = some ([], some (ParseErr.expectedDot tok)) := by
  obtain ⟨f, hf⟩ : ∃ f, parseFuel (semicolonText s p1 o1 p2 o2) = f + 2 :=
    ⟨parseFuel (semicolonText s p1 o1 p2 o2) - 2, by simp [parseFuel]⟩
  obtain ⟨p1', hat1, _, hloop⟩ := ParseLoop_terms lib f (NewParser (semicolonText s p1 o1 p2 o2))
    s p1 o1 _ hs hp1 ho1 (NewParser_At _)
  obtain ⟨tok, p2', hnt, htyp, _, _⟩ := nextToken_sp_semicolon lib p1' _ hat1
  refine ⟨tok, htyp, ?_⟩
  rw [Parse, hf, hloop, hnt]
  simp [htyp]

/-! ### A literal that the end of input closes -/

theorem lexLiteralLoop_open (w : Str) (hw : '"' ∉ w) :
    ∀ (fuel : Nat) (l : Lexer) (sb : Str), l.buffered = false →
      l.input = w → w.length + 1 ≤ fuel →
      ∃ l', Lexer.lexLiteralLoop fuel l sb = some (sb ++ w, l') ∧
        l'.input = [] ∧ l'.buffered = false := by
  induction w with
  | nil =>
    intro fuel l sb hb hin hf
    obtain ⟨f, rfl⟩ : ∃ f, fuel = f + 1 := ⟨fuel - 1, by simp at hf; omega⟩
    exact ⟨l, by simp [Lexer.lexLiteralLoop, Lexer.next, hb, hin], hin, hb⟩
  | cons c w ih =>
    intro fuel l sb hb hin hf
    obtain ⟨f, rfl⟩ : ∃ f, fuel = f + 1 := ⟨fuel - 1, by simp at hf; omega⟩
    have hc : c ≠ '"' := fun h => hw (by simp [h])
    have hw' : '"' ∉ w := fun h => hw (by simp [h])
    by_cases hnl : c = '\n'
    · obtain ⟨l', h1, h2, h3⟩ := ih hw' f
        { l with input := w, line := l.line + 1, col := 0 } (sb ++ [c])
        hb rfl (by simp at hf ⊢; omega)
      refine ⟨l', ?_, h2, h3⟩
      simp [Lexer.lexLiteralLoop, Lexer.next, hb, hin, hnl, hc] at h1 ⊢
      simpa [hnl] using h1
    · obtain ⟨l', h1, h2, h3⟩ := ih hw' f
        { l with input := w, col := l.col + 1 } (sb ++ [c])
        hb rfl (by simp at hf ⊢; omega)
      refine ⟨l', ?_, h2, h3⟩
      simp [Lexer.lexLiteralLoop, Lexer.next, hb, hin, hnl, hc] at h1 ⊢
      exact h1

/-- `Lex` on an opening quote followed by `w` and the end of input. -/
theorem Lex_open_literal (lib : StdLib) (w : Str) (hw : '"' ∉ w) :
    ∃ tok l', (NewLexer ('"' :: w)).Lex lib = some (tok, l') ∧
      tok.Typ = TokenType.Literal ∧ tok.Value = w ∧ l'.input = [] ∧ l'.buffered = false := by
  have hstep : (NewLexer ('"' :: w)).Lex lib =
      Lexer.lexLiteral lib { NewLexer ('"' :: w) with input := w, col := 1 } := by
    simp [Lexer.Lex, Lexer.fuel, Lexer.LexLoop, Lexer.next, NewLexer, isSpace]
  obtain ⟨l', h1, h2, h3⟩ := lexLiteralLoop_open w hw
    (Lexer.fuel { NewLexer ('"' :: w) with input := w, col := 1 })
    { NewLexer ('"' :: w) with input := w, col := 1 } [] rfl rfl
    (by simp [Lexer.fuel])
  refine ⟨⟨TokenType.Literal, w, l'.line, l'.col⟩, l', ?_, rfl, rfl, h2, h3⟩
  rw [hstep, Lexer.lexLiteral, h1]
  simp [Lexer.next, h2, h3]

/-! ### Collections of IRIs -/

/-- `Lex` on `(`. -/
theorem Lex_open (lib : StdLib) (rest : Str) (l : Lexer)
    (hb : l.buffered = false) (hin : l.input = '(' :: rest) :
    ∃ tok l', l.Lex lib = some (tok, l') ∧ tok.Typ = TokenType.CollectionStart ∧
      l'.input = rest ∧ l'.buffered = false := by
  refine ⟨⟨TokenType.CollectionStart, ['('], l.line, l.col + 1⟩,
    { l with input := rest, col := l.col + 1 }, ?_, rfl, rfl, hb⟩
  simp [Lexer.Lex, Lexer.fuel, Lexer.LexLoop, Lexer.next, hb, hin, isSpace]

/-- `Lex` on `)`. -/
theorem Lex_close (lib : StdLib) (rest : Str) (l : Lexer)
    (hb : l.buffered = false) (hin : l.input = ')' :: rest) :
    ∃ tok l', l.Lex lib = some (tok, l') ∧ tok.Typ = TokenType.CollectionEnd ∧
      l'.input = rest ∧ l'.buffered = false := by
  refine ⟨⟨TokenType.CollectionEnd, [')'], l.line, l.col + 1⟩,
    { l with input := rest, col := l.col + 1 }, ?_, rfl, rfl, hb⟩
  simp [Lexer.Lex, Lexer.fuel, Lexer.LexLoop, Lexer.next, hb, hin, isSpace]

theorem parseCollection_skip (lib : StdLib) (fuel : Nat) (p : Parser) (items : List Str)
    (rest : Str) (h : p.At (' ' :: rest)) :
    ∃ p1 : Parser, p1.At rest ∧ p1.triples = p.triples ∧
      Parser.parseCollection lib fuel p items = Parser.parseCollection lib fuel p1 items := by
  obtain ⟨p1, h1, h2, _, h4⟩ := nextToken_skip lib p ' ' (Or.inl rfl) rest h
  refine ⟨p1, h1, h2, ?_⟩
  cases fuel with
  | zero => simp [Parser.parseCollection]
  | succ f => simp only [Parser.parseCollection, h4]

/-- One round of the loop of `parseCollection` on a member `<o>`. -/
theorem parseCollection_member (lib : StdLib) (fuel : Nat) (p : Parser) (items : List Str)
    (o rest : Str) (ho : '>' ∉ o) (h : p.At ('<' :: (o ++ '>' :: rest))) :
    ∃ p' : Parser, p'.At rest ∧ p'.triples = p.triples ∧
      Parser.parseCollection lib (fuel + 2) p items =
        Parser.parseCollection lib (fuel + 1) p' (items ++ [plainIRI o]) := by
  obtain ⟨tok, p1, h1, h2, h3, h4, h5, h6, h7⟩ := nextToken_IRI lib p o _ ho h
  have hback : p1.backup.nextToken lib = some (tok, p1) := by
    apply nextToken_backup
    · rw [h6]; simp
    · rw [h7, h6]; simp
    · rw [h7]; omega
  refine ⟨p1, h4, h5, ?_⟩
  simp only [Parser.parseCollection, h1, h2, Parser.parseObject, hback,
    expandIRI_At p1 _ h4, h3, plainIRI]
  simp

theorem parseCollection_close (lib : StdLib) (fuel : Nat) (p : Parser) (items : List Str)
    (rest : Str) (h : p.At (')' :: rest)) :
    ∃ p' : Parser, p'.At rest ∧ p'.triples = p.triples ∧
      Parser.parseCollection lib (fuel + 1) p items =
        some (Except.ok (collectionText items), p') := by
  obtain ⟨tok, l', hlex, ht, hin, hb⟩ := Lex_close lib rest p.lexer h.unbuffered h.input_eq
  obtain ⟨p', h1, h2, h3, _, _⟩ := nextToken_At lib p _ rest h tok l' hlex hb hin
  refine ⟨p', h2, h3, ?_⟩
  simp [Parser.parseCollection, h1, ht]

theorem parseCollection_members (lib : StdLib) (rest : Str) (os : List Str)
    (hos : ∀ o ∈ os, '>' ∉ o) :
    ∀ (fuel : Nat) (p : Parser) (items : List Str),
      p.At (membersText os ++ ')' :: rest) → os.length + 1 ≤ fuel →
      ∃ p' : Parser, p'.At rest ∧ p'.triples = p.triples ∧
        Parser.parseCollection lib fuel p items =
          some (Except.ok (collectionText (items ++ os.map plainIRI)), p') := by
  induction os with
  | nil =>
    intro fuel p items h hf
    obtain ⟨f, rfl⟩ : ∃ f, fuel = f + 1 := ⟨fuel - 1, by simp at hf; omega⟩
    simpa [membersText] using parseCollection_close lib f p items rest (by simpa [membersText] using h)
  | cons o os ih =>
    intro fuel p items h hf
    obtain ⟨f, rfl⟩ : ∃ f, fuel = f + 2 := ⟨fuel - 2, by simp at hf; omega⟩
    have ho : '>' ∉ o := hos o (by simp)
    have hos' : ∀ o ∈ os, '>' ∉ o := fun o' ho' => hos o' (by simp [ho'])
    cases os with
    | nil =>
      have h' : p.At ('<' :: (o ++ '>' :: ')' :: rest)) := by simpa [membersText] using h
      obtain ⟨p1, hat1, ht1, hstep⟩ := parseCollection_member lib f p items o _ ho h'
      obtain ⟨p2, hat2, ht2, hclose⟩ := parseCollection_close lib f p1 (items ++ [plainIRI o]) rest hat1
      exact ⟨p2, hat2, ht2.trans ht1, by rw [hstep, hclose]; simp⟩
    | cons o' os =>
      have h' : p.At ('<' :: (o ++ '>' :: ' ' :: (membersText (o' :: os) ++ ')' :: rest))) := by
        simpa [membersText] using h
      obtain ⟨p1, hat1, ht1, hstep⟩ := parseCollection_member lib f p items o _ ho h'
      obtain ⟨p2, hat2, ht2, hskip⟩ :=
        parseCollection_skip lib (f + 1) p1 (items ++ [plainIRI o]) _ hat1
      obtain ⟨p3, hat3, ht3, hrest⟩ := ih hos' (f + 1) p2 (items ++ [plainIRI o]) hat2
        (by simp at hf ⊢; omega)
      exact ⟨p3, hat3, ht3.trans (ht2.trans ht1), by rw [hstep, hskip, hrest]; simp⟩

/-- The subject and the predicate of a statement `<s> <p> ...` read by the
loop of `Parse`; what is left is the object and the closing token. -/
theorem ParseLoop_subject_predicate (lib : StdLib) (fuel : Nat) (p : Parser) (s pr rest : Str)
    (hs : '>' ∉ s) (hpr : '>' ∉ pr)
    (h : p.At ('<' :: (s ++ '>' :: ' ' :: '<' :: (pr ++ '>' :: rest)))) :
    ∃ p2 : Parser, p2.At rest ∧ p2.triples = p.triples ∧
      Parser.ParseLoop lib (fuel + 1) p =
        match p2.parseObject lib fuel with
        | none => none
        | some (Except.error e, _) => some ([], some e)
        | some (Except.ok object, p3) =>
          match p3.nextToken lib with
          | none => none
          | some (token, p4) =>
            if token.Typ ≠ TokenType.Dot then some ([], some (ParseErr.expectedDot token))
            else Parser.ParseLoop lib fuel
              { p4 with triples := p4.triples ++
                  [{ Subject := plainIRI s, Predicate := plainIRI pr, Object := object }] } := by
  obtain ⟨tok, p1, h1, h2, h3, h4, h5, h6, h7⟩ := nextToken_IRI lib p s _ hs h
  have hback : p1.backup.nextToken lib = some (tok, p1) := by
    apply nextToken_backup
    · rw [h6]; simp
    · rw [h7, h6]; simp
    · rw [h7]; omega
  obtain ⟨p2, hp2, hat2, ht2⟩ := parsePredicate_IRI lib p1 pr _ hpr h4
  refine ⟨p2, hat2, by rw [ht2, h5], ?_⟩
  simp only [Parser.ParseLoop, h1, h2, Parser.parseTriple, Parser.parseSubject, hback,
    expandIRI_At p1 _ h4, h3, hp2]
  simp only [plainIRI]
  cases hobj : p2.parseObject lib fuel with
  | none => simp
  | some r =>
    obtain ⟨r, p3⟩ := r
    cases r with
    | error e => simp
    | ok object =>
      cases hnt : p3.nextToken lib with
      | none => simp [hnt]
      | some r =>
        obtain ⟨token, p4⟩ := r
        by_cases hd : token.Typ = TokenType.Dot <;> simp [hnt, hd]

/-- `parseObject` on a collection of IRIs. -/
theorem parseObject_collection (lib : StdLib) (rest : Str) (os : List Str)
    (hos : ∀ o ∈ os, '>' ∉ o) (fuel : Nat) (p : Parser)
    (h : p.At (' ' :: '(' :: (membersText os ++ ')' :: rest))) (hf : os.length + 2 ≤ fuel) :
    ∃ p' : Parser, p'.At rest ∧ p'.triples = p.triples ∧
      p.parseObject lib fuel = some (Except.ok (collectionText (os.map plainIRI)), p') := by
  obtain ⟨f, rfl⟩ : ∃ f, fuel = f + 1 := ⟨fuel - 1, by omega⟩
  obtain ⟨p1, hp1, ht1, _, heq⟩ := nextToken_skip lib p ' ' (Or.inl rfl) _ h
  obtain ⟨tok, l', hlex, ht, hin, hb⟩ := Lex_open lib _ p1.lexer hp1.unbuffered hp1.input_eq
  obtain ⟨p2, h1, hat2, ht2, _, _⟩ := nextToken_At lib p1 _ _ hp1 tok l' hlex hb hin
  obtain ⟨p3, hat3, ht3, hcoll⟩ :=
    parseCollection_members lib rest os hos f p2 [] hat2 (by omega)
  refine ⟨p3, hat3, by rw [ht3, ht2, ht1], ?_⟩
  simp only [Parser.parseObject, heq, h1, ht, hcoll]
  simp

/-- The whole of `Parse` on a statement whose object is a collection of IRIs. -/
theorem Parse_collectionStatement_aux (lib : StdLib) (s pr : Str) (os : List Str)
    (hs : '>' ∉ s) (hpr : '>' ∉ pr) (hos : ∀ o ∈ os, '>' ∉ o) :
    Parse lib (collectionStatement s pr os) =
      some ([{ Subject := plainIRI s, Predicate := plainIRI pr,
               Object := collectionText (os.map plainIRI) }], none) := by
  have hlen : os.length ≤ (membersText os).length := by
    induction os with
    | nil => simp
    | cons o os ih =>
      cases os with
      | nil => simp [membersText]
      | cons o' os =>
        have := ih (fun o ho => hos o (by simp [ho]))
        simp [membersText] at this ⊢
        omega
  obtain ⟨f, hf, hfge⟩ : ∃ f, parseFuel (collectionStatement s pr os) = f + 1 ∧
      os.length + 2 ≤ f := by
    refine ⟨parseFuel (collectionStatement s pr os) - 1, by simp [parseFuel], ?_⟩
    simp [parseFuel, collectionStatement]
    omega
  have hat : (NewParser (collectionStatement s pr os)).At
      ('<' :: (s ++ '>' :: ' ' :: '<' :: (pr ++ '>' :: ' ' :: '(' ::
        (membersText os ++ ')' :: ' ' :: '.' :: [])))) := by
    simpa [collectionStatement] using NewParser_At (collectionStatement s pr os)
  obtain ⟨p2, hat2, ht2, hloop⟩ := ParseLoop_subject_predicate lib f _ s pr _ hs hpr hat
  obtain ⟨p3, hat3, ht3, hobj⟩ := parseObject_collection lib _ os hos f p2 hat2 hfge
  obtain ⟨tok, p4, hnt, htyp, hat4, ht4⟩ := nextToken_sp_dot lib p3 [] hat3
  obtain ⟨g, rfl⟩ : ∃ g, f = g + 1 := ⟨f - 1, by omega⟩
  rw [Parse, hf, hloop, hobj]
  simp only [hnt, htyp]
  have hfin := ParseLoop_eof lib g
    { p4 with triples := p4.triples ++
      [{ Subject := plainIRI s, Predicate := plainIRI pr,
         Object := collectionText (os.map plainIRI) }] }
    ⟨hat4.pos_eq, hat4.unbuffered, hat4.input_eq, hat4.prefixes_eq, hat4.base_eq⟩
  simp only [ne_eq, not_true_eq_false, if_false]
  rw [hfin]
  simp [ht4, ht3, ht2, NewParser]

/-! ### What the parser functions leave unchanged -/

theorem nextToken_fields (lib : StdLib) (p p' : Parser) (tok : Token)
    (h : p.nextToken lib = some (tok, p')) :
    p'.triples = p.triples ∧ p'.prefixes = p.prefixes ∧ p'.base = p.base := by
  unfold Parser.nextToken at h
  split at h
  · cases h
    exact ⟨rfl, rfl, rfl⟩
  · split at h
    · cases h
    · cases h
      exact ⟨rfl, rfl, rfl⟩

theorem backup_fields (p : Parser) :
    p.backup.triples = p.triples ∧ p.backup.prefixes = p.prefixes ∧ p.backup.base = p.base := by
  unfold Parser.backup
  split <;> exact ⟨rfl, rfl, rfl⟩

/-- Neither `parseObject` nor `parseCollection` touches the triples of the
parser, whatever they return. -/
theorem parseObject_parseCollection_triples (lib : StdLib) (fuel : Nat) :
    (∀ (p p' : Parser) (r : Except ParseErr Str),
      p.parseObject lib fuel = some (r, p') → p'.triples = p.triples) ∧
    (∀ (p p' : Parser) (items : List Str) (r : Except ParseErr Str),
      Parser.parseCollection lib fuel p items = some (r, p') → p'.triples = p.triples) := by
  induction fuel with
  | zero =>
    constructor
    · intro p p' r h
      simp [Parser.parseObject] at h
    · intro p p' items r h
      simp [Parser.parseCollection] at h
  | succ f ih =>
    obtain ⟨ihO, ihC⟩ := ih
    constructor
    · intro p p' r h
      rw [Parser.parseObject] at h
      cases hnt : p.nextToken lib with
      | none => simp [hnt] at h
      | some x =>
        obtain ⟨token, p1⟩ := x
        have ht1 := (nextToken_fields lib p p1 token hnt).1
        simp only [hnt] at h
        split at h
        · split at h
          · cases h
          · cases h
            exact ht1
        · cases h
          exact ht1
        · cases h
          exact ht1
        · exact (ihC p1 p' [] r h).trans ht1
        · cases h
          exact ht1
    · intro p p' items r h
      rw [Parser.parseCollection] at h
      cases hnt : p.nextToken lib with
      | none => simp [hnt] at h
      | some x =>
        obtain ⟨token, p1⟩ := x
        have ht1 := (nextToken_fields lib p p1 token hnt).1
        simp only [hnt] at h
        split at h
        · cases h
          exact ht1
        · cases hobj : Parser.parseObject lib f p1.backup with
          | none => simp [hobj] at h
          | some y =>
            obtain ⟨ro, p2⟩ := y
            have ht2 : p2.triples = p.triples :=
              (ihO p1.backup p2 ro hobj).trans ((backup_fields p1).1.trans ht1)
            simp only [hobj] at h
            cases ro with
            | error e =>
              simp only [Option.some.injEq, Prod.mk.injEq] at h
              obtain ⟨hr, hp⟩ := h
              subst hr hp
              exact ht2
            | ok item =>
              simp only at h
              exact (ihC p2 p' (items ++ [item]) r h).trans ht2

/-! ### The loop of `Parse` on an error -/

theorem ParseLoop_error_nil (lib : StdLib) :
    ∀ (fuel : Nat) (p : Parser) (ts : List Triple) (e : ParseErr),
      Parser.ParseLoop lib fuel p = some (ts, some e) → ts = [] := by
  intro fuel
  induction fuel with
  | zero =>
    intro p ts e h
    simp [Parser.ParseLoop] at h
  | succ f ih =>
    intro p ts e h
    rw [Parser.ParseLoop] at h
    split at h
    · cases h
    · split at h
      · cases h
      · split at h
        · split at h
          · cases h
          · cases h
            rfl
          · exact ih _ _ _ h
        · split at h
          · split at h
            · cases h
            · cases h
              rfl
            · exact ih _ _ _ h
          · split at h
            · cases h
            · cases h
              rfl
            · exact ih _ _ _ h

theorem ParseLoop_stops (lib : StdLib) (fuel : Nat) (p p1 p2 : Parser) (token : Token)
    (e : ParseErr) (hnt : p.nextToken lib = some (token, p1))
    (heof : token.Typ ≠ TokenType.EOF) (hdir : token.Typ ≠ TokenType.Prefix)
    (herr : p1.backup.parseTriple lib fuel = some (Except.error e, p2)) :
    Parser.ParseLoop lib (fuel + 1) p = some ([], some e) := by
  simp [Parser.ParseLoop, hnt, heof, hdir, herr]

/-! ### A bareword subject and an empty collection -/

theorem Parse_bareword_collection (lib : StdLib) :
    Parse lib "ex:s <p> () .".toList =
      some ([⟨"ex:s".toList, "p".toList, "()".toList⟩], none) := by
  simp [Parse, Parser.ParseLoop, parseFuel, NewParser, Parser.nextToken, Parser.backup,
    Parser.parseTriple, Parser.parseSubject, Parser.parsePredicate, Parser.parseObject,
    Parser.parseCollection, Parser.expandIRI, collectionText, joinSpace, SplitN,
    Lexer.Lex, Lexer.LexLoop, NewLexer, Lexer.fuel, Lexer.next, Lexer.backup, isSpace, isLetter,
    isDelim, Lexer.lexWord, Lexer.lexWordLoop, Lexer.lexIRI, Lexer.lexIRILoop]

/-! ### The kinds of token that `Lex` returns -/

theorem lexComment_kind (l l' : Lexer) (tok : Token) (h : l.lexComment = some (tok, l')) :
    tok.Typ = TokenType.Comment := by
  unfold Lexer.lexComment at h
  split at h
  · cases h
  · cases h
    rfl

theorem lexIRI_kind (l l' : Lexer) (tok : Token) (h : l.lexIRI = some (tok, l')) :
    tok.Typ = TokenType.IRI := by
  unfold Lexer.lexIRI at h
  split at h
  · cases h
  · cases h
    rfl

theorem lexLiteral_kind (lib : StdLib) (l l' : Lexer) (tok : Token)
    (h : l.lexLiteral lib = some (tok, l')) :
    tok.Typ = TokenType.Literal ∨ tok.Typ = TokenType.Error := by
  unfold Lexer.lexLiteral at h
  repeat' split at h
  all_goals first
    | (cases h; done)
    | (cases h; exact Or.inl rfl)
    | (cases h; exact Or.inr rfl)

theorem lexBlankNode_kind (lib : StdLib) (l l' : Lexer) (tok : Token)
    (h : l.lexBlankNode lib = some (tok, l')) :
    tok.Typ = TokenType.BlankNode ∨ tok.Typ = TokenType.Error := by
  unfold Lexer.lexBlankNode at h
  repeat' split at h
  all_goals first
    | (cases h; done)
    | (cases h; exact Or.inl rfl)
    | (cases h; exact Or.inr rfl)

theorem lexWord_kind (lib : StdLib) (l l' : Lexer) (tok : Token)
    (h : l.lexWord lib = some (tok, l')) :
    tok.Typ = TokenType.Literal ∨ tok.Typ = TokenType.BlankNode := by
  unfold Lexer.lexWord at h
  repeat' split at h
  all_goals first
    | (cases h; done)
    | (cases h; exact Or.inl rfl)
    | (cases h; exact Or.inr rfl)

theorem LexLoop_kind (lib : StdLib) :
    ∀ (fuel : Nat) (l l' : Lexer) (tok : Token),
      Lexer.LexLoop lib fuel l = some (tok, l') → tok.Typ.lexed = true := by
  intro fuel
  induction fuel with
  | zero =>
    intro l l' tok h
    simp [Lexer.LexLoop] at h
  | succ f ih =>
    intro l l' tok h
    rcases hn : l.next with ⟨⟨ch, err⟩, l1⟩
    rw [Lexer.LexLoop, hn] at h
    dsimp only at h
    by_cases h1 : err = true
    · rw [if_pos h1] at h; cases h; rfl
    rw [if_neg h1] at h
    by_cases h2 : isSpace lib ch = true
    · rw [if_pos h2] at h; exact ih _ _ _ h
    rw [if_neg h2] at h
    by_cases h3 : ch = '#'
    · rw [if_pos h3] at h; rw [lexComment_kind _ _ _ h]; rfl
    rw [if_neg h3] at h
    by_cases h4 : ch = '.'
    · rw [if_pos h4] at h; cases h; rfl
    rw [if_neg h4] at h
    by_cases h5 : ch = ','
    · rw [if_pos h5] at h; cases h; rfl
    rw [if_neg h5] at h
    by_cases h6 : ch = ';'
    · rw [if_pos h6] at h; cases h; rfl
    rw [if_neg h6] at h
    by_cases h7 : ch = '('
    · rw [if_pos h7] at h; cases h; rfl
    rw [if_neg h7] at h
    by_cases h8 : ch = ')'
    · rw [if_pos h8] at h; cases h; rfl
    rw [if_neg h8] at h
    by_cases h9 : ch = '<'
    · rw [if_pos h9] at h; rw [lexIRI_kind _ _ _ h]; rfl
    rw [if_neg h9] at h
    by_cases h10 : ch = '"'
    · rw [if_pos h10] at h
      rcases lexLiteral_kind lib _ _ _ h with h' | h' <;> rw [h'] <;> rfl
    rw [if_neg h10] at h
    by_cases h11 : ch = '_'
    · rw [if_pos h11] at h
      rcases lexBlankNode_kind lib _ _ _ h with h' | h' <;> rw [h'] <;> rfl
    rw [if_neg h11] at h
    by_cases h12 : isLetter lib ch = true
    · rw [if_pos h12] at h
      rcases lexWord_kind lib _ _ _ h with h' | h' <;> rw [h'] <;> rfl
    rw [if_neg h12] at h
    cases h
    rfl

/-- `Lex` returns no directive token, no `a` keyword token and no colon token. -/
theorem Lex_kind (lib : StdLib) (l l' : Lexer) (tok : Token)
    (h : l.Lex lib = some (tok, l')) : tok.Typ.lexed = true :=
  LexLoop_kind lib _ _ _ _ h

/-! ### Where the terms of a triple come from -/

theorem expandIRI_Inv (lib : StdLib) (input : Str) (p : Parser) (h : p.Inv lib input) (v : Str) :
    p.expandIRI v = some (plainIRI v) := by
  rw [expandIRI_eq, h.prefixes_eq, h.base_eq, plainIRI]

theorem NewParser_Inv (lib : StdLib) (input : Str) : (NewParser input).Inv lib input :=
  ⟨Lexer.Reaches.refl, by simp [NewParser], rfl, rfl, by simp [NewParser]⟩

theorem nextToken_Inv (lib : StdLib) (input : Str) (p p' : Parser) (tok : Token)
    (hinv : p.Inv lib input) (h : p.nextToken lib = some (tok, p')) :
    p'.Inv lib input ∧ Lexed lib input tok := by
  unfold Parser.nextToken at h
  split at h
  · rename_i token hget
    cases h
    exact ⟨⟨hinv.reaches, hinv.cached, hinv.prefixes_eq, hinv.base_eq, hinv.triples_ok⟩,
      hinv.cached _ (List.getElem?_mem hget)⟩
  · split at h
    · cases h
    · rename_i token l hlex
      cases h
      have hl : Lexed lib input tok := ⟨p.lexer, l, hinv.reaches, hlex⟩
      refine ⟨⟨Lexer.Reaches.step hinv.reaches hlex, ?_, hinv.prefixes_eq, hinv.base_eq,
        hinv.triples_ok⟩, hl⟩
      intro t ht
      rcases List.mem_append.1 ht with ht | ht
      · exact hinv.cached t ht
      · rw [List.mem_singleton.1 ht]
        exact hl

theorem backup_Inv (lib : StdLib) (input : Str) (p : Parser) (hinv : p.Inv lib input) :
    p.backup.Inv lib input := by
  unfold Parser.backup
  split
  · exact ⟨hinv.reaches, hinv.cached, hinv.prefixes_eq, hinv.base_eq, hinv.triples_ok⟩
  · exact hinv

theorem Lexed_kind (lib : StdLib) (input : Str) (tok : Token) (h : Lexed lib input tok) :
    tok.Typ.lexed = true := by
  obtain ⟨l, l', _, hlex⟩ := h
  exact Lex_kind lib l l' tok hlex

theorem parseSubject_Inv (lib : StdLib) (input : Str) (p p' : Parser) (v : Str)
    (hinv : p.Inv lib input) (h : p.parseSubject lib = some (Except.ok v, p')) :
    p'.Inv lib input ∧ SubjectOf lib input v := by
  unfold Parser.parseSubject at h
  cases hnt : p.nextToken lib with
  | none => simp [hnt] at h
  | some x =>
    obtain ⟨token, p1⟩ := x
    obtain ⟨hinv1, hlexed⟩ := nextToken_Inv lib input p p1 token hinv hnt
    simp only [hnt] at h
    split at h
    · rename_i htyp
      rw [expandIRI_Inv lib input p1 hinv1] at h
      cases h
      exact ⟨hinv1, token, hlexed, Or.inl ⟨htyp, rfl⟩⟩
    · rename_i htyp
      cases h
      exact ⟨hinv1, token, hlexed, Or.inr ⟨htyp, rfl⟩⟩
    · cases h

theorem parsePredicate_Inv (lib : StdLib) (input : Str) (p p' : Parser) (v : Str)
    (hinv : p.Inv lib input) (h : p.parsePredicate lib = some (Except.ok v, p')) :
    p'.Inv lib input ∧ PredicateOf lib input v := by
  unfold Parser.parsePredicate at h
  cases hnt : p.nextToken lib with
  | none => simp [hnt] at h
  | some x =>
    obtain ⟨token, p1⟩ := x
    obtain ⟨hinv1, hlexed⟩ := nextToken_Inv lib input p p1 token hinv hnt
    simp only [hnt] at h
    split at h
    · rename_i htyp
      rw [expandIRI_Inv lib input p1 hinv1] at h
      cases h
      exact ⟨hinv1, token, hlexed, htyp, rfl⟩
    · rename_i htyp
      have := Lexed_kind lib input token hlexed
      rw [htyp] at this
      cases this
    · cases h


theorem parseObject_parseCollection_Inv (lib : StdLib) (input : Str) (fuel : Nat) :
    (∀ (p p' : Parser) (v : Str), p.Inv lib input →
      p.parseObject lib fuel = some (Except.ok v, p') →
        p'.Inv lib input ∧ ObjectOf lib input v) ∧
    (∀ (p p' : Parser) (items : List Str) (v : Str), p.Inv lib input →
      (∀ i ∈ items, ObjectOf lib input i) →
      Parser.parseCollection lib fuel p items = some (Except.ok v, p') →
        p'.Inv lib input ∧ ObjectOf lib input v) := by
  induction fuel with
  | zero =>
    constructor
    · intro p p' v _ h
      simp [Parser.parseObject] at h
    · intro p p' items v _ _ h
      simp [Parser.parseCollection] at h
  | succ f ih =>
    obtain ⟨ihO, ihC⟩ := ih
    constructor
    · intro p p' v hinv h
      rw [Parser.parseObject] at h
      cases hnt : p.nextToken lib with
      | none => simp [hnt] at h
      | some x =>
        obtain ⟨token, p1⟩ := x
        obtain ⟨hinv1, hlexed⟩ := nextToken_Inv lib input p p1 token hinv hnt
        simp only [hnt] at h
        split at h
        · rename_i htyp
          rw [expandIRI_Inv lib input p1 hinv1] at h
          cases h
          exact ⟨hinv1, ObjectOf.iri token hlexed htyp⟩
        · rename_i htyp
          cases h
          exact ⟨hinv1, ObjectOf.literal token hlexed htyp⟩
        · rename_i htyp
          cases h
          exact ⟨hinv1, ObjectOf.blankNode token hlexed htyp⟩
        · exact ihC p1 p' [] v hinv1 (by simp) h
        · cases h
    · intro p p' items v hinv hitems h
      rw [Parser.parseCollection] at h
      cases hnt : p.nextToken lib with
      | none => simp [hnt] at h
      | some x =>
        obtain ⟨token, p1⟩ := x
        obtain ⟨hinv1, _⟩ := nextToken_Inv lib input p p1 token hinv hnt
        simp only [hnt] at h
        split at h
        · cases h
          exact ⟨hinv1, ObjectOf.collection items hitems⟩
        · cases hobj : Parser.parseObject lib f p1.backup with
          | none => simp [hobj] at h
          | some y =>
            obtain ⟨ro, p2⟩ := y
            simp only [hobj] at h
            cases ro with
            | error e => cases h
            | ok item =>
              simp only at h
              obtain ⟨hinv2, hitem⟩ := ihO p1.backup p2 item (backup_Inv lib input p1 hinv1) hobj
              refine ihC p2 p' (items ++ [item]) v hinv2 ?_ h
              intro i hi
              rcases List.mem_append.1 hi with hi | hi
              · exact hitems i hi
              · rw [List.mem_singleton.1 hi]
                exact hitem

theorem parseTriple_Inv (lib : StdLib) (input : Str) (fuel : Nat) (p p' : Parser) (t : Triple)
    (hinv : p.Inv lib input) (h : p.parseTriple lib fuel = some (Except.ok t, p')) :
    p'.Inv lib input ∧ TripleOf lib input t := by
  unfold Parser.parseTriple at h
  cases hs : p.parseSubject lib with
  | none => simp [hs] at h
  | some x =>
    obtain ⟨rs, p1⟩ := x
    simp only [hs] at h
    cases rs with
    | error e => cases h
    | ok subject =>
      simp only at h
      obtain ⟨hinv1, hsub⟩ := parseSubject_Inv lib input p p1 subject hinv hs
      cases hp : p1.parsePredicate lib with
      | none => simp [hp] at h
      | some y =>
        obtain ⟨rp, p2⟩ := y
        simp only [hp] at h
        cases rp with
        | error e => cases h
        | ok predicate =>
          simp only at h
          obtain ⟨hinv2, hpred⟩ := parsePredicate_Inv lib input p1 p2 predicate hinv1 hp
          cases ho : p2.parseObject lib fuel with
          | none => simp [ho] at h
          | some z =>
            obtain ⟨ro, p3⟩ := z
            simp only [ho] at h
            cases ro with
            | error e => cases h
            | ok object =>
              simp only at h
              obtain ⟨hinv3, hobj⟩ :=
                (parseObject_parseCollection_Inv lib input fuel).1 p2 p3 object hinv2 ho
              cases hnt : p3.nextToken lib with
              | none => simp [hnt] at h
              | some w =>
                obtain ⟨token, p4⟩ := w
                obtain ⟨hinv4, _⟩ := nextToken_Inv lib input p3 p4 token hinv3 hnt
                simp only [hnt] at h
                split at h
                · cases h
                · cases h
                  exact ⟨hinv4, hsub, hpred, hobj⟩

/-! ### Termination of the lexer -/

theorem runeWeight_pos (lib : StdLib) (ch : Char) : 1 ≤ runeWeight lib ch := by
  unfold runeWeight
  split <;> omega

theorem runeWeight_le (lib : StdLib) (ch : Char) : runeWeight lib ch ≤ 2 := by
  unfold runeWeight
  split <;> omega

theorem next_buffered_false (l l1 : Lexer) (ch : Char) (err : Bool)
    (h : l.next = ((ch, err), l1)) : l1.buffered = false := by
  unfold Lexer.next at h
  split at h
  · cases h; rfl
  · rename_i hb
    split at h
    · cases h; simpa using hb
    · split at h <;> (cases h; simpa using hb)

theorem next_err (l l1 : Lexer) (ch : Char) (h : l.next = ((ch, true), l1)) :
    l1 = l ∧ ch = Char.ofNat 0 ∧ l.buffered = false ∧ l.input = [] := by
  unfold Lexer.next at h
  split at h
  · cases h
  · rename_i hb
    split at h
    · rename_i hin
      cases h
      exact ⟨rfl, rfl, by simpa using hb, hin⟩
    · split at h <;> cases h

theorem next_ok (lib : StdLib) (l l1 : Lexer) (ch : Char) (h : l.next = ((ch, false), l1)) :
    l1.measure lib + runeWeight lib ch ≤ l.measure lib ∧ l1.steps + 1 ≤ l.steps := by
  unfold Lexer.next at h
  split at h
  · rename_i hb
    cases h
    simp [Lexer.measure, Lexer.steps, hb]
  · rename_i hb
    split at h
    · cases h
    · rename_i c rest hin
      have := runeWeight_le lib ch
      split at h <;> (cases h; simp [Lexer.measure, Lexer.steps, hb, hin]; omega)

theorem measure_backup (lib : StdLib) (l : Lexer) (ch : Char) (hb : l.buffered = false) :
    (l.backup ch).measure lib = l.measure lib + runeWeight lib ch := by
  simp [Lexer.measure, Lexer.backup, hb]

theorem measure_unbuffered (lib : StdLib) (l : Lexer) (hb : l.buffered = false) :
    l.measure lib = 3 * l.input.length := by
  simp [Lexer.measure, hb]

theorem steps_unbuffered (l : Lexer) (hb : l.buffered = false) : l.steps = l.input.length := by
  simp [Lexer.steps, hb]

theorem steps_lt_fuel (l : Lexer) : l.steps + 1 ≤ l.fuel := by
  unfold Lexer.steps Lexer.fuel
  split <;> omega

theorem lexIRILoop_total (lib : StdLib) :
    ∀ (f : Nat) (l : Lexer) (sb : Str), l.steps + 1 ≤ f →
      ∃ sb' l', Lexer.lexIRILoop f l sb = some (sb', l') ∧ l'.buffered = false ∧
        l'.measure lib ≤ l.measure lib := by
  intro f
  induction f with
  | zero => intro l sb h; omega
  | succ f ih =>
    intro l sb h
    rcases hn : l.next with ⟨⟨ch, err⟩, l1⟩
    rw [Lexer.lexIRILoop, hn]
    dsimp only
    have hb1 := next_buffered_false l l1 ch err hn
    cases err with
    | true =>
      obtain ⟨h1, _, _, _⟩ := next_err l l1 ch hn
      exact ⟨sb, l1, by simp, hb1, by rw [h1]⟩
    | false =>
      obtain ⟨hm, hs⟩ := next_ok lib l l1 ch hn
      by_cases hc : ch = '>'
      · exact ⟨sb, l1, by simp [hc], hb1, by omega⟩
      · obtain ⟨sb', l', h1, h2, h3⟩ := ih l1 (sb ++ [ch]) (by omega)
        exact ⟨sb', l', by simp [hc, h1], h2, by omega⟩

theorem lexCommentLoop_total (lib : StdLib) :
    ∀ (f : Nat) (l : Lexer) (sb : Str), l.steps + 1 ≤ f →
      ∃ sb' l', Lexer.lexCommentLoop f l sb = some (sb', l') ∧ l'.buffered = false ∧
        l'.measure lib ≤ l.measure lib := by
  intro f
  induction f with
  | zero => intro l sb h; omega
  | succ f ih =>
    intro l sb h
    rcases hn : l.next with ⟨⟨ch, err⟩, l1⟩
    rw [Lexer.lexCommentLoop, hn]
    dsimp only
    have hb1 := next_buffered_false l l1 ch err hn
    cases err with
    | true =>
      obtain ⟨h1, _, _, _⟩ := next_err l l1 ch hn
      exact ⟨sb, l1, by simp, hb1, by rw [h1]⟩
    | false =>
      obtain ⟨hm, hs⟩ := next_ok lib l l1 ch hn
      by_cases hc : ch = '\n'
      · exact ⟨sb, l1, by simp [hc], hb1, by omega⟩
      · obtain ⟨sb', l', h1, h2, h3⟩ := ih l1 (sb ++ [ch]) (by omega)
        exact ⟨sb', l', by simp [hc, h1], h2, by omega⟩

theorem lexLiteralLoop_total (lib : StdLib) :
    ∀ (f : Nat) (l : Lexer) (sb : Str), l.steps + 1 ≤ f →
      ∃ sb' l', Lexer.lexLiteralLoop f l sb = some (sb', l') ∧ l'.buffered = false ∧
        l'.measure lib ≤ l.measure lib := by
  intro f
  induction f with
  | zero => intro l sb h; omega
  | succ f ih =>
    intro l sb h
    rcases hn : l.next with ⟨⟨ch, err⟩, l1⟩
    rw [Lexer.lexLiteralLoop, hn]
    dsimp only
    have hb1 := next_buffered_false l l1 ch err hn
    cases err with
    | true =>
      obtain ⟨h1, _, _, _⟩ := next_err l l1 ch hn
      exact ⟨sb, l1, by simp, hb1, by rw [h1]⟩
    | false =>
      obtain ⟨hm, hs⟩ := next_ok lib l l1 ch hn
      by_cases hc : ch = '"'
      · exact ⟨sb, l1, by simp [hc], hb1, by omega⟩
      · obtain ⟨sb', l', h1, h2, h3⟩ := ih l1 (sb ++ [ch]) (by omega)
        exact ⟨sb', l', by simp [hc, h1], h2, by omega⟩

theorem lexWordLoop_total (lib : StdLib) :
    ∀ (f : Nat) (l : Lexer) (sb : Str), l.steps + 1 ≤ f →
      ∃ sb' l', Lexer.lexWordLoop lib f l sb = some (sb', l') ∧
        l'.measure lib ≤ max (l.measure lib) 1 := by
  intro f
  induction f with
  | zero => intro l sb h; omega
  | succ f ih =>
    intro l sb h
    rcases hn : l.next with ⟨⟨ch, err⟩, l1⟩
    rw [Lexer.lexWordLoop, hn]
    dsimp only
    have hb1 := next_buffered_false l l1 ch err hn
    cases err with
    | true =>
      obtain ⟨h1, h2, h3, h4⟩ := next_err l l1 ch hn
      refine ⟨sb, l1.backup ch, by simp, ?_⟩
      rw [measure_backup lib l1 ch hb1, h1, h2, measure_unbuffered lib l h3, h4]
      simp [runeWeight, isLetter]
    | false =>
      obtain ⟨hm, hs⟩ := next_ok lib l l1 ch hn
      by_cases hc : (isSpace lib ch || isDelim ch) = true
      · refine ⟨sb, l1.backup ch, by simp [hc], ?_⟩
        rw [measure_backup lib l1 ch hb1]
        omega
      · obtain ⟨sb', l', h1, h2⟩ := ih l1 (sb ++ [ch]) (by omega)
        refine ⟨sb', l', ?_, by omega⟩
        simp only [Bool.false_or, hc]
        simpa using h1

theorem lexLanguageTagLoop_total (lib : StdLib) :
    ∀ (f : Nat) (l : Lexer) (sb : Str), l.steps + 1 ≤ f →
      ∃ r l', Lexer.lexLanguageTagLoop lib f l sb = some (r, l') ∧
        l'.measure lib ≤ max (l.measure lib) 1 := by
  intro f
  induction f with
  | zero => intro l sb h; omega
  | succ f ih =>
    intro l sb h
    rcases hn : l.next with ⟨⟨ch, err⟩, l1⟩
    rw [Lexer.lexLanguageTagLoop, hn]
    dsimp only
    have hb1 := next_buffered_false l l1 ch err hn
    cases err with
    | true =>
      obtain ⟨h1, h2, h3, h4⟩ := next_err l l1 ch hn
      refine ⟨(sb, false), l1.backup ch, by simp, ?_⟩
      rw [measure_backup lib l1 ch hb1, h1, h2, measure_unbuffered lib l h3, h4]
      simp [runeWeight, isLetter]
    | false =>
      obtain ⟨hm, hs⟩ := next_ok lib l l1 ch hn
      split
      · refine ⟨(sb, false), l1.backup ch, rfl, ?_⟩
        rw [measure_backup lib l1 ch hb1]
        omega
      · split
        · exact ⟨(([] : Str), true), l1, rfl, by omega⟩
        · obtain ⟨r, l', h1, h2⟩ := ih l1 (sb ++ [ch]) (by omega)
          exact ⟨r, l', h1, by omega⟩

theorem lexComment_total (lib : StdLib) (l : Lexer) :
    ∃ tok l', l.lexComment = some (tok, l') ∧ l'.measure lib ≤ l.measure lib := by
  obtain ⟨sb, l', h1, _, h3⟩ := lexCommentLoop_total lib l.fuel l [] (steps_lt_fuel l)
  exact ⟨_, l', by rw [Lexer.lexComment, h1], h3⟩

theorem lexIRI_total (lib : StdLib) (l : Lexer) :
    ∃ tok l', l.lexIRI = some (tok, l') ∧ l'.measure lib ≤ l.measure lib := by
  obtain ⟨sb, l', h1, _, h3⟩ := lexIRILoop_total lib l.fuel l [] (steps_lt_fuel l)
  exact ⟨_, l', by rw [Lexer.lexIRI, h1], h3⟩

theorem lexLiteral_total (lib : StdLib) (l : Lexer) :
    ∃ tok l', l.lexLiteral lib = some (tok, l') ∧ l'.measure lib ≤ l.measure lib := by
  obtain ⟨value, l2, h1, hb2, hm2⟩ := lexLiteralLoop_total lib l.fuel l [] (steps_lt_fuel l)
  rw [Lexer.lexLiteral, h1]
  dsimp only
  rcases hn : l2.next with ⟨⟨ch, err⟩, l3⟩
  dsimp only
  have hb3 := next_buffered_false l2 l3 ch err hn
  cases err with
  | true =>
    obtain ⟨h3, _, _, _⟩ := next_err l2 l3 ch hn
    exact ⟨_, l3, if_pos rfl, by rw [h3]; exact hm2⟩
  | false =>
    obtain ⟨hm3, _⟩ := next_ok lib l2 l3 ch hn
    have hw := runeWeight_pos lib ch
    rw [if_neg Bool.false_ne_true]
    split
    · obtain ⟨r, l4, h4, hm4⟩ := lexLanguageTagLoop_total lib l3.fuel l3 [] (steps_lt_fuel l3)
      obtain ⟨langTag, e⟩ := r
      rw [Lexer.lexLanguageTag, h4]
      dsimp only
      split
      · exact ⟨_, l4, rfl, by omega⟩
      · exact ⟨_, l4, rfl, by omega⟩
    · split
      · rcases hn4 : l3.next with ⟨⟨nx, err4⟩, l4⟩
        dsimp only
        have hb4 := next_buffered_false l3 l4 nx err4 hn4
        have hm4 : l4.measure lib ≤ l3.measure lib := by
          cases err4 with
          | true => rw [(next_err l3 l4 nx hn4).1]
          | false => have := (next_ok lib l3 l4 nx hn4).1; omega
        split
        · obtain ⟨dt, l5, h5, hm5⟩ := lexIRI_total lib l4
          rw [h5]
          dsimp only
          split
          · exact ⟨_, l5, rfl, by omega⟩
          · exact ⟨_, l5, rfl, by omega⟩
        · refine ⟨_, l4.backup ch, rfl, ?_⟩
          rw [measure_backup lib l4 ch hb4]
          omega
      · refine ⟨_, l3.backup ch, rfl, ?_⟩
        rw [measure_backup lib l3 ch hb3]
        omega

theorem lexBlankNode_total (lib : StdLib) (l : Lexer) :
    ∃ tok l', l.lexBlankNode lib = some (tok, l') ∧ l'.measure lib ≤ l.measure lib := by
  rw [Lexer.lexBlankNode]
  rcases hn : l.next with ⟨⟨ch, err⟩, l2⟩
  dsimp only
  have hb2 := next_buffered_false l l2 ch err hn
  cases err with
  | true =>
    obtain ⟨h2, _, _, _⟩ := next_err l l2 ch hn
    exact ⟨_, l2, if_pos rfl, by rw [h2]⟩
  | false =>
    obtain ⟨hm2, _⟩ := next_ok lib l l2 ch hn
    have hw := runeWeight_pos lib ch
    split
    · exact ⟨_, l2, rfl, by omega⟩
    · obtain ⟨sb, l3, h3, hm3⟩ := lexWordLoop_total lib l2.fuel l2 ['_', ch] (steps_lt_fuel l2)
      rw [h3]
      exact ⟨_, l3, rfl, by omega⟩

theorem isDelim_not_isLetter (lib : StdLib) (ch : Char) (h : isDelim ch = true) :
    isLetter lib ch = false := by
  simp only [isDelim, Bool.or_eq_true, decide_eq_true_eq] at h
  rcases h with (((((((h | h) | h) | h) | h) | h) | h) | h) | h <;> (subst h; simp [isLetter])

/-- `lexWord` on a lexer into which `Lex` has pushed back a letter. -/
theorem lexWord_backup_total (lib : StdLib) (l1 : Lexer) (ch : Char)
    (hb : l1.buffered = false) (hsp : isSpace lib ch = false) (hl : isLetter lib ch = true) :
    ∃ tok l', (l1.backup ch).lexWord lib = some (tok, l') ∧
      l'.measure lib ≤ max (l1.measure lib) 1 := by
  have hd : isDelim ch = false := by
    cases hdel : isDelim ch with
    | false => rfl
    | true => rw [isDelim_not_isLetter lib ch hdel] at hl; cases hl
  obtain ⟨sb, l', h1, hm⟩ := lexWordLoop_total lib (l1.input.length + 1)
    { l1 with buffer := ch, buffered := false, col := l1.col - 1 } [ch]
    (by simp [Lexer.steps])
  have hstep : Lexer.lexWordLoop lib (l1.backup ch).fuel (l1.backup ch) [] =
      Lexer.lexWordLoop lib (l1.input.length + 1)
        { l1 with buffer := ch, buffered := false, col := l1.col - 1 } [ch] := by
    simp [Lexer.fuel, Lexer.backup, Lexer.lexWordLoop, Lexer.next, hsp, hd]
  have hm' : Lexer.measure lib { l1 with buffer := ch, buffered := false, col := l1.col - 1 } =
      l1.measure lib := by
    simp [Lexer.measure, hb]
  rw [hm'] at hm
  rw [Lexer.lexWord, hstep, h1]
  dsimp only
  split
  · exact ⟨_, l', rfl, hm⟩
  · exact ⟨_, l', rfl, hm⟩

theorem LexLoop_total (lib : StdLib) :
    ∀ (f : Nat) (l : Lexer), l.steps + 1 ≤ f →
      ∃ tok l', Lexer.LexLoop lib f l = some (tok, l') ∧ l'.measure lib ≤ l.measure lib ∧
        (tok.Typ ≠ TokenType.EOF → l'.measure lib < l.measure lib) := by
  intro f
  induction f with
  | zero => intro l h; omega
  | succ f ih =>
    intro l h
    rcases hn : l.next with ⟨⟨ch, err⟩, l1⟩
    rw [Lexer.LexLoop, hn]
    dsimp only
    have hb1 := next_buffered_false l l1 ch err hn
    cases err with
    | true =>
      obtain ⟨h1, _, _, _⟩ := next_err l l1 ch hn
      exact ⟨_, l1, if_pos rfl, by rw [h1], fun hne => absurd rfl hne⟩
    | false =>
      obtain ⟨hm1, hs1⟩ := next_ok lib l l1 ch hn
      have hw := runeWeight_pos lib ch
      rw [if_neg Bool.false_ne_true]
      by_cases hsp : isSpace lib ch = true
      · rw [if_pos hsp]
        obtain ⟨tok, l', h1, h2, h3⟩ := ih l1 (by omega)
        exact ⟨tok, l', h1, by omega, fun _ => by omega⟩
      rw [if_neg hsp]
      by_cases h3 : ch = '#'
      · rw [if_pos h3]
        obtain ⟨tok, l', h1, h2⟩ := lexComment_total lib l1
        exact ⟨tok, l', h1, by omega, fun _ => by omega⟩
      rw [if_neg h3]
      by_cases h4 : ch = '.'
      · rw [if_pos h4]
        exact ⟨_, l1, rfl, by omega, fun _ => by omega⟩
      rw [if_neg h4]
      by_cases h5 : ch = ','
      · rw [if_pos h5]
        exact ⟨_, l1, rfl, by omega, fun _ => by omega⟩
      rw [if_neg h5]
      by_cases h6 : ch = ';'
      · rw [if_pos h6]
        exact ⟨_, l1, rfl, by omega, fun _ => by omega⟩
      rw [if_neg h6]
      by_cases h7 : ch = '('
      · rw [if_pos h7]
        exact ⟨_, l1, rfl, by omega, fun _ => by omega⟩
      rw [if_neg h7]
      by_cases h8 : ch = ')'
      · rw [if_pos h8]
        exact ⟨_, l1, rfl, by omega, fun _ => by omega⟩
      rw [if_neg h8]
      by_cases h9 : ch = '<'
      · rw [if_pos h9]
        obtain ⟨tok, l', h1, h2⟩ := lexIRI_total lib l1
        exact ⟨tok, l', h1, by omega, fun _ => by omega⟩
      rw [if_neg h9]
      by_cases h10 : ch = '"'
      · rw [if_pos h10]
        obtain ⟨tok, l', h1, h2⟩ := lexLiteral_total lib l1
        exact ⟨tok, l', h1, by omega, fun _ => by omega⟩
      rw [if_neg h10]
      by_cases h11 : ch = '_'
      · rw [if_pos h11]
        obtain ⟨tok, l', h1, h2⟩ := lexBlankNode_total lib l1
        exact ⟨tok, l', h1, by omega, fun _ => by omega⟩
      rw [if_neg h11]
      by_cases hl : isLetter lib ch = true
      · rw [if_pos hl]
        obtain ⟨tok, l', h1, h2⟩ := lexWord_backup_total lib l1 ch hb1 (by simpa using hsp) hl
        have hw2 : runeWeight lib ch = 2 := by simp [runeWeight, hl]
        exact ⟨tok, l', h1, by omega, fun _ => by omega⟩
      rw [if_neg hl]
      exact ⟨_, l1, rfl, by omega, fun _ => by omega⟩

/-- `Lex` returns a token on every lexer state; the measure of the lexer does
not grow, and it drops unless the token is the end-of-input token. -/
theorem Lex_total (lib : StdLib) (l : Lexer) :
    ∃ tok l', l.Lex lib = some (tok, l') ∧ l'.measure lib ≤ l.measure lib ∧
      (tok.Typ ≠ TokenType.EOF → l'.measure lib < l.measure lib) :=
  LexLoop_total lib l.fuel l (steps_lt_fuel l)

/-! ### Termination of the parser -/

/-- `nextToken` returns a token on every parser whose position lies within the
cache; the measure does not grow and drops unless the token is the
end-of-input token, and after `backup` the same token is read again. -/
theorem nextToken_total (lib : StdLib) (p : Parser) (hwf : p.pos ≤ p.tokens.length) :
    ∃ tok p1, p.nextToken lib = some (tok, p1) ∧ p1.pos ≤ p1.tokens.length ∧
      p1.measure lib ≤ p.measure lib ∧
      (tok.Typ ≠ TokenType.EOF → p1.measure lib < p.measure lib) ∧
      p1.backup.nextToken lib = some (tok, p1) ∧
      p1.backup.pos ≤ p1.backup.tokens.length ∧
      p1.backup.measure lib ≤ p1.measure lib + 1 := by
  unfold Parser.nextToken
  cases hget : p.tokens[p.pos]? with
  | some token =>
    have hlt : p.pos < p.tokens.length := by
      rcases Nat.lt_or_ge p.pos p.tokens.length with h | h
      · exact h
      · rw [List.getElem?_eq_none h] at hget; cases hget
    refine ⟨token, { p with pos := p.pos + 1 }, rfl, by simpa using hlt, ?_, ?_, ?_, ?_, ?_⟩
    · simp [Parser.measure]; omega
    · intro _; simp [Parser.measure]; omega
    · simp [Parser.backup, hget]
    · simp [Parser.backup]; omega
    · simp [Parser.backup, Parser.measure]; omega
  | none =>
    have hge : p.tokens.length ≤ p.pos := by
      rcases Nat.lt_or_ge p.pos p.tokens.length with h | h
      · rw [List.getElem?_eq_getElem h] at hget; cases hget
      · exact h
    have hpos : p.pos = p.tokens.length := Nat.le_antisymm hwf hge
    obtain ⟨tok, l', hlex, hm, hlt⟩ := Lex_total lib p.lexer
    refine ⟨tok, { p with lexer := l', tokens := p.tokens ++ [tok], pos := p.pos + 1 }, ?_,
      by simp [hpos], ?_, ?_, ?_, ?_, ?_⟩
    · simp [hlex]
    · simp [Parser.measure, hpos]; omega
    · intro hne
      have := hlt hne
      simp [Parser.measure, hpos]; omega
    · simp [Parser.backup, hpos]
    · simp [Parser.backup]; omega
    · simp [Parser.backup, Parser.measure, hpos]; omega

theorem parseObject_parseCollection_total (lib : StdLib) (f : Nat) :
    (∀ p : Parser, p.pos ≤ p.tokens.length → 2 * p.measure lib + 1 ≤ f →
      ∃ r p', p.parseObject lib f = some (r, p') ∧ p'.pos ≤ p'.tokens.length ∧
        (∀ v, r = Except.ok v → p'.measure lib < p.measure lib)) ∧
    (∀ (p : Parser) (items : List Str), p.pos ≤ p.tokens.length → 2 * p.measure lib + 2 ≤ f →
      ∃ r p', Parser.parseCollection lib f p items = some (r, p') ∧ p'.pos ≤ p'.tokens.length ∧
        (∀ v, r = Except.ok v → p'.measure lib < p.measure lib)) := by
  induction f with
  | zero =>
    constructor
    · intro p _ h; omega
    · intro p _ _ h; omega
  | succ f ih =>
    obtain ⟨ihO, ihC⟩ := ih
    constructor
    · intro p hwf hf
      obtain ⟨tok, p1, hnt, hwf1, hm1, hlt1, _, _, _⟩ := nextToken_total lib p hwf
      rw [Parser.parseObject, hnt]
      dsimp only
      split
      · rename_i htyp
        rw [expandIRI_eq]
        exact ⟨_, p1, rfl, hwf1, fun _ _ => hlt1 (by rw [htyp]; decide)⟩
      · rename_i htyp
        exact ⟨_, p1, rfl, hwf1, fun _ _ => hlt1 (by rw [htyp]; decide)⟩
      · rename_i htyp
        exact ⟨_, p1, rfl, hwf1, fun _ _ => hlt1 (by rw [htyp]; decide)⟩
      · rename_i htyp
        have hlt := hlt1 (by rw [htyp]; decide)
        obtain ⟨r, p', h1, h2, h3⟩ := ihC p1 [] hwf1 (by omega)
        exact ⟨r, p', h1, h2, fun v hv => by have := h3 v hv; omega⟩
      · exact ⟨_, p1, rfl, hwf1, fun v hv => by cases hv⟩
    · intro p items hwf hf
      obtain ⟨tok, p1, hnt, hwf1, hm1, hlt1, hback, hwfb, hmb⟩ := nextToken_total lib p hwf
      rw [Parser.parseCollection, hnt]
      dsimp only
      split
      · rename_i htyp
        exact ⟨_, p1, rfl, hwf1, fun _ _ => hlt1 (by rw [htyp]; decide)⟩
      · by_cases heof : tok.Typ = TokenType.EOF
        · obtain ⟨g, rfl⟩ : ∃ g, f = g + 1 := ⟨f - 1, by omega⟩
          refine ⟨Except.error (ParseErr.invalidObject tok), p1, ?_, hwf1, fun v hv => by cases hv⟩
          simp [Parser.parseObject, hback, heof]
        · have hlt := hlt1 heof
          obtain ⟨ro, p2, h1, hwf2, h3⟩ := ihO p1.backup hwfb (by omega)
          rw [h1]
          cases ro with
          | error e => exact ⟨_, p2, rfl, hwf2, fun v hv => by cases hv⟩
          | ok item =>
            have hlt2 := h3 item rfl
            obtain ⟨r, p', h4, h5, h6⟩ := ihC p2 (items ++ [item]) hwf2 (by omega)
            exact ⟨r, p', h4, h5, fun v hv => by have := h6 v hv; omega⟩


theorem parseSubject_total (lib : StdLib) (p : Parser) (hwf : p.pos ≤ p.tokens.length) :
    ∃ r p', p.parseSubject lib = some (r, p') ∧ p'.pos ≤ p'.tokens.length ∧
      (∀ v, r = Except.ok v → p'.measure lib < p.measure lib) := by
  obtain ⟨tok, p1, hnt, hwf1, hm1, hlt1, _, _, _⟩ := nextToken_total lib p hwf
  rw [Parser.parseSubject, hnt]
  dsimp only
  split
  · rename_i htyp
    rw [expandIRI_eq]
    exact ⟨_, p1, rfl, hwf1, fun _ _ => hlt1 (by rw [htyp]; decide)⟩
  · rename_i htyp
    exact ⟨_, p1, rfl, hwf1, fun _ _ => hlt1 (by rw [htyp]; decide)⟩
  · exact ⟨_, p1, rfl, hwf1, fun v hv => by cases hv⟩

theorem parsePredicate_total (lib : StdLib) (p : Parser) (hwf : p.pos ≤ p.tokens.length) :
    ∃ r p', p.parsePredicate lib = some (r, p') ∧ p'.pos ≤ p'.tokens.length ∧
      (∀ v, r = Except.ok v → p'.measure lib < p.measure lib) := by
  obtain ⟨tok, p1, hnt, hwf1, hm1, hlt1, _, _, _⟩ := nextToken_total lib p hwf
  rw [Parser.parsePredicate, hnt]
  dsimp only
  split
  · rename_i htyp
    rw [expandIRI_eq]
    exact ⟨_, p1, rfl, hwf1, fun _ _ => hlt1 (by rw [htyp]; decide)⟩
  · rename_i htyp
    exact ⟨_, p1, rfl, hwf1, fun _ _ => hlt1 (by rw [htyp]; decide)⟩
  · exact ⟨_, p1, rfl, hwf1, fun v hv => by cases hv⟩

theorem parseTriple_total (lib : StdLib) (f : Nat) (p : Parser) (hwf : p.pos ≤ p.tokens.length)
    (hf : 2 * p.measure lib + 1 ≤ f) :
    ∃ r p', p.parseTriple lib f = some (r, p') ∧ p'.pos ≤ p'.tokens.length ∧
      (∀ t, r = Except.ok t → p'.measure lib < p.measure lib) := by
  obtain ⟨rs, p1, hs, hwf1, hlt1⟩ := parseSubject_total lib p hwf
  rw [Parser.parseTriple, hs]
  cases rs with
  | error e => exact ⟨_, p1, rfl, hwf1, fun t ht => by cases ht⟩
  | ok subject =>
    have h1 := hlt1 subject rfl
    obtain ⟨rp, p2, hp, hwf2, hlt2⟩ := parsePredicate_total lib p1 hwf1
    dsimp only
    rw [hp]
    cases rp with
    | error e => exact ⟨_, p2, rfl, hwf2, fun t ht => by cases ht⟩
    | ok predicate =>
      have h2 := hlt2 predicate rfl
      obtain ⟨ro, p3, ho, hwf3, hlt3⟩ :=
        (parseObject_parseCollection_total lib f).1 p2 hwf2 (by omega)
      dsimp only
      rw [ho]
      cases ro with
      | error e => exact ⟨_, p3, rfl, hwf3, fun t ht => by cases ht⟩
      | ok object =>
        have h3 := hlt3 object rfl
        obtain ⟨tok, p4, hnt, hwf4, hm4, _, _, _, _⟩ := nextToken_total lib p3 hwf3
        dsimp only
        rw [hnt]
        dsimp only
        split
        · exact ⟨_, p4, rfl, hwf4, fun t ht => by cases ht⟩
        · exact ⟨_, p4, rfl, hwf4, fun _ _ => by omega⟩

theorem ParseLoop_total (lib : StdLib) (input : Str) :
    ∀ (f : Nat) (p : Parser), p.Inv lib input → p.pos ≤ p.tokens.length →
      2 * p.measure lib + 3 ≤ f → ∃ r, Parser.ParseLoop lib f p = some r := by
  intro f
  induction f with
  | zero => intro p _ _ h; omega
  | succ f ih =>
    intro p hinv hwf hf
    obtain ⟨tok, p1, hnt, hwf1, hm1, hlt1, _, hwfb, hmb⟩ := nextToken_total lib p hwf
    obtain ⟨hinv1, hlexed⟩ := nextToken_Inv lib input p p1 tok hinv hnt
    have hkind := Lexed_kind lib input tok hlexed
    have hnp : tok.Typ ≠ TokenType.Prefix := by
      intro hp
      rw [hp] at hkind
      cases hkind
    rw [Parser.ParseLoop, hnt]
    simp only [hnp, false_and, if_false]
    by_cases heof : tok.Typ = TokenType.EOF
    · exact ⟨_, by rw [if_pos heof]⟩
    · rw [if_neg heof]
      have hlt := hlt1 heof
      obtain ⟨r, p2, htr, hwf2, hlt2⟩ := parseTriple_total lib f p1.backup hwfb (by omega)
      rw [htr]
      cases r with
      | error e => exact ⟨_, rfl⟩
      | ok triple =>
        have h2 := hlt2 triple rfl
        obtain ⟨hinv2, htriple⟩ :=
          parseTriple_Inv lib input f p1.backup p2 triple (backup_Inv lib input p1 hinv1) htr
        dsimp only
        refine ih { p2 with triples := p2.triples ++ [triple] }
          ⟨hinv2.reaches, hinv2.cached, hinv2.prefixes_eq, hinv2.base_eq, ?_⟩ hwf2 ?_
        · intro t ht
          rcases List.mem_append.1 ht with ht | ht
          · exact hinv2.triples_ok t ht
          · rw [List.mem_singleton.1 ht]
            exact htriple
        · have : Parser.measure lib { p2 with triples := p2.triples ++ [triple] } =
              p2.measure lib := rfl
          omega

/-- `Parse` returns on every input: its fuel is never exhausted. -/
theorem Parse_total (lib : StdLib) (input : Str) : ∃ r, Parse lib input = some r := by
  apply ParseLoop_total lib input _ _ (NewParser_Inv lib input)
  · simp [NewParser]
  · simp [Parser.measure, NewParser, NewLexer, Lexer.measure, parseFuel]
    omega

/-! ### Comments -/

theorem lexCommentLoop_line (c rest : Str) (hc : '\n' ∉ c) :
    ∀ (fuel : Nat) (l : Lexer) (sb : Str), l.buffered = false →
      l.input = c ++ '\n' :: rest → c.length + 1 ≤ fuel →
      ∃ l', Lexer.lexCommentLoop fuel l sb = some (sb ++ c, l') ∧
        l'.input = rest ∧ l'.buffered = false := by
  induction c with
  | nil =>
    intro fuel l sb hb hin hf
    obtain ⟨f, rfl⟩ : ∃ f, fuel = f + 1 := ⟨fuel - 1, by simp at hf; omega⟩
    simp only [List.nil_append] at hin
    simp [Lexer.lexCommentLoop, Lexer.next, hb, hin]
  | cons a c ih =>
    intro fuel l sb hb hin hf
    obtain ⟨f, rfl⟩ : ∃ f, fuel = f + 1 := ⟨fuel - 1, by simp at hf; omega⟩
    have ha : a ≠ '\n' := fun h => hc (by simp [h])
    have hc' : '\n' ∉ c := fun h => hc (by simp [h])
    simp only [List.cons_append] at hin
    obtain ⟨l', h1, h2, h3⟩ := ih hc' f
      { l with input := c ++ '\n' :: rest, col := l.col + 1 } (sb ++ [a])
      hb rfl (by simp at hf ⊢; omega)
    refine ⟨l', ?_, h2, h3⟩
    simp [Lexer.lexCommentLoop, Lexer.next, hb, hin, ha] at h1 ⊢
    exact h1

theorem lexCommentLoop_eof (c : Str) (hc : '\n' ∉ c) :
    ∀ (fuel : Nat) (l : Lexer) (sb : Str), l.buffered = false →
      l.input = c → c.length + 1 ≤ fuel →
      ∃ l', Lexer.lexCommentLoop fuel l sb = some (sb ++ c, l') ∧
        l'.input = [] ∧ l'.buffered = false := by
  induction c with
  | nil =>
    intro fuel l sb hb hin hf
    obtain ⟨f, rfl⟩ : ∃ f, fuel = f + 1 := ⟨fuel - 1, by simp at hf; omega⟩
    exact ⟨l, by simp [Lexer.lexCommentLoop, Lexer.next, hb, hin], hin, hb⟩
  | cons a c ih =>
    intro fuel l sb hb hin hf
    obtain ⟨f, rfl⟩ : ∃ f, fuel = f + 1 := ⟨fuel - 1, by simp at hf; omega⟩
    have ha : a ≠ '\n' := fun h => hc (by simp [h])
    have hc' : '\n' ∉ c := fun h => hc (by simp [h])
    obtain ⟨l', h1, h2, h3⟩ := ih hc' f
      { l with input := c, col := l.col + 1 } (sb ++ [a])
      hb rfl (by simp at hf ⊢; omega)
    refine ⟨l', ?_, h2, h3⟩
    simp [Lexer.lexCommentLoop, Lexer.next, hb, hin, ha] at h1 ⊢
    exact h1

/-- `Lex` on a comment: one comment token that holds the text after `#`. -/
theorem Lex_comment (lib : StdLib) (c rest : Str) (hc : '\n' ∉ c) (l : Lexer)
    (hb : l.buffered = false)
    (hin : l.input = '#' :: (c ++ '\n' :: rest) ∨ (l.input = '#' :: c ∧ rest = [])) :
    ∃ tok l', l.Lex lib = some (tok, l') ∧ tok.Typ = TokenType.Comment ∧ tok.Value = c ∧
      l'.input = rest ∧ l'.buffered = false := by
  rcases hin with hin | ⟨hin, rfl⟩
  · have hstep : l.Lex lib =
        Lexer.lexComment { l with input := c ++ '\n' :: rest, col := l.col + 1 } := by
      simp [Lexer.Lex, Lexer.fuel, Lexer.LexLoop, Lexer.next, hb, hin, isSpace]
    obtain ⟨l', h1, h2, h3⟩ := lexCommentLoop_line c rest hc
      (Lexer.fuel { l with input := c ++ '\n' :: rest, col := l.col + 1 })
      { l with input := c ++ '\n' :: rest, col := l.col + 1 } [] hb rfl
      (by simp [Lexer.fuel]; omega)
    refine ⟨⟨TokenType.Comment, c, l'.line, l'.col⟩, l', ?_, rfl, rfl, h2, h3⟩
    rw [hstep, Lexer.lexComment, h1]
    rfl
  · have hstep : l.Lex lib = Lexer.lexComment { l with input := c, col := l.col + 1 } := by
      simp [Lexer.Lex, Lexer.fuel, Lexer.LexLoop, Lexer.next, hb, hin, isSpace]
    obtain ⟨l', h1, h2, h3⟩ := lexCommentLoop_eof c hc
      (Lexer.fuel { l with input := c, col := l.col + 1 })
      { l with input := c, col := l.col + 1 } [] hb rfl
      (by simp [Lexer.fuel])
    refine ⟨⟨TokenType.Comment, c, l'.line, l'.col⟩, l', ?_, rfl, rfl, h2, h3⟩
    rw [hstep, Lexer.lexComment, h1]
    rfl

theorem Lex_comment_example (lib : StdLib) :
    (NewLexer "# c\n<s>".toList).Lex lib =
      some (⟨TokenType.Comment, " c".toList, 2, 0⟩, ⟨"<s>".toList, 2, 0, false, Char.ofNat 0⟩) := by
  simp [Lexer.Lex, Lexer.fuel, Lexer.LexLoop, Lexer.next, NewLexer, isSpace, Lexer.lexComment,
    Lexer.lexCommentLoop]

/-! ### Barewords and labels -/

theorem endsRun_newline (lib : StdLib) : endsRun lib '\n' = true := by
  simp [endsRun, isSpace]

theorem lexWordLoop_run (lib : StdLib) (w rest : Str)
    (hw : ∀ c ∈ w, endsRun lib c = false) (hrest : EndsRun lib rest) :
    ∀ (fuel : Nat) (l : Lexer) (sb : Str), l.buffered = false →
      l.input = w ++ rest → w.length + 1 ≤ fuel →
      ∃ l', Lexer.lexWordLoop lib fuel l sb = some (sb ++ w, l') ∧ l'.AfterRun rest := by
  induction w with
  | nil =>
    intro fuel l sb hb hin hf
    obtain ⟨f, rfl⟩ : ∃ f, fuel = f + 1 := ⟨fuel - 1, by simp at hf; omega⟩
    simp only [List.nil_append] at hin
    rcases hrest with rfl | ⟨c, r, rfl, hc⟩
    · refine ⟨l.backup (Char.ofNat 0), ?_, rfl, ?_, rfl⟩
      · simp [Lexer.lexWordLoop, Lexer.next, hb, hin]
      · simpa [Lexer.backup] using hin
    · have hc' : (isSpace lib c || isDelim c) = true := hc
      by_cases hnl : c = '\n'
      · refine ⟨Lexer.backup { l with input := r, line := l.line + 1, col := 0 } c, ?_,
          rfl, rfl, rfl⟩
        rw [Lexer.lexWordLoop]
        simp only [Lexer.next, hb, hin, hnl, Bool.false_eq_true, if_false, if_true,
          Bool.false_or]
        rw [← hnl, hc']
        simp
      · refine ⟨Lexer.backup { l with input := r, col := l.col + 1 } c, ?_, rfl, rfl, rfl⟩
        rw [Lexer.lexWordLoop]
        simp only [Lexer.next, hb, hin, hnl, Bool.false_eq_true, if_false, Bool.false_or]
        rw [hc']
        simp
  | cons a w ih =>
    intro fuel l sb hb hin hf
    obtain ⟨f, rfl⟩ : ∃ f, fuel = f + 1 := ⟨fuel - 1, by simp at hf; omega⟩
    have ha : (isSpace lib a || isDelim a) = false := hw a (by simp)
    have hnl : a ≠ '\n' := by
      rintro rfl
      have := hw '\n' (by simp)
      rw [endsRun_newline] at this
      cases this
    have hw' : ∀ c ∈ w, endsRun lib c = false := fun c hc => hw c (by simp [hc])
    simp only [List.cons_append] at hin
    obtain ⟨l', h1, h2⟩ := ih hw' f
      { l with input := w ++ rest, col := l.col + 1 } (sb ++ [a])
      hb rfl (by simp at hf ⊢; omega)
    refine ⟨l', ?_, h2⟩
    rw [Lexer.lexWordLoop]
    simp only [Lexer.next, hb, hin, hnl, Bool.false_eq_true, if_false, Bool.false_or]
    rw [ha]
    simpa [hb] using h1

theorem nextToken_of_Lex (lib : StdLib) (p : Parser) (hpos : p.pos = p.tokens.length)
    (tok : Token) (l' : Lexer) (hlex : p.lexer.Lex lib = some (tok, l')) :
    p.nextToken lib =
      some (tok, { p with lexer := l', tokens := p.tokens ++ [tok], pos := p.pos + 1 }) := by
  unfold Parser.nextToken
  rw [hpos, List.getElem?_eq_none (Nat.le_refl _), hlex]

theorem isLetter_not_special (lib : StdLib) (a : Char) (hl : isLetter lib a = true) :
    a ≠ '#' ∧ a ≠ '.' ∧ a ≠ ',' ∧ a ≠ ';' ∧ a ≠ '(' ∧ a ≠ ')' ∧ a ≠ '<' ∧ a ≠ '"' ∧ a ≠ '_' ∧
      a ≠ '\n' := by
  refine ⟨?_, ?_, ?_, ?_, ?_, ?_, ?_, ?_, ?_, ?_⟩ <;>
    (rintro rfl; simp [isLetter] at hl)

/-- `Lex` on a word that begins with a letter and runs up to `rest`. -/
theorem Lex_word (lib : StdLib) (a : Char) (w rest : Str) (hl : isLetter lib a = true)
    (ha : endsRun lib a = false) (hw : ∀ c ∈ w, endsRun lib c = false)
    (hrest : EndsRun lib rest) (l : Lexer) (hb : l.buffered = false)
    (hin : l.input = a :: (w ++ rest)) :
    ∃ l', l.Lex lib = some (wordToken (a :: w) l'.line l'.col, l') ∧ l'.AfterRun rest := by
  obtain ⟨h1, h2, h3, h4, h5, h6, h7, h8, h9, h10⟩ := isLetter_not_special lib a hl
  have hsp : isSpace lib a = false := by
    simp only [endsRun, Bool.or_eq_false_iff] at ha
    exact ha.1
  have ha' : (isSpace lib a || isDelim a) = false := ha
  obtain ⟨l', hloop, hafter⟩ := lexWordLoop_run lib w rest hw hrest (w.length + rest.length + 1)
    { l with input := w ++ rest, buffer := a, col := l.col + 1 - 1 } [a] hb rfl (by omega)
  refine ⟨l', ?_, hafter⟩
  have hstep : l.Lex lib =
      Lexer.lexWord lib (Lexer.backup { l with input := w ++ rest, col := l.col + 1 } a) := by
    simp [Lexer.Lex, Lexer.fuel, Lexer.LexLoop, Lexer.next, hb, hin, hsp, hl, h1, h2, h3, h4, h5,
      h6, h7, h8, h9, h10]
  have hloop' : Lexer.lexWordLoop lib
      (Lexer.backup { l with input := w ++ rest, col := l.col + 1 } a).fuel
      (Lexer.backup { l with input := w ++ rest, col := l.col + 1 } a) [] =
      some (a :: w, l') := by
    simp only [Lexer.fuel, Lexer.backup, List.length_append]
    rw [Lexer.lexWordLoop]
    simp only [Lexer.next, if_true, Bool.false_or]
    rw [ha']
    simpa [hb] using hloop
  rw [hstep, Lexer.lexWord, hloop']
  simp only [wordToken]
  split <;> rfl

/-- `Lex` after a word that a space and a dot follow: the dot token. -/
theorem Lex_after_run_dot (lib : StdLib) (rest : Str) (l : Lexer)
    (h : l.AfterRun (' ' :: '.' :: rest)) :
    ∃ tok l', l.Lex lib = some (tok, l') ∧ tok.Typ = TokenType.Dot ∧
      l'.input = rest ∧ l'.buffered = false := by
  obtain ⟨hb, hin, hbuf⟩ := h
  simp only [List.tail_cons, List.headD_cons] at hin hbuf
  refine ⟨⟨TokenType.Dot, ['.'], l.line, l.col + 1⟩,
    { l with input := rest, col := l.col + 1, buffered := false }, ?_, rfl, rfl, rfl⟩
  simp [Lexer.Lex, Lexer.fuel, Lexer.LexLoop, Lexer.next, hb, hin, hbuf, isSpace]

theorem EndsRun_space (lib : StdLib) (rest : Str) : EndsRun lib (' ' :: rest) :=
  Or.inr ⟨' ', rest, rfl, by simp [endsRun, isSpace]⟩

/-- `Lex` on `true` or `false` up to the end of the word: the boolean literal. -/
theorem Lex_boolean (lib : StdLib) (w rest : Str) (hw : w = "true".toList ∨ w = "false".toList)
    (hrest : EndsRun lib rest) (l : Lexer) (hb : l.buffered = false) (hin : l.input = w ++ rest) :
    ∃ tok l', l.Lex lib = some (tok, l') ∧ tok.Typ = TokenType.Literal ∧
      tok.Value = w ++ xsdBoolean ∧ l'.AfterRun rest := by
  rcases hw with rfl | rfl
  · obtain ⟨l', h1, h2⟩ := Lex_word lib 't' "rue".toList rest (by simp [isLetter])
      (by simp [endsRun, isSpace, isDelim])
      (by simp [endsRun, isSpace, isDelim]) hrest l hb hin
    exact ⟨_, l', h1, by simp [wordToken], by simp [wordToken], h2⟩
  · obtain ⟨l', h1, h2⟩ := Lex_word lib 'f' "alse".toList rest (by simp [isLetter])
      (by simp [endsRun, isSpace, isDelim])
      (by simp [endsRun, isSpace, isDelim]) hrest l hb hin
    exact ⟨_, l', h1, by simp [wordToken], by simp [wordToken], h2⟩

theorem Parse_booleanStatement_aux (lib : StdLib) (s pr : Str) (hs : '>' ∉ s) (hpr : '>' ∉ pr) :
    Parse lib (booleanStatement s pr) =
      some ([{ Subject := plainIRI s, Predicate := plainIRI pr,
               Object := "true".toList ++ xsdBoolean }], none) := by
  obtain ⟨f, hf⟩ : ∃ f, parseFuel (booleanStatement s pr) = f + 3 :=
    ⟨parseFuel (booleanStatement s pr) - 3, by simp [parseFuel]⟩
  have hat : (NewParser (booleanStatement s pr)).At
      ('<' :: (s ++ '>' :: ' ' :: '<' :: (pr ++ '>' :: ' ' :: ("true".toList ++ [' ', '.'])))) := by
    have := NewParser_At (booleanStatement s pr)
    simpa [booleanStatement] using this
  obtain ⟨p2, hat2, ht2, hloop⟩ :=
    ParseLoop_subject_predicate lib (f + 2) _ s pr _ hs hpr hat
  -- the object
  obtain ⟨p2', hat2', ht2', _, hnt2⟩ := nextToken_skip lib p2 ' ' (Or.inl rfl) _ hat2
  obtain ⟨tok, l3, hlex3, htyp3, hval3, hafter3⟩ := Lex_boolean lib "true".toList [' ', '.']
    (Or.inl rfl) (EndsRun_space lib _) p2'.lexer hat2'.unbuffered hat2'.input_eq
  have hnt3 := nextToken_of_Lex lib p2' hat2'.pos_eq tok l3 hlex3
  have hobj : p2.parseObject lib (f + 2) =
      some (Except.ok ("true".toList ++ xsdBoolean),
        { p2' with lexer := l3, tokens := p2'.tokens ++ [tok], pos := p2'.pos + 1 }) := by
    simp only [Parser.parseObject, hnt2, hnt3, htyp3, hval3]
  -- the dot
  obtain ⟨tok4, l4, hlex4, htyp4, hin4, hb4⟩ := Lex_after_run_dot lib [] l3 hafter3
  have hnt4 := nextToken_of_Lex lib
    { p2' with lexer := l3, tokens := p2'.tokens ++ [tok], pos := p2'.pos + 1 }
    (by simp [hat2'.pos_eq]) tok4 l4 hlex4
  rw [Parse, hf, hloop, hobj]
  simp only [hnt4, htyp4, ne_eq, not_true_eq_false, if_false]
  have hfin := ParseLoop_eof lib (f + 1)
    { lexer := l4, tokens := p2'.tokens ++ [tok] ++ [tok4], pos := p2'.pos + 1 + 1,
      prefixes := p2'.prefixes, base := p2'.base,
      triples := p2'.triples ++
        [(⟨plainIRI s, plainIRI pr, "true".toList ++ xsdBoolean⟩ : Triple)] }
    ⟨by simp [hat2'.pos_eq], hb4, hin4, hat2'.prefixes_eq, hat2'.base_eq⟩
  rw [hfin]
  simp [ht2', ht2, NewParser]

/-! ### The `a` keyword and numbers -/

theorem Parse_aStatement_aux (lib : StdLib) (s o : Str) (hs : '>' ∉ s) :
    ∃ tok : Token, tok.Typ = TokenType.BlankNode ∧ tok.Value = ['a'] ∧
      Parse lib (aStatement s o) = some ([], some (ParseErr.invalidPredicate tok)) := by
  obtain ⟨f, hf⟩ : ∃ f, parseFuel (aStatement s o) = f + 1 :=
    ⟨parseFuel (aStatement s o) - 1, by simp [parseFuel]⟩
  have hat : (NewParser (aStatement s o)).At
      ('<' :: (s ++ '>' :: ' ' :: 'a' :: ([] ++ ' ' :: '<' :: (o ++ "> .".toList)))) := by
    have := NewParser_At (aStatement s o)
    simpa [aStatement] using this
  obtain ⟨tok, p1, h1, h2, h3, h4, h5, h6, h7⟩ := nextToken_IRI lib _ s _ hs hat
  have hback : p1.backup.nextToken lib = some (tok, p1) := by
    apply nextToken_backup
    · rw [h6]; simp
    · rw [h7, h6]; simp
    · rw [h7]; omega
  obtain ⟨p1', hat1', _, _, hnt1⟩ := nextToken_skip lib p1 ' ' (Or.inl rfl) _ h4
  obtain ⟨l2, hlex2, _⟩ := Lex_word lib 'a' [] (' ' :: '<' :: (o ++ "> .".toList))
    (by simp [isLetter]) (by simp [endsRun, isSpace, isDelim]) (by simp)
    (EndsRun_space lib _) p1'.lexer hat1'.unbuffered hat1'.input_eq
  have hnt2 := nextToken_of_Lex lib p1' hat1'.pos_eq _ l2 hlex2
  refine ⟨wordToken ['a'] l2.line l2.col, by simp [wordToken], by simp [wordToken], ?_⟩
  rw [Parse, hf]
  simp only [Parser.ParseLoop, h1, h2, Parser.parseTriple, Parser.parseSubject, hback,
    expandIRI_At p1 _ h4, Parser.parsePredicate, hnt1, hnt2]
  simp [wordToken]

/-- `Lex` on a digit: no case of the switch accepts it. -/
theorem Lex_digit (lib : StdLib) (d : Char) (rest : Str)
    (hd : 0x30 ≤ d.toNat ∧ d.toNat ≤ 0x39) (l : Lexer) (hb : l.buffered = false)
    (hin : l.input = d :: rest) :
    l.Lex lib = some (unexpectedCharacter lib d l.line (l.col + 1),
      { l with input := rest, col := l.col + 1 }) := by
  have hne : ∀ c : Char, (c.toNat < 0x30 ∨ 0x39 < c.toNat) → d ≠ c := by
    rintro c hc rfl
    omega
  have hsp : isSpace lib d = false := by
    unfold isSpace
    rw [if_pos (by omega)]
    simp only [Bool.or_eq_false_iff, decide_eq_false_iff_not]
    refine ⟨⟨⟨⟨⟨⟨⟨?_, ?_⟩, ?_⟩, ?_⟩, ?_⟩, ?_⟩, ?_⟩, ?_⟩ <;> omega
  have hl : isLetter lib d = false := by
    unfold isLetter
    rw [if_pos (by omega)]
    simp only [Bool.or_eq_false_iff, Bool.and_eq_false_iff, decide_eq_false_iff_not]
    constructor
    · left; omega
    · left; omega
  simp [Lexer.Lex, Lexer.fuel, Lexer.LexLoop, Lexer.next, hb, hin, hsp, hl,
    hne '\n' (by decide), hne '#' (by decide), hne '.' (by decide), hne ',' (by decide),
    hne ';' (by decide), hne '(' (by decide), hne ')' (by decide), hne '<' (by decide),
    hne '"' (by decide), hne '_' (by decide), unexpectedCharacter]

theorem Parse_integerStatement_aux (lib : StdLib) (s pr : Str) (hs : '>' ∉ s) (hpr : '>' ∉ pr) :
    ∃ (line col : Int),
      Parse lib (integerStatement s pr) =
        some ([], some (ParseErr.invalidObject (unexpectedCharacter lib '4' line col))) := by
  obtain ⟨f, hf⟩ : ∃ f, parseFuel (integerStatement s pr) = f + 2 :=
    ⟨parseFuel (integerStatement s pr) - 2, by simp [parseFuel]⟩
  have hat : (NewParser (integerStatement s pr)).At
      ('<' :: (s ++ '>' :: ' ' :: '<' :: (pr ++ '>' :: ' ' :: '4' :: "2 .".toList))) := by
    have := NewParser_At (integerStatement s pr)
    simpa [integerStatement] using this
  obtain ⟨p2, hat2, ht2, hloop⟩ :=
    ParseLoop_subject_predicate lib (f + 1) _ s pr _ hs hpr hat
  obtain ⟨p2', hat2', _, _, hnt2⟩ := nextToken_skip lib p2 ' ' (Or.inl rfl) _ hat2
  have hlex := Lex_digit lib '4' "2 .".toList (by decide) p2'.lexer hat2'.unbuffered
    hat2'.input_eq
  have hnt3 := nextToken_of_Lex lib p2' hat2'.pos_eq _ _ hlex
  refine ⟨p2'.lexer.line, p2'.lexer.col + 1, ?_⟩
  rw [Parse, hf, hloop]
  simp [Parser.parseObject, hnt2, hnt3, unexpectedCharacter]

/-! ### Blank-node labels -/

/-- `Lex` on `_:` followed by a label that runs up to `rest`: a blank-node
token, also when the label is empty. -/
theorem Lex_blankNode (lib : StdLib) (label rest : Str)
    (hlabel : ∀ c ∈ label, endsRun lib c = false) (hrest : EndsRun lib rest)
    (l : Lexer) (hb : l.buffered = false) (hin : l.input = '_' :: ':' :: (label ++ rest)) :
    ∃ l', l.Lex lib = some (⟨TokenType.BlankNode, '_' :: ':' :: label, l'.line, l'.col⟩, l') ∧
      l'.AfterRun rest := by
  obtain ⟨l', hloop, hafter⟩ := lexWordLoop_run lib label rest hlabel hrest
    (Lexer.fuel { l with input := label ++ rest, col := l.col + 1 + 1 })
    { l with input := label ++ rest, col := l.col + 1 + 1 } ['_', ':'] hb rfl
    (by simp [Lexer.fuel]; omega)
  refine ⟨l', ?_, hafter⟩
  have hstep : l.Lex lib =
      Lexer.lexBlankNode lib { l with input := ':' :: (label ++ rest), col := l.col + 1 } := by
    simp [Lexer.Lex, Lexer.fuel, Lexer.LexLoop, Lexer.next, hb, hin, isSpace]
  rw [hstep, Lexer.lexBlankNode]
  simp only [Lexer.next, hb, Bool.false_eq_true, if_false, Char.reduceEq, Bool.false_or,
    ne_eq, not_true_eq_false, decide_False]
  simp only [hb] at hloop
  rw [hloop]
  simp

/-- `Lex` on `_` not followed by `:`: the error token of `lexBlankNode`. -/
theorem Lex_blankNode_invalid (lib : StdLib) (rest : Str) (hrest : rest.head? ≠ some ':')
    (l : Lexer) (hb : l.buffered = false) (hin : l.input = '_' :: rest) :
    ∃ l', l.Lex lib = some (invalidBlankNode l'.line l'.col, l') := by
  have hstep : l.Lex lib =
      Lexer.lexBlankNode lib { l with input := rest, col := l.col + 1 } := by
    simp [Lexer.Lex, Lexer.fuel, Lexer.LexLoop, Lexer.next, hb, hin, isSpace]
  rw [hstep, Lexer.lexBlankNode]
  cases rest with
  | nil =>
    exact ⟨{ l with input := [], col := l.col + 1 },
      by simp [Lexer.next, hb, invalidBlankNode]⟩
  | cons c r =>
    have hc : c ≠ ':' := by
      rintro rfl
      simp at hrest
    by_cases hnl : c = '\n'
    · exact ⟨{ l with input := r, line := l.line + 1, col := 0 },
        by simp [Lexer.next, hb, hnl, invalidBlankNode]⟩
    · exact ⟨{ l with input := r, col := l.col + 1 + 1 },
        by simp [Lexer.next, hb, hnl, hc, invalidBlankNode]⟩

/-- `Lex` after a word or label that the end of input closed: the zero rune
that was pushed back is reported as an unexpected character. -/
theorem Lex_after_run_eof (lib : StdLib) (l : Lexer) (h : l.AfterRun []) :
    l.Lex lib = some (unexpectedCharacter lib (Char.ofNat 0) l.line l.col,
      { l with buffered := false }) := by
  obtain ⟨hb, hin, hbuf⟩ := h
  simp only [List.tail_nil, List.headD_nil] at hin hbuf
  simp [Lexer.Lex, Lexer.fuel, Lexer.LexLoop, Lexer.next, hb, hin, hbuf, isSpace, isLetter,
    unexpectedCharacter]

theorem Lex_blankNode_example (lib : StdLib) :
    (NewLexer "_: x".toList).Lex lib =
      some (⟨TokenType.BlankNode, "_:".toList, 1, 2⟩, ⟨"x".toList, 1, 2, true, ' '⟩) := by
  simp [Lexer.Lex, Lexer.fuel, Lexer.LexLoop, Lexer.next, NewLexer, isSpace, Lexer.lexBlankNode,
    Lexer.lexWordLoop, Lexer.backup]

/-! ### Quoted literals with a datatype or a language tag -/

theorem lexLiteralLoop_closed (v rest : Str) (hv : '"' ∉ v) :
    ∀ (fuel : Nat) (l : Lexer) (sb : Str), l.buffered = false →
      l.input = v ++ '"' :: rest → v.length + 1 ≤ fuel →
      ∃ l', Lexer.lexLiteralLoop fuel l sb = some (sb ++ v, l') ∧
        l'.input = rest ∧ l'.buffered = false := by
  induction v with
  | nil =>
    intro fuel l sb hb hin hf
    obtain ⟨f, rfl⟩ : ∃ f, fuel = f + 1 := ⟨fuel - 1, by simp at hf; omega⟩
    simp only [List.nil_append] at hin
    simp [Lexer.lexLiteralLoop, Lexer.next, hb, hin]
  | cons c v ih =>
    intro fuel l sb hb hin hf
    obtain ⟨f, rfl⟩ : ∃ f, fuel = f + 1 := ⟨fuel - 1, by simp at hf; omega⟩
    have hc : c ≠ '"' := fun h => hv (by simp [h])
    have hv' : '"' ∉ v := fun h => hv (by simp [h])
    simp only [List.cons_append] at hin
    by_cases hnl : c = '\n'
    · obtain ⟨l', h1, h2, h3⟩ := ih hv' f
        { l with input := v ++ '"' :: rest, line := l.line + 1, col := 0 } (sb ++ [c])
        hb rfl (by simp at hf ⊢; omega)
      refine ⟨l', ?_, h2, h3⟩
      simp [Lexer.lexLiteralLoop, Lexer.next, hb, hin, hnl, hc] at h1 ⊢
      simpa [hnl] using h1
    · obtain ⟨l', h1, h2, h3⟩ := ih hv' f
        { l with input := v ++ '"' :: rest, col := l.col + 1 } (sb ++ [c])
        hb rfl (by simp at hf ⊢; omega)
      refine ⟨l', ?_, h2, h3⟩
      simp [Lexer.lexLiteralLoop, Lexer.next, hb, hin, hnl, hc] at h1 ⊢
      exact h1

theorem lexIRILoop_open (d : Str) (hd : '>' ∉ d) :
    ∀ (fuel : Nat) (l : Lexer) (sb : Str), l.buffered = false →
      l.input = d → d.length + 1 ≤ fuel →
      ∃ l', Lexer.lexIRILoop fuel l sb = some (sb ++ d, l') ∧
        l'.input = [] ∧ l'.buffered = false := by
  induction d with
  | nil =>
    intro fuel l sb hb hin hf
    obtain ⟨f, rfl⟩ : ∃ f, fuel = f + 1 := ⟨fuel - 1, by simp at hf; omega⟩
    exact ⟨l, by simp [Lexer.lexIRILoop, Lexer.next, hb, hin], hin, hb⟩
  | cons c d ih =>
    intro fuel l sb hb hin hf
    obtain ⟨f, rfl⟩ : ∃ f, fuel = f + 1 := ⟨fuel - 1, by simp at hf; omega⟩
    have hc : c ≠ '>' := fun h => hd (by simp [h])
    have hd' : '>' ∉ d := fun h => hd (by simp [h])
    by_cases hnl : c = '\n'
    · obtain ⟨l', h1, h2, h3⟩ := ih hd' f
        { l with input := d, line := l.line + 1, col := 0 } (sb ++ [c])
        hb rfl (by simp at hf ⊢; omega)
      refine ⟨l', ?_, h2, h3⟩
      simp [Lexer.lexIRILoop, Lexer.next, hb, hin, hnl, hc] at h1 ⊢
      simpa [hnl] using h1
    · obtain ⟨l', h1, h2, h3⟩ := ih hd' f
        { l with input := d, col := l.col + 1 } (sb ++ [c])
        hb rfl (by simp at hf ⊢; omega)
      refine ⟨l', ?_, h2, h3⟩
      simp [Lexer.lexIRILoop, Lexer.next, hb, hin, hnl, hc] at h1 ⊢
      exact h1

/-- `Lex` on a quoted literal whose `^^` is followed by any text `d` without a
`>` up to the end of input: `lexIRI` reads `d` as the datatype, whatever it
is, and no error token is returned. -/
theorem Lex_datatype_open (lib : StdLib) (v d : Str) (hv : '"' ∉ v) (hd : '>' ∉ d)
    (l : Lexer) (hb : l.buffered = false) (hin : l.input = '"' :: (v ++ '"' :: '^' :: '^' :: d)) :
    ∃ (l' : Lexer) (line col : Int),
      l.Lex lib = some (⟨TokenType.Literal, v ++ '^' :: '^' :: d, line, col⟩, l') ∧
        l'.input = [] ∧ l'.buffered = false := by
  have hstep : l.Lex lib = Lexer.lexLiteral lib
      { l with input := v ++ '"' :: '^' :: '^' :: d, col := l.col + 1 } := by
    simp [Lexer.Lex, Lexer.fuel, Lexer.LexLoop, Lexer.next, hb, hin, isSpace]
  obtain ⟨l2, hloop, hin2, hb2⟩ := lexLiteralLoop_closed v ('^' :: '^' :: d) hv
    (Lexer.fuel { l with input := v ++ '"' :: '^' :: '^' :: d, col := l.col + 1 })
    { l with input := v ++ '"' :: '^' :: '^' :: d, col := l.col + 1 } [] hb rfl
    (by simp [Lexer.fuel]; omega)
  obtain ⟨l5, hiri, hin5, hb5⟩ := lexIRILoop_open d hd
    (Lexer.fuel { l2 with input := d, col := l2.col + 1 + 1 })
    { l2 with input := d, col := l2.col + 1 + 1 } [] hb2 rfl (by simp [Lexer.fuel])
  refine ⟨l5, l2.line, l2.col, ?_, hin5, hb5⟩
  rw [hstep, Lexer.lexLiteral, hloop]
  simp only [List.nil_append]
  simp only [Lexer.next, hb2, hin2, Bool.false_eq_true, if_false, Char.reduceEq, Lexer.lexIRI,
    Bool.not_false, Bool.true_and, decide_True, if_true]
  simp only [hb2] at hiri
  rw [hiri]
  simp

theorem lexLanguageTagLoop_run (lib : StdLib) (t rest : Str)
    (ht : ∀ c ∈ t, endsRun lib c = false) (hgood : ∀ c ∈ t, isLetter lib c = true ∨ c = '-')
    (hrest : EndsRun lib rest) :
    ∀ (fuel : Nat) (l : Lexer) (sb : Str), l.buffered = false →
      l.input = t ++ rest → t.length + 1 ≤ fuel →
      ∃ l', Lexer.lexLanguageTagLoop lib fuel l sb = some ((sb ++ t, false), l') ∧
        l'.AfterRun rest := by
  induction t with
  | nil =>
    intro fuel l sb hb hin hf
    obtain ⟨f, rfl⟩ : ∃ f, fuel = f + 1 := ⟨fuel - 1, by simp at hf; omega⟩
    simp only [List.nil_append] at hin
    rcases hrest with rfl | ⟨c, r, rfl, hc⟩
    · refine ⟨l.backup (Char.ofNat 0), ?_, rfl, ?_, rfl⟩
      · simp [Lexer.lexLanguageTagLoop, Lexer.next, hb, hin]
      · simpa [Lexer.backup] using hin
    · have hc' : (isSpace lib c || isDelim c) = true := hc
      by_cases hnl : c = '\n'
      · refine ⟨Lexer.backup { l with input := r, line := l.line + 1, col := 0 } c, ?_,
          rfl, rfl, rfl⟩
        rw [Lexer.lexLanguageTagLoop]
        simp only [Lexer.next, hb, hin, hnl, Bool.false_eq_true, if_false, if_true,
          Bool.false_or]
        rw [← hnl, hc']
        simp
      · refine ⟨Lexer.backup { l with input := r, col := l.col + 1 } c, ?_, rfl, rfl, rfl⟩
        rw [Lexer.lexLanguageTagLoop]
        simp only [Lexer.next, hb, hin, hnl, Bool.false_eq_true, if_false, Bool.false_or]
        rw [hc']
        simp
  | cons a t ih =>
    intro fuel l sb hb hin hf
    obtain ⟨f, rfl⟩ : ∃ f, fuel = f + 1 := ⟨fuel - 1, by simp at hf; omega⟩
    have ha : (isSpace lib a || isDelim a) = false := ht a (by simp)
    have hnl : a ≠ '\n' := by
      rintro rfl
      have := ht '\n' (by simp)
      rw [endsRun_newline] at this
      cases this
    have hga : (!isLetter lib a && decide (a ≠ '-')) = false := by
      rcases hgood a (by simp) with h | h
      · simp [h]
      · simp [h]
    simp only [List.cons_append] at hin
    obtain ⟨l', h1, h2⟩ := ih (fun c hc => ht c (by simp [hc]))
      (fun c hc => hgood c (by simp [hc])) f
      { l with input := t ++ rest, col := l.col + 1 } (sb ++ [a])
      hb rfl (by simp at hf ⊢; omega)
    refine ⟨l', ?_, h2⟩
    rw [Lexer.lexLanguageTagLoop]
    simp only [Lexer.next, hb, hin, hnl, Bool.false_eq_true, if_false, Bool.false_or]
    rw [ha, hga]
    simpa [hb] using h1

theorem lexLanguageTagLoop_bad (lib : StdLib) (t rest : Str)
    (ht : ∀ c ∈ t, endsRun lib c = false)
    (hbad : ∃ c ∈ t, isLetter lib c = false ∧ c ≠ '-') :
    ∀ (fuel : Nat) (l : Lexer) (sb : Str), l.buffered = false →
      l.input = t ++ rest → t.length ≤ fuel →
      ∃ l', Lexer.lexLanguageTagLoop lib fuel l sb = some (([], true), l') := by
  induction t with
  | nil =>
    obtain ⟨c, hc, _⟩ := hbad
    simp at hc
  | cons a t ih =>
    intro fuel l sb hb hin hf
    obtain ⟨f, rfl⟩ : ∃ f, fuel = f + 1 := ⟨fuel - 1, by simp at hf; omega⟩
    have ha : (isSpace lib a || isDelim a) = false := ht a (by simp)
    have hnl : a ≠ '\n' := by
      rintro rfl
      have := ht '\n' (by simp)
      rw [endsRun_newline] at this
      cases this
    simp only [List.cons_append] at hin
    rw [Lexer.lexLanguageTagLoop]
    simp only [Lexer.next, hb, hin, hnl, Bool.false_eq_true, if_false, Bool.false_or]
    rw [ha]
    by_cases hga : (!isLetter lib a && decide (a ≠ '-')) = true
    · exact ⟨{ l with input := t ++ rest, col := l.col + 1 }, by simp only [hga]; simp [hb]⟩
    · have hbad' : ∃ c ∈ t, isLetter lib c = false ∧ c ≠ '-' := by
        obtain ⟨c, hc, hcl, hch⟩ := hbad
        rcases List.mem_cons.1 hc with rfl | hc
        · exact absurd (by simp [hcl, hch]) hga
        · exact ⟨c, hc, hcl, hch⟩
      obtain ⟨l', h1⟩ := ih (fun c hc => ht c (by simp [hc])) hbad' f
        { l with input := t ++ rest, col := l.col + 1 } (sb ++ [a])
        hb rfl (by simp at hf ⊢; omega)
      refine ⟨l', ?_⟩
      simp only [hga]
      simpa [hb] using h1

/-- `Lex` on a quoted literal `v` with the language tag `t`. -/
theorem Lex_language_tag_aux (lib : StdLib) (v t rest : Str) (hv : '"' ∉ v)
    (ht : ∀ c ∈ t, endsRun lib c = false) (hrest : EndsRun lib rest)
    (l : Lexer) (hb : l.buffered = false)
    (hin : l.input = '"' :: (v ++ '"' :: '@' :: (t ++ rest))) :
    ((∀ c ∈ t, isLetter lib c = true ∨ c = '-') →
      ∃ (l' : Lexer) (line col : Int),
        l.Lex lib = some (⟨TokenType.Literal, v ++ '@' :: t, line, col⟩, l') ∧
          l'.AfterRun rest) ∧
    ((∃ c ∈ t, isLetter lib c = false ∧ c ≠ '-') →
      ∃ l' : Lexer, l.Lex lib = some (invalidLanguageTag l'.line l'.col, l')) := by
  have hstep : l.Lex lib = Lexer.lexLiteral lib
      { l with input := v ++ '"' :: '@' :: (t ++ rest), col := l.col + 1 } := by
    simp [Lexer.Lex, Lexer.fuel, Lexer.LexLoop, Lexer.next, hb, hin, isSpace]
  obtain ⟨l2, hloop, hin2, hb2⟩ := lexLiteralLoop_closed v ('@' :: (t ++ rest)) hv
    (Lexer.fuel { l with input := v ++ '"' :: '@' :: (t ++ rest), col := l.col + 1 })
    { l with input := v ++ '"' :: '@' :: (t ++ rest), col := l.col + 1 } [] hb rfl
    (by simp [Lexer.fuel]; omega)
  have hlit : l.Lex lib =
      match Lexer.lexLanguageTag lib { l2 with input := t ++ rest, col := l2.col + 1 } with
      | none => none
      | some ((langTag, err), l4) =>
        if err then some (invalidLanguageTag l4.line l4.col, l4)
        else some (⟨TokenType.Literal, v ++ "@".toList ++ langTag, l2.line, l2.col⟩, l4) := by
    rw [hstep, Lexer.lexLiteral, hloop]
    simp only [List.nil_append]
    simp only [Lexer.next, hb2, hin2, Bool.false_eq_true, if_false, Char.reduceEq, if_true]
    simp only [hb2, invalidLanguageTag]
  constructor
  · intro hgood
    obtain ⟨l4, htag, hafter⟩ := lexLanguageTagLoop_run lib t rest ht hgood hrest
      (Lexer.fuel { l2 with input := t ++ rest, col := l2.col + 1 })
      { l2 with input := t ++ rest, col := l2.col + 1 } [] hb2 rfl
      (by simp [Lexer.fuel]; omega)
    refine ⟨l4, l2.line, l2.col, ?_, hafter⟩
    rw [hlit, Lexer.lexLanguageTag, htag]
    simp
  · intro hbad
    obtain ⟨l4, htag⟩ := lexLanguageTagLoop_bad lib t rest ht hbad
      (Lexer.fuel { l2 with input := t ++ rest, col := l2.col + 1 })
      { l2 with input := t ++ rest, col := l2.col + 1 } [] hb2 rfl
      (by simp [Lexer.fuel]; omega)
    refine ⟨l4, ?_⟩
    rw [hlit, Lexer.lexLanguageTag, htag]
    simp

/-! ### The position a token carries -/

theorem lexComment_position (l l' : Lexer) (tok : Token) (h : l.lexComment = some (tok, l')) :
    tok.Line = l'.line ∧ tok.Col = l'.col := by
  unfold Lexer.lexComment at h
  split at h
  · cases h
  · cases h
    exact ⟨rfl, rfl⟩

theorem lexIRI_position (l l' : Lexer) (tok : Token) (h : l.lexIRI = some (tok, l')) :
    tok.Line = l'.line ∧ tok.Col = l'.col := by
  unfold Lexer.lexIRI at h
  split at h
  · cases h
  · cases h
    exact ⟨rfl, rfl⟩

theorem lexLiteral_position (lib : StdLib) (l l' : Lexer) (tok : Token)
    (h : l.lexLiteral lib = some (tok, l')) (hne : tok.Typ ≠ TokenType.Literal) :
    tok.Line = l'.line ∧ tok.Col = l'.col := by
  unfold Lexer.lexLiteral at h
  repeat' split at h
  all_goals first
    | (cases h; done)
    | (cases h; exact ⟨rfl, rfl⟩)
    | (cases h; exact absurd rfl hne)

theorem lexBlankNode_position (lib : StdLib) (l l' : Lexer) (tok : Token)
    (h : l.lexBlankNode lib = some (tok, l')) : tok.Line = l'.line ∧ tok.Col = l'.col := by
  unfold Lexer.lexBlankNode at h
  repeat' split at h
  all_goals first
    | (cases h; done)
    | (cases h; exact ⟨rfl, rfl⟩)

theorem lexWord_position (lib : StdLib) (l l' : Lexer) (tok : Token)
    (h : l.lexWord lib = some (tok, l')) : tok.Line = l'.line ∧ tok.Col = l'.col := by
  unfold Lexer.lexWord at h
  repeat' split at h
  all_goals first
    | (cases h; done)
    | (cases h; exact ⟨rfl, rfl⟩)

theorem LexLoop_position (lib : StdLib) :
    ∀ (fuel : Nat) (l l' : Lexer) (tok : Token),
      Lexer.LexLoop lib fuel l = some (tok, l') → tok.Typ ≠ TokenType.Literal →
        tok.Line = l'.line ∧ tok.Col = l'.col := by
  intro fuel
  induction fuel with
  | zero =>
    intro l l' tok h
    simp [Lexer.LexLoop] at h
  | succ f ih =>
    intro l l' tok h hne
    rcases hn : l.next with ⟨⟨ch, err⟩, l1⟩
    rw [Lexer.LexLoop, hn] at h
    dsimp only at h
    by_cases h1 : err = true
    · rw [if_pos h1] at h; cases h; exact ⟨rfl, rfl⟩
    rw [if_neg h1] at h
    by_cases h2 : isSpace lib ch = true
    · rw [if_pos h2] at h; exact ih _ _ _ h hne
    rw [if_neg h2] at h
    by_cases h3 : ch = '#'
    · rw [if_pos h3] at h; exact lexComment_position _ _ _ h
    rw [if_neg h3] at h
    by_cases h4 : ch = '.'
    · rw [if_pos h4] at h; cases h; exact ⟨rfl, rfl⟩
    rw [if_neg h4] at h
    by_cases h5 : ch = ','
    · rw [if_pos h5] at h; cases h; exact ⟨rfl, rfl⟩
    rw [if_neg h5] at h
    by_cases h6 : ch = ';'
    · rw [if_pos h6] at h; cases h; exact ⟨rfl, rfl⟩
    rw [if_neg h6] at h
    by_cases h7 : ch = '('
    · rw [if_pos h7] at h; cases h; exact ⟨rfl, rfl⟩
    rw [if_neg h7] at h
    by_cases h8 : ch = ')'
    · rw [if_pos h8] at h; cases h; exact ⟨rfl, rfl⟩
    rw [if_neg h8] at h
    by_cases h9 : ch = '<'
    · rw [if_pos h9] at h; exact lexIRI_position _ _ _ h
    rw [if_neg h9] at h
    by_cases h10 : ch = '"'
    · rw [if_pos h10] at h; exact lexLiteral_position lib _ _ _ h hne
    rw [if_neg h10] at h
    by_cases h11 : ch = '_'
    · rw [if_pos h11] at h; exact lexBlankNode_position lib _ _ _ h
    rw [if_neg h11] at h
    by_cases h12 : isLetter lib ch = true
    · rw [if_pos h12] at h; exact lexWord_position lib _ _ _ h
    rw [if_neg h12] at h
    cases h
    exact ⟨rfl, rfl⟩

theorem lexIRILoop_column (s rest : Str) (hs : '>' ∉ s) (hnl : '\n' ∉ s) :
    ∀ (fuel : Nat) (l : Lexer) (sb : Str), l.buffered = false →
      l.input = s ++ '>' :: rest → s.length + 1 ≤ fuel →
      Lexer.lexIRILoop fuel l sb =
        some (sb ++ s, { l with input := rest, col := l.col + (s.length + 1 : Nat) }) := by
  induction s with
  | nil =>
    intro fuel l sb hb hin hf
    obtain ⟨f, rfl⟩ : ∃ f, fuel = f + 1 := ⟨fuel - 1, by simp at hf; omega⟩
    simp only [List.nil_append] at hin
    simp [Lexer.lexIRILoop, Lexer.next, hb, hin]
  | cons c s ih =>
    intro fuel l sb hb hin hf
    obtain ⟨f, rfl⟩ : ∃ f, fuel = f + 1 := ⟨fuel - 1, by simp at hf; omega⟩
    have hc : c ≠ '>' := fun h => hs (by simp [h])
    have hc' : c ≠ '\n' := fun h => hnl (by simp [h])
    simp only [List.cons_append] at hin
    have h1 := ih (fun h => hs (by simp [h])) (fun h => hnl (by simp [h])) f
      { l with input := s ++ '>' :: rest, col := l.col + 1 } (sb ++ [c])
      hb rfl (by simp at hf ⊢; omega)
    rw [Lexer.lexIRILoop]
    simp only [Lexer.next, hb, hin, hc, hc', Bool.false_eq_true, if_false, Bool.false_or,
      decide_False]
    simp only [hb] at h1
    rw [h1]
    simp only [List.append_assoc, List.singleton_append, List.length_cons, Nat.cast_add,
      Nat.cast_one, Option.some.injEq, Prod.mk.injEq, true_and]
    congr 1
    omega

/-- `Lex` on `<s>` at the start of an input, for `s` on one line: the IRI
token carries line 1 and the column of the closing `>`. -/
theorem Lex_IRI_position (lib : StdLib) (s rest : Str) (hs : '>' ∉ s) (hnl : '\n' ∉ s) :
    (NewLexer ('<' :: (s ++ '>' :: rest))).Lex lib =
      some (⟨TokenType.IRI, s, 1, (s.length + 2 : Nat)⟩,
        ⟨rest, 1, (s.length + 2 : Nat), false, Char.ofNat 0⟩) := by
  have hstep : (NewLexer ('<' :: (s ++ '>' :: rest))).Lex lib =
      Lexer.lexIRI ⟨s ++ '>' :: rest, 1, 1, false, Char.ofNat 0⟩ := by
    simp [Lexer.Lex, Lexer.fuel, Lexer.LexLoop, Lexer.next, NewLexer, isSpace]
  have h1 := lexIRILoop_column s rest hs hnl
    (Lexer.fuel ⟨s ++ '>' :: rest, 1, 1, false, Char.ofNat 0⟩)
    ⟨s ++ '>' :: rest, 1, 1, false, Char.ofNat 0⟩ [] rfl rfl (by simp [Lexer.fuel]; omega)
  rw [hstep, Lexer.lexIRI, h1]
  simp only [List.nil_append, Nat.cast_add, Nat.cast_one, Nat.cast_ofNat, Option.some.injEq,
    Prod.mk.injEq, Token.mk.injEq, Lexer.mk.injEq, true_and, and_true]
  omega

/-! ### Repeated calls of `Lex`, and a collection that is never closed -/

theorem LexN_reaches_eof (lib : StdLib) :
    ∀ (m : Nat) (l : Lexer), l.measure lib ≤ m →
      ∃ (n : Nat) (tok : Token) (l' : Lexer), n ≤ m ∧
        Lexer.LexN lib n l = some (tok, l') ∧ tok.Typ = TokenType.EOF := by
  intro m
  induction m with
  | zero =>
    intro l hm
    obtain ⟨tok, l', hlex, _, hlt⟩ := Lex_total lib l
    refine ⟨0, tok, l', Nat.le_refl _, hlex, ?_⟩
    by_contra hne
    have := hlt hne
    omega
  | succ m ih =>
    intro l hm
    obtain ⟨tok, l', hlex, _, hlt⟩ := Lex_total lib l
    by_cases heof : tok.Typ = TokenType.EOF
    · exact ⟨0, tok, l', Nat.zero_le _, hlex, heof⟩
    · obtain ⟨n, tok', l'', hn, hN, htyp⟩ := ih l' (by have := hlt heof; omega)
      refine ⟨n + 1, tok', l'', by omega, ?_, htyp⟩
      simp [Lexer.LexN, hlex, hN]

/-- The loop of `parseCollection` at the end of the input: the end-of-input
token is not a closing parenthesis, and is no object either. -/
theorem parseCollection_eof (lib : StdLib) (fuel : Nat) (p : Parser) (items : List Str)
    (h : p.At []) :
    ∃ (tok : Token) (p' : Parser), tok.Typ = TokenType.EOF ∧
      Parser.parseCollection lib (fuel + 2) p items =
        some (Except.error (ParseErr.invalidObject tok), p') := by
  have hlex := Lex_eof lib p.lexer h.unbuffered h.input_eq
  obtain ⟨p1, h1, _, _, h4, h5⟩ := nextToken_At lib p [] [] h _ _ hlex h.unbuffered h.input_eq
  have hback : p1.backup.nextToken lib =
      some (⟨TokenType.EOF, [], p.lexer.line, p.lexer.col⟩, p1) := by
    apply nextToken_backup
    · rw [h4]; simp
    · rw [h5, h4]; simp
    · rw [h5]; omega
  refine ⟨⟨TokenType.EOF, [], p.lexer.line, p.lexer.col⟩, p1, rfl, ?_⟩
  simp [Parser.parseCollection, h1, Parser.parseObject, hback]

theorem parseCollection_unclosed (lib : StdLib) (os : List Str) (hos : ∀ o ∈ os, '>' ∉ o) :
    ∀ (fuel : Nat) (p : Parser) (items : List Str),
      p.At (membersText os) → os.length + 2 ≤ fuel →
      ∃ (tok : Token) (p' : Parser), tok.Typ = TokenType.EOF ∧
        Parser.parseCollection lib fuel p items =
          some (Except.error (ParseErr.invalidObject tok), p') := by
  induction os with
  | nil =>
    intro fuel p items h hf
    obtain ⟨f, rfl⟩ : ∃ f, fuel = f + 2 := ⟨fuel - 2, by simp at hf; omega⟩
    exact parseCollection_eof lib f p items (by simpa [membersText] using h)
  | cons o os ih =>
    intro fuel p items h hf
    obtain ⟨f, rfl⟩ : ∃ f, fuel = f + 2 := ⟨fuel - 2, by simp at hf; omega⟩
    have ho : '>' ∉ o := hos o (by simp)
    have hos' : ∀ o ∈ os, '>' ∉ o := fun o' ho' => hos o' (by simp [ho'])
    cases os with
    | nil =>
      have h' : p.At ('<' :: (o ++ '>' :: [])) := by simpa [membersText] using h
      obtain ⟨p1, hat1, _, hstep⟩ := parseCollection_member lib f p items o _ ho h'
      obtain ⟨tok, p', htok, hrest⟩ := ih hos' (f + 1) p1 (items ++ [plainIRI o])
        (by simpa [membersText] using hat1) (by simp at hf ⊢; omega)
      exact ⟨tok, p', htok, by rw [hstep, hrest]⟩
    | cons o' os =>
      have h' : p.At ('<' :: (o ++ '>' :: ' ' :: membersText (o' :: os))) := by
        simpa [membersText] using h
      obtain ⟨p1, hat1, _, hstep⟩ := parseCollection_member lib f p items o _ ho h'
      obtain ⟨p2, hat2, _, hskip⟩ :=
        parseCollection_skip lib (f + 1) p1 (items ++ [plainIRI o]) _ hat1
      obtain ⟨tok, p', htok, hrest⟩ := ih hos' (f + 1) p2 (items ++ [plainIRI o]) hat2
        (by simp at hf ⊢; omega)
      exact ⟨tok, p', htok, by rw [hstep, hskip, hrest]⟩

/-- `Parse` on a statement whose collection is never closed: the error
`invalid object` for the end-of-input token, and no triple. -/
theorem Parse_unclosedStatement_aux (lib : StdLib) (s pr : Str) (os : List Str)
    (hs : '>' ∉ s) (hpr : '>' ∉ pr) (hos : ∀ o ∈ os, '>' ∉ o) :
    ∃ tok : Token, tok.Typ = TokenType.EOF ∧
      Parse lib (unclosedStatement s pr os) = some ([], some (ParseErr.invalidObject tok)) := by
  have hlen : os.length ≤ (membersText os).length := by
    clear hos
    induction os with
    | nil => simp
    | cons o os ih =>
      cases os with
      | nil => simp [membersText]
      | cons o' os =>
        simp [membersText] at ih ⊢
        omega
  obtain ⟨f, hf, hfge⟩ : ∃ f, parseFuel (unclosedStatement s pr os) = f + 2 ∧
      os.length + 2 ≤ f := by
    refine ⟨parseFuel (unclosedStatement s pr os) - 2, by simp [parseFuel], ?_⟩
    simp [parseFuel, unclosedStatement]
    omega
  have hat : (NewParser (unclosedStatement s pr os)).At
      ('<' :: (s ++ '>' :: ' ' :: '<' :: (pr ++ '>' :: ' ' :: '(' :: membersText os))) :=
    NewParser_At _
  obtain ⟨p2, hat2, _, hloop⟩ := ParseLoop_subject_predicate lib (f + 1) _ s pr _ hs hpr hat
  obtain ⟨p2', hat2', _, _, hnt2⟩ := nextToken_skip lib p2 ' ' (Or.inl rfl) _ hat2
  obtain ⟨tok3, l3, hlex3, htyp3, hin3, hb3⟩ :=
    Lex_open lib _ p2'.lexer hat2'.unbuffered hat2'.input_eq
  obtain ⟨p3, hnt3, hat3, _, _, _⟩ := nextToken_At lib p2' _ _ hat2' tok3 l3 hlex3 hb3 hin3
  obtain ⟨tok, p', htok, hcoll⟩ := parseCollection_unclosed lib os hos f p3 [] hat3 hfge
  refine ⟨tok, htok, ?_⟩
  rw [Parse, hf, hloop]
  simp only [Parser.parseObject, hnt2, hnt3, htyp3, hcoll]

/-! ### A datatype written as an IRI -/

/-- `Lex` on a quoted literal whose `^^` is followed by `<iri>`: `lexIRI` reads
up to the `>` and keeps the `<` in the datatype text. -/
theorem Lex_datatype_IRI (lib : StdLib) (v iri rest : Str) (hv : '"' ∉ v) (hi : '>' ∉ iri)
    (l : Lexer) (hb : l.buffered = false)
    (hin : l.input = '"' :: (v ++ '"' :: '^' :: '^' :: '<' :: (iri ++ '>' :: rest))) :
    ∃ (l' : Lexer) (line col : Int),
      l.Lex lib = some (⟨TokenType.Literal, v ++ '^' :: '^' :: '<' :: iri, line, col⟩, l') ∧
        l'.input = rest ∧ l'.buffered = false := by
  have hstep : l.Lex lib = Lexer.lexLiteral lib
      { l with input := v ++ '"' :: '^' :: '^' :: '<' :: (iri ++ '>' :: rest),
               col := l.col + 1 } := by
    simp [Lexer.Lex, Lexer.fuel, Lexer.LexLoop, Lexer.next, hb, hin, isSpace]
  obtain ⟨l2, hloop, hin2, hb2⟩ := lexLiteralLoop_closed v
    ('^' :: '^' :: '<' :: (iri ++ '>' :: rest)) hv
    (Lexer.fuel { l with input := v ++ '"' :: '^' :: '^' :: '<' :: (iri ++ '>' :: rest),
                         col := l.col + 1 })
    { l with input := v ++ '"' :: '^' :: '^' :: '<' :: (iri ++ '>' :: rest), col := l.col + 1 }
    [] hb rfl (by simp [Lexer.fuel]; omega)
  have hi' : '>' ∉ '<' :: iri := by
    intro h
    rcases List.mem_cons.1 h with h | h
    · cases h
    · exact hi h
  obtain ⟨l5, hiri, hin5, hb5⟩ := lexIRILoop_closed ('<' :: iri) rest hi'
    (Lexer.fuel { l2 with input := '<' :: (iri ++ '>' :: rest), col := l2.col + 1 + 1 })
    { l2 with input := '<' :: (iri ++ '>' :: rest), col := l2.col + 1 + 1 } [] hb2 rfl
    (by simp [Lexer.fuel]; omega)
  refine ⟨l5, l2.line, l2.col, ?_, hin5, hb5⟩
  rw [hstep, Lexer.lexLiteral, hloop]
  simp only [List.nil_append]
  simp only [Lexer.next, hb2, hin2, Bool.false_eq_true, if_false, Char.reduceEq, Lexer.lexIRI,
    Bool.not_false, Bool.true_and, decide_True, if_true]
  simp only [hb2] at hiri
  rw [hiri]
  simp

/-! ### The triples of a token sequence -/

theorem tokens_cons (lib : StdLib) (n : Nat) (l : Lexer) (toks : List Token)
    (h : Lexer.tokens lib n l = some toks) :
    ∃ (tok : Token) (l' : Lexer) (rest : List Token),
      l.Lex lib = some (tok, l') ∧ toks = tok :: rest ∧ tok.Typ.lexed = true ∧
      ((tok.Typ = TokenType.EOF ∧ rest = []) ∨
       (tok.Typ ≠ TokenType.EOF ∧ ∃ n', Lexer.tokens lib n' l' = some rest)) := by
  cases n with
  | zero => simp [Lexer.tokens] at h
  | succ n =>
    rw [Lexer.tokens] at h
    cases hlex : l.Lex lib with
    | none => simp [hlex] at h
    | some x =>
      obtain ⟨tok, l'⟩ := x
      simp only [hlex] at h
      by_cases heof : tok.Typ = TokenType.EOF
      · rw [if_pos heof] at h
        cases h
        exact ⟨tok, l', [], rfl, rfl, Lex_kind lib l l' tok hlex, Or.inl ⟨heof, rfl⟩⟩
      · rw [if_neg heof] at h
        cases hrest : Lexer.tokens lib n l' with
        | none => simp [hrest] at h
        | some rest =>
          simp only [hrest] at h
          cases h
          exact ⟨tok, l', rest, rfl, rfl, Lex_kind lib l l' tok hlex, Or.inr ⟨heof, n, hrest⟩⟩

theorem tokens_lexed (lib : StdLib) :
    ∀ (n : Nat) (l : Lexer) (toks : List Token), Lexer.tokens lib n l = some toks →
      ∀ tok ∈ toks, tok.Typ.lexed = true := by
  intro n
  induction n with
  | zero =>
    intro l toks h
    simp [Lexer.tokens] at h
  | succ n ih =>
    intro l toks h
    rw [Lexer.tokens] at h
    cases hlex : l.Lex lib with
    | none => simp [hlex] at h
    | some x =>
      obtain ⟨tok, l'⟩ := x
      have hk := Lex_kind lib l l' tok hlex
      simp only [hlex] at h
      by_cases heof : tok.Typ = TokenType.EOF
      · rw [if_pos heof] at h
        cases h
        intro t ht
        rw [List.mem_singleton.1 ht]
        exact hk
      · rw [if_neg heof] at h
        cases hrest : Lexer.tokens lib n l' with
        | none => simp [hrest] at h
        | some rest =>
          simp only [hrest] at h
          cases h
          intro t ht
          rcases List.mem_cons.1 ht with ht | ht
          · rw [ht]
            exact hk
          · exact ih l' rest hrest t ht

theorem tokens_total (lib : StdLib) :
    ∀ (m : Nat) (l : Lexer), l.measure lib ≤ m →
      ∃ toks, Lexer.tokens lib (m + 1) l = some toks := by
  intro m
  induction m with
  | zero =>
    intro l hm
    obtain ⟨tok, l', hlex, _, hlt⟩ := Lex_total lib l
    have heof : tok.Typ = TokenType.EOF := by
      by_contra hne
      have := hlt hne
      omega
    exact ⟨[tok], by simp [Lexer.tokens, hlex, heof]⟩
  | succ m ih =>
    intro l hm
    obtain ⟨tok, l', hlex, _, hlt⟩ := Lex_total lib l
    by_cases heof : tok.Typ = TokenType.EOF
    · exact ⟨[tok], by rw [Lexer.tokens]; simp [hlex, heof]⟩
    · obtain ⟨rest, hrest⟩ := ih l' (by have := hlt heof; omega)
      exact ⟨tok :: rest, by rw [Lexer.tokens]; simp [hlex, heof, hrest]⟩

theorem tokensOf_total (lib : StdLib) (input : Str) : ∃ toks, tokensOf lib input = some toks :=
  tokens_total lib (3 * input.length) (NewLexer input) (by simp [Lexer.measure, NewLexer])

theorem Ahead_Rem (lib : StdLib) (p : Parser) (toks : List Token) (h : p.Ahead lib toks) :
    p.Rem lib toks := by
  obtain ⟨hpos, n, hn⟩ := h
  obtain ⟨tok, l', rest, hlex, htoks, hk, hrest⟩ := tokens_cons lib n p.lexer toks hn
  exact ⟨tok, _, rest, nextToken_of_Lex lib p hpos tok l' hlex, by simp [hpos], htoks, hk, hrest⟩

theorem NewParser_Ahead (lib : StdLib) (input : Str) (toks : List Token)
    (h : tokensOf lib input = some toks) : (NewParser input).Ahead lib toks :=
  ⟨rfl, _, h⟩

theorem nextToken_again (lib : StdLib) (p p1 : Parser) (tok : Token)
    (h : p.nextToken lib = some (tok, p1)) (hb : p1.pos = p1.tokens.length) :
    p1.backup.nextToken lib = some (tok, p1) := by
  unfold Parser.nextToken at h
  split at h
  · rename_i token hget
    cases h
    simp [Parser.backup, Parser.nextToken, hget]
  · split at h
    · cases h
    · rename_i token l hlex
      cases h
      simp only [List.length_append, List.length_singleton, Nat.add_right_cancel_iff] at hb
      simp [Parser.backup, Parser.nextToken, hb]

/-- What `nextToken` does on a parser that is to read `toks`. -/
theorem nextToken_Rem (lib : StdLib) (p p1 : Parser) (toks : List Token) (tok : Token)
    (hrem : p.Rem lib toks) (h : p.nextToken lib = some (tok, p1)) :
    ∃ rest, toks = tok :: rest ∧ tok.Typ.lexed = true ∧
      p1.prefixes = p.prefixes ∧ p1.base = p.base ∧ p1.triples = p.triples ∧
      (tok.Typ ≠ TokenType.EOF → p1.Ahead lib rest) ∧ p1.backup.Rem lib toks := by
  obtain ⟨tok', p1', rest, hnt, hb, htoks, hk, hrest⟩ := hrem
  rw [hnt] at h
  cases h
  obtain ⟨h1, h2, h3⟩ := nextToken_fields lib p p1 tok hnt
  refine ⟨rest, htoks, hk, h2, h3, h1, ?_, ?_⟩
  · intro hne
    rcases hrest with ⟨heof, _⟩ | ⟨_, n, hn⟩
    · exact absurd heof hne
    · exact ⟨hb, n, hn⟩
  · exact ⟨tok, p1, rest, nextToken_again lib p p1 tok hnt hb, hb, htoks, hk, hrest⟩

theorem parseSubject_Rem (lib : StdLib) (p p' : Parser) (toks : List Token) (v : Str)
    (hrem : p.Rem lib toks) (h : p.parseSubject lib = some (Except.ok v, p')) :
    ∃ tok rest, toks = tok :: rest ∧ subjectTerm p.prefixes p.base tok = some v ∧
      p'.Ahead lib rest ∧ p'.prefixes = p.prefixes ∧ p'.base = p.base ∧
      p'.triples = p.triples := by
  unfold Parser.parseSubject at h
  cases hnt : p.nextToken lib with
  | none => simp [hnt] at h
  | some x =>
    obtain ⟨token, p1⟩ := x
    obtain ⟨rest, htoks, hk, hpre, hbase, htr, hahead, _⟩ :=
      nextToken_Rem lib p p1 toks token hrem hnt
    simp only [hnt] at h
    split at h
    · rename_i htyp
      rw [expandIRI_eq, hpre, hbase] at h
      cases h
      exact ⟨token, rest, htoks, by simp [subjectTerm, htyp], hahead (by simp [htyp]),
        hpre, hbase, htr⟩
    · rename_i htyp
      cases h
      exact ⟨token, rest, htoks, by simp [subjectTerm, htyp], hahead (by simp [htyp]),
        hpre, hbase, htr⟩
    · cases h

theorem parsePredicate_Rem (lib : StdLib) (p p' : Parser) (toks : List Token) (v : Str)
    (hrem : p.Rem lib toks) (h : p.parsePredicate lib = some (Except.ok v, p')) :
    ∃ tok rest, toks = tok :: rest ∧ predicateTerm p.prefixes p.base tok = some v ∧
      p'.Ahead lib rest ∧ p'.prefixes = p.prefixes ∧ p'.base = p.base ∧
      p'.triples = p.triples := by
  unfold Parser.parsePredicate at h
  cases hnt : p.nextToken lib with
  | none => simp [hnt] at h
  | some x =>
    obtain ⟨token, p1⟩ := x
    obtain ⟨rest, htoks, hk, hpre, hbase, htr, hahead, _⟩ :=
      nextToken_Rem lib p p1 toks token hrem hnt
    simp only [hnt] at h
    split at h
    · rename_i htyp
      rw [expandIRI_eq, hpre, hbase] at h
      cases h
      exact ⟨token, rest, htoks, by simp [predicateTerm, htyp], hahead (by simp [htyp]),
        hpre, hbase, htr⟩
    · rename_i htyp
      rw [htyp] at hk
      cases hk
    · cases h

/-- The value `parseObject` returns is the object at the head of the tokens
the parser is to read, and the members `parseCollection` reads are the members
up to the closing parenthesis. -/
theorem parseObject_parseCollection_Rem (lib : StdLib) (fuel : Nat) :
    (∀ (p p' : Parser) (toks : List Token) (v : Str), p.Rem lib toks →
      p.parseObject lib fuel = some (Except.ok v, p') →
        ∃ rest, objectTerm p.prefixes p.base fuel toks = some (v, rest) ∧
          p'.Ahead lib rest ∧ p'.prefixes = p.prefixes ∧ p'.base = p.base) ∧
    (∀ (p p' : Parser) (toks : List Token) (items : List Str) (v : Str), p.Rem lib toks →
      Parser.parseCollection lib fuel p items = some (Except.ok v, p') →
        ∃ members rest, memberTerms p.prefixes p.base fuel toks = some (members, rest) ∧
          v = collectionText (items ++ members) ∧
          p'.Ahead lib rest ∧ p'.prefixes = p.prefixes ∧ p'.base = p.base) := by
  induction fuel with
  | zero =>
    constructor
    · intro p p' toks v _ h
      simp [Parser.parseObject] at h
    · intro p p' toks items v _ h
      simp [Parser.parseCollection] at h
  | succ f ih =>
    obtain ⟨ihO, ihC⟩ := ih
    constructor
    · intro p p' toks v hrem h
      rw [Parser.parseObject] at h
      cases hnt : p.nextToken lib with
      | none => simp [hnt] at h
      | some x =>
        obtain ⟨token, p1⟩ := x
        obtain ⟨rest, htoks, hk, hpre, hbase, htr, hahead, _⟩ :=
          nextToken_Rem lib p p1 toks token hrem hnt
        subst htoks
        simp only [hnt] at h
        split at h
        · rename_i htyp
          rw [expandIRI_eq, hpre, hbase] at h
          cases h
          exact ⟨rest, by simp [objectTerm, htyp], hahead (by simp [htyp]), hpre, hbase⟩
        · rename_i htyp
          cases h
          exact ⟨rest, by simp [objectTerm, htyp], hahead (by simp [htyp]), hpre, hbase⟩
        · rename_i htyp
          cases h
          exact ⟨rest, by simp [objectTerm, htyp], hahead (by simp [htyp]), hpre, hbase⟩
        · rename_i htyp
          obtain ⟨members, rest', hm, hv, ha, hp2, hb2⟩ :=
            ihC p1 p' rest [] v (Ahead_Rem lib p1 rest (hahead (by simp [htyp]))) h
          rw [hpre, hbase] at hm
          refine ⟨rest', ?_, ha, hp2.trans hpre, hb2.trans hbase⟩
          rw [objectTerm]
          simp only [htyp, hm]
          rw [hv, List.nil_append]
        · cases h
    · intro p p' toks items v hrem h
      rw [Parser.parseCollection] at h
      cases hnt : p.nextToken lib with
      | none => simp [hnt] at h
      | some x =>
        obtain ⟨token, p1⟩ := x
        obtain ⟨rest, htoks, hk, hpre, hbase, htr, hahead, hback⟩ :=
          nextToken_Rem lib p p1 toks token hrem hnt
        subst htoks
        simp only [hnt] at h
        by_cases hend : token.Typ = TokenType.CollectionEnd
        · rw [if_pos hend] at h
          cases h
          exact ⟨[], rest, by simp [memberTerms, hend], by simp, hahead (by simp [hend]),
            hpre, hbase⟩
        · rw [if_neg hend] at h
          cases hobj : Parser.parseObject lib f p1.backup with
          | none => simp [hobj] at h
          | some y =>
            obtain ⟨ro, p2⟩ := y
            simp only [hobj] at h
            cases ro with
            | error e => cases h
            | ok item =>
              simp only at h
              obtain ⟨hbt, hbp, hbb⟩ := backup_fields p1
              obtain ⟨rest1, ho, ha1, hp1, hb1⟩ := ihO p1.backup p2 (token :: rest) item hback hobj
              rw [hbp, hbb, hpre, hbase] at ho
              obtain ⟨members, rest2, hm, hv, ha2, hp2, hb2⟩ :=
                ihC p2 p' rest1 (items ++ [item]) v (Ahead_Rem lib p2 rest1 ha1) h
              rw [hp1, hb1, hbp, hbb, hpre, hbase] at hm
              refine ⟨item :: members, rest2, ?_, by simpa using hv, ha2,
                hp2.trans (hp1.trans (hbp.trans hpre)), hb2.trans (hb1.trans (hbb.trans hbase))⟩
              rw [memberTerms]
              simp only [hend, if_false, ho, hm]

/-- Reading an object or the members of a collection uses up tokens, and takes
no more depth than the number of tokens it uses up. -/
theorem objectTerm_memberTerms_depth (prefixes : Str → Option Str) (base : Str) (n : Nat) :
    (∀ (toks : List Token) (v : Str) (rest : List Token),
      objectTerm prefixes base n toks = some (v, rest) →
        rest.length < toks.length ∧
        ∀ m, toks.length - rest.length ≤ m → objectTerm prefixes base m toks = some (v, rest)) ∧
    (∀ (toks : List Token) (ms : List Str) (rest : List Token),
      memberTerms prefixes base n toks = some (ms, rest) →
        rest.length < toks.length ∧
        ∀ m, toks.length - rest.length ≤ m → memberTerms prefixes base m toks = some (ms, rest)) := by
  induction n with
  | zero =>
    constructor
    · intro toks v rest h
      simp [objectTerm] at h
    · intro toks ms rest h
      simp [memberTerms] at h
  | succ n ih =>
    obtain ⟨ihO, ihM⟩ := ih
    constructor
    · intro toks v rest h
      cases toks with
      | nil => simp [objectTerm] at h
      | cons tok rest0 =>
        rw [objectTerm] at h
        split at h
        · rename_i htyp
          cases h
          refine ⟨by simp, fun m hm => ?_⟩
          obtain ⟨m', rfl⟩ : ∃ m', m = m' + 1 := ⟨m - 1, by simp at hm; omega⟩
          simp [objectTerm, htyp]
        · rename_i htyp
          cases h
          refine ⟨by simp, fun m hm => ?_⟩
          obtain ⟨m', rfl⟩ : ∃ m', m = m' + 1 := ⟨m - 1, by simp at hm; omega⟩
          simp [objectTerm, htyp]
        · rename_i htyp
          cases h
          refine ⟨by simp, fun m hm => ?_⟩
          obtain ⟨m', rfl⟩ : ∃ m', m = m' + 1 := ⟨m - 1, by simp at hm; omega⟩
          simp [objectTerm, htyp]
        · rename_i htyp
          cases hm0 : memberTerms prefixes base n rest0 with
          | none => simp [hm0] at h
          | some y =>
            obtain ⟨ms, rest'⟩ := y
            simp only [hm0] at h
            cases h
            obtain ⟨hlt, hfuel⟩ := ihM rest0 ms rest hm0
            refine ⟨by simp; omega, fun m hm => ?_⟩
            obtain ⟨m', rfl⟩ : ∃ m', m = m' + 1 := ⟨m - 1, by simp at hm; omega⟩
            rw [objectTerm]
            simp only [htyp]
            rw [hfuel m' (by simp at hm; omega)]
        · cases h
    · intro toks ms rest h
      cases toks with
      | nil => simp [memberTerms] at h
      | cons tok rest0 =>
        rw [memberTerms] at h
        by_cases hend : tok.Typ = TokenType.CollectionEnd
        · rw [if_pos hend] at h
          cases h
          refine ⟨by simp, fun m hm => ?_⟩
          obtain ⟨m', rfl⟩ : ∃ m', m = m' + 1 := ⟨m - 1, by simp at hm; omega⟩
          simp [memberTerms, hend]
        · rw [if_neg hend] at h
          cases ho : objectTerm prefixes base n (tok :: rest0) with
          | none => simp [ho] at h
          | some y =>
            obtain ⟨v, rest1⟩ := y
            simp only [ho] at h
            cases hm1 : memberTerms prefixes base n rest1 with
            | none => simp [hm1] at h
            | some z =>
              obtain ⟨ms1, rest2⟩ := z
              simp only [hm1] at h
              cases h
              obtain ⟨hlt1, hfuel1⟩ := ihO (tok :: rest0) v rest1 ho
              obtain ⟨hlt2, hfuel2⟩ := ihM rest1 ms1 rest hm1
              simp only [List.length_cons] at hlt1 hfuel1
              refine ⟨by simp; omega, fun m hm => ?_⟩
              simp only [List.length_cons] at hm
              obtain ⟨m', rfl⟩ : ∃ m', m = m' + 1 := ⟨m - 1, by omega⟩
              rw [memberTerms]
              simp only [hend, if_false]
              rw [hfuel1 m' (by omega)]
              simp only
              rw [hfuel2 m' (by omega)]

theorem objectTerm_length (prefixes : Str → Option Str) (base : Str) (n : Nat)
    (toks : List Token) (v : Str) (rest : List Token)
    (h : objectTerm prefixes base n toks = some (v, rest)) :
    rest.length < toks.length ∧ objectTerm prefixes base toks.length toks = some (v, rest) := by
  obtain ⟨h1, h2⟩ := (objectTerm_memberTerms_depth prefixes base n).1 toks v rest h
  exact ⟨h1, h2 _ (Nat.sub_le _ _)⟩

theorem memberTerms_length (prefixes : Str → Option Str) (base : Str) (n : Nat)
    (toks : List Token) (ms : List Str) (rest : List Token)
    (h : memberTerms prefixes base n toks = some (ms, rest)) :
    rest.length < toks.length ∧ memberTerms prefixes base toks.length toks = some (ms, rest) := by
  obtain ⟨h1, h2⟩ := (objectTerm_memberTerms_depth prefixes base n).2 toks ms rest h
  exact ⟨h1, h2 _ (Nat.sub_le _ _)⟩

theorem parseTriple_Rem (lib : StdLib) (fuel : Nat) (p p' : Parser) (toks : List Token)
    (t : Triple) (hrem : p.Rem lib toks)
    (h : p.parseTriple lib fuel = some (Except.ok t, p')) :
    ∃ rest, statementTriple p.prefixes p.base toks = some (t, rest) ∧ rest.length < toks.length ∧
      p'.Ahead lib rest ∧ p'.prefixes = p.prefixes ∧ p'.base = p.base ∧
      p'.triples = p.triples := by
  unfold Parser.parseTriple at h
  cases hs : p.parseSubject lib with
  | none => simp [hs] at h
  | some x =>
    obtain ⟨rs, p1⟩ := x
    simp only [hs] at h
    cases rs with
    | error e => cases h
    | ok subject =>
      simp only at h
      obtain ⟨tokS, rest1, htoks, hsub, ha1, hp1, hb1, ht1⟩ :=
        parseSubject_Rem lib p p1 toks subject hrem hs
      cases hp : p1.parsePredicate lib with
      | none => simp [hp] at h
      | some y =>
        obtain ⟨rp, p2⟩ := y
        simp only [hp] at h
        cases rp with
        | error e => cases h
        | ok predicate =>
          simp only at h
          obtain ⟨tokP, rest2, htoks2, hpred, ha2, hp2, hb2, ht2⟩ :=
            parsePredicate_Rem lib p1 p2 rest1 predicate (Ahead_Rem lib p1 rest1 ha1) hp
          cases ho : p2.parseObject lib fuel with
          | none => simp [ho] at h
          | some z =>
            obtain ⟨ro, p3⟩ := z
            simp only [ho] at h
            cases ro with
            | error e => cases h
            | ok object =>
              simp only at h
              obtain ⟨rest3, hobj, ha3, hp3, hb3⟩ :=
                (parseObject_parseCollection_Rem lib fuel).1 p2 p3 rest2 object
                  (Ahead_Rem lib p2 rest2 ha2) ho
              have ht3 := (parseObject_parseCollection_triples lib fuel).1 p2 p3 _ ho
              obtain ⟨hlen, hobj'⟩ := objectTerm_length _ _ _ _ _ _ hobj
              cases hnt : p3.nextToken lib with
              | none => simp [hnt] at h
              | some w =>
                obtain ⟨token, p4⟩ := w
                obtain ⟨rest4, htoks4, _, hp4, hb4, ht4, hahead, _⟩ :=
                  nextToken_Rem lib p3 p4 rest3 token (Ahead_Rem lib p3 rest3 ha3) hnt
                simp only [hnt] at h
                by_cases hdot : token.Typ = TokenType.Dot
                · simp only [hdot, ne_eq, not_true_eq_false, if_false] at h
                  cases h
                  rw [hp2, hb2, hp1, hb1] at hobj'
                  rw [hp1, hb1] at hpred
                  subst htoks htoks2 htoks4
                  refine ⟨rest4, ?_, ?_, hahead (by simp [hdot]),
                    hp4.trans (hp3.trans (hp2.trans hp1)), hb4.trans (hb3.trans (hb2.trans hb1)),
                    ht4.trans (ht3.trans (ht2.trans ht1))⟩
                  · simp [statementTriple, hsub, hpred, hobj', hdot]
                  · simp only [List.length_cons] at hlen ⊢
                    omega
                · simp only [ne_eq, hdot, not_false_eq_true, if_true] at h
                  cases h

theorem statementTriples_mono (prefixes : Str → Option Str) (base : Str) :
    ∀ (n : Nat) (toks : List Token) (ts : List Triple),
      statementTriples prefixes base n toks = some ts →
        ∀ m, n ≤ m → statementTriples prefixes base m toks = some ts := by
  intro n
  induction n with
  | zero =>
    intro toks ts h
    simp [statementTriples] at h
  | succ n ih =>
    intro toks ts h m hm
    obtain ⟨m', rfl⟩ : ∃ m', m = m' + 1 := ⟨m - 1, by omega⟩
    cases toks with
    | nil => simp [statementTriples] at h
    | cons tok rest =>
      rw [statementTriples] at h ⊢
      by_cases heof : tok.Typ = TokenType.EOF
      · rw [if_pos heof] at h ⊢
        exact h
      · rw [if_neg heof] at h ⊢
        cases hst : statementTriple prefixes base (tok :: rest) with
        | none => simp [hst] at h
        | some y =>
          obtain ⟨t, rest'⟩ := y
          simp only [hst] at h ⊢
          cases hrec : statementTriples prefixes base n rest' with
          | none => simp [hrec] at h
          | some ts' =>
            rw [ih rest' ts' hrec m' (by omega)]
            simpa [hrec] using h

/-- The triples the loop of `Parse` adds are the statements of the tokens the
parser is to read. -/
theorem ParseLoop_Rem (lib : StdLib) :
    ∀ (fuel : Nat) (p : Parser) (toks : List Token) (ts : List Triple), p.Rem lib toks →
      Parser.ParseLoop lib fuel p = some (ts, none) →
        ∃ ts', triplesOf p.prefixes p.base toks = some ts' ∧ ts = p.triples ++ ts' := by
  intro fuel
  induction fuel with
  | zero =>
    intro p toks ts _ h
    simp [Parser.ParseLoop] at h
  | succ f ih =>
    intro p toks ts hrem h
    rw [Parser.ParseLoop] at h
    cases hnt : p.nextToken lib with
    | none => simp [hnt] at h
    | some x =>
      obtain ⟨token, p1⟩ := x
      obtain ⟨rest, htoks, hk, hpre, hbase, htr, hahead, hback⟩ :=
        nextToken_Rem lib p p1 toks token hrem hnt
      have hnp : token.Typ ≠ TokenType.Prefix := by
        intro hp
        rw [hp] at hk
        cases hk
      simp only [hnt, hnp, false_and, if_false] at h
      subst htoks
      by_cases heof : token.Typ = TokenType.EOF
      · rw [if_pos heof] at h
        cases h
        exact ⟨[], by simp [triplesOf, statementTriples, heof], by simp [htr]⟩
      · rw [if_neg heof] at h
        cases htrp : p1.backup.parseTriple lib f with
        | none => simp [htrp] at h
        | some y =>
          obtain ⟨r, p2⟩ := y
          simp only [htrp] at h
          cases r with
          | error e => cases h
          | ok triple =>
            simp only at h
            obtain ⟨hbt, hbp, hbb⟩ := backup_fields p1
            obtain ⟨rest', hst, hlen, ha, hp2, hb2, ht2⟩ :=
              parseTriple_Rem lib f p1.backup p2 (token :: rest) triple hback htrp
            rw [hbp, hbb, hpre, hbase] at hst
            obtain ⟨ts', hts', hts⟩ := ih { p2 with triples := p2.triples ++ [triple] } rest' ts
              (Ahead_Rem lib _ rest' ⟨ha.1, ha.2⟩) h
            simp only [hp2, hb2, hbp, hbb, hpre, hbase] at hts'
            refine ⟨triple :: ts', ?_, ?_⟩
            · rw [triplesOf, List.length_cons, statementTriples]
              simp only [heof, if_false, hst]
              rw [statementTriples_mono _ _ _ _ _ hts' rest.length
                (by simp only [List.length_cons] at hlen; omega)]
            · rw [hts]
              simp [ht2, hbt, htr]

/-- On every input on which `Parse` returns triples without an error, they are
the triples of the token sequence of the input, read with no prefix and no
base declared; no token of the sequence is a directive token. -/
theorem Parse_triplesOf_aux (lib : StdLib) (input : Str) (ts : List Triple)
    (h : Parse lib input = some (ts, none)) :
    ∃ toks, tokensOf lib input = some toks ∧ (∀ tok ∈ toks, tok.Typ.lexed = true) ∧
      triplesOf (fun _ => none) [] toks = some ts := by
  obtain ⟨toks, htoks⟩ := tokensOf_total lib input
  obtain ⟨ts', h1, h2⟩ := ParseLoop_Rem lib _ _ toks ts
    (Ahead_Rem lib _ toks (NewParser_Ahead lib input toks htoks)) h
  refine ⟨toks, htoks, tokens_lexed lib _ _ toks htoks, ?_⟩
  rw [h2]
  simpa [NewParser] using h1

/-! ### A document with a collection of mixed members -/

theorem tokens_mixedMembers :
    Lexer.tokens sampleLib 9 (NewLexer mixedMembers) = some mixedTokens := by
  decide!

theorem parseCollection_mixedMembers :
    ∃ p', Parser.parseCollection sampleLib 9 (NewParser mixedMembers) [] =
      some (Except.ok "(v _:b (c d))".toList, p') := by
  have h : (Parser.parseCollection sampleLib 9 (NewParser mixedMembers) []).bind
      (fun r => match r.1 with
        | Except.ok v => some v
        | Except.error _ => none) = some "(v _:b (c d))".toList := by decide!
  cases hp : Parser.parseCollection sampleLib 9 (NewParser mixedMembers) [] with
  | none => rw [hp] at h; cases h
  | some r =>
    obtain ⟨r1, p'⟩ := r
    rw [hp] at h
    cases r1 with
    | error e => cases h
    | ok v =>
      simp only [Option.some_bind, Option.some.injEq] at h
      exact ⟨p', by rw [h]⟩

theorem Parse_mixedDocument : Parse sampleLib mixedDocument = some (mixedTriples, none) := by
  decide!

/-! ### The loop of `Parse` under a prefix and a base -/

theorem tokens_resolvingParser :
    Lexer.tokens sampleLib 5 resolvingParser.lexer = some resolvingTokens := by
  decide!

theorem ParseLoop_resolvingParser :
    Parser.ParseLoop sampleLib 20 resolvingParser = some (resolvingTriples, none) := by
  decide!
/-! ## The properties -/

/-- C1 (the code departs from the claim): on the prefix example `Parse` does not
return the expanded triple.  `Lex` has no case for `@`, so the first token is
an error token and `Parse` returns the error `invalid subject` and no triple. -/
theorem Parse_prefixDocument (lib : StdLib) :
    Parse lib prefixDocument =
      some ([], some (ParseErr.invalidSubject (unexpectedCharacter lib '@' 1 1))) :=
  Parse_leading_at lib _

/-- C2 (the code departs from the claim): on the base example `Parse` does not
return the resolved triple.  The `@` of the directive is lexed as an error
token and `Parse` returns the error `invalid subject` and no triple. -/
theorem Parse_baseDocument (lib : StdLib) :
    Parse lib baseDocument =
      some ([], some (ParseErr.invalidSubject (unexpectedCharacter lib '@' 1 1))) :=
  Parse_leading_at lib _

/-- C3: `expandIRI` never fails and returns the value of the reference
definition, for every prefix map, base and value: base followed by the local
part for a value beginning with `:`, the registered namespace followed by the
text after the first `:` for a registered prefix, the value itself otherwise. -/
theorem expandIRI_eq_expandReference (p : Parser) (value : Str) :
    p.expandIRI value = some (expandReference p.prefixes p.base value) :=
  expandIRI_eq p value

/-- C4 as stated fails: on `ex:s <p> () .` there are no library tables for
which `Parse` returns anything but the one triple whose subject is the
bareword `ex:s`, taken verbatim from the input, and whose object is the
collection marker `()`. -/
theorem Parse_resolution_counterexample :
    ¬ ∃ lib : StdLib, Parse lib "ex:s <p> () .".toList ≠
      some ([⟨"ex:s".toList, "p".toList, "()".toList⟩], none) := by
  rintro ⟨lib, h⟩
  exact h (Parse_bareword_collection lib)

/-- C4 as amended: `Parse` resolves no name and expands no collection.  For
every input on which `Parse` returns triples without an error, the returned
triples are exactly the triples of the token sequence that `Lex` returns on
the input, one for each statement `subject predicate object .` of the
sequence, in order.  The subject is the value of an IRI token resolved by
`expandIRI`, or the value of a blank-node token as it stands, which every
bareword such as `ex:s` is; the predicate is the resolved value of an IRI
token; the object is the resolved value of an IRI token, the value of a
literal or blank-node token as it stands, or for a collection the text `(`,
the values of its members separated by single spaces, `)`.  No token of the
sequence is a directive token, and the values are resolved with no prefix and
no base declared.  The same holds of the loop of `Parse` on every parser at a
token boundary, whatever prefix map and base it holds: the triples it returns
without an error are the triples it held followed by the triples of the
tokens it read, resolved under that prefix map and base. -/
theorem Parse_triples_of_tokens (lib : StdLib) (input : Str) (ts : List Triple)
    (h : Parse lib input = some (ts, none)) :
    (∃ toks, tokensOf lib input = some toks ∧ (∀ tok ∈ toks, tok.Typ.lexed = true) ∧
      triplesOf (fun _ => none) [] toks = some ts) ∧
    (∀ (fuel : Nat) (p : Parser) (toks : List Token) (ts' : List Triple),
      p.Ahead lib toks → Parser.ParseLoop lib fuel p = some (ts', none) →
        ∃ new, triplesOf p.prefixes p.base toks = some new ∧ ts' = p.triples ++ new) :=
  ⟨Parse_triplesOf_aux lib input ts h,
    fun fuel p toks ts' ha hl => ParseLoop_Rem lib fuel p toks ts' (Ahead_Rem lib p toks ha) hl⟩

/-- The amended C4 at a document of two statements, the first with a bareword
subject and a collection of mixed members as object, and at the loop of
`Parse` on a parser that holds a prefix and a base. -/
theorem Parse_triples_of_tokens_witness :
    Parse sampleLib mixedDocument = some (mixedTriples, none) ∧
    (∃ toks, tokensOf sampleLib mixedDocument = some toks ∧
      (∀ tok ∈ toks, tok.Typ.lexed = true) ∧
      triplesOf (fun _ => none) [] toks = some mixedTriples) ∧
    (tokensOf sampleLib mixedDocument).bind (triplesOf (fun _ => none) []) =
      some mixedTriples ∧
    resolvingParser.Ahead sampleLib resolvingTokens ∧
    Parser.ParseLoop sampleLib 20 resolvingParser = some (resolvingTriples, none) ∧
    (∃ new, triplesOf resolvingParser.prefixes resolvingParser.base resolvingTokens =
      some new ∧ resolvingTriples = resolvingParser.triples ++ new) ∧
    triplesOf resolvingParser.prefixes resolvingParser.base resolvingTokens =
      some resolvingTriples :=
  ⟨Parse_mixedDocument, (Parse_triples_of_tokens sampleLib _ _ Parse_mixedDocument).1,
    by decide!, ⟨rfl, 5, tokens_resolvingParser⟩, ParseLoop_resolvingParser,
    (Parse_triples_of_tokens sampleLib _ _ Parse_mixedDocument).2 20 resolvingParser
      resolvingTokens resolvingTriples ⟨rfl, 5, tokens_resolvingParser⟩
      ParseLoop_resolvingParser,
    by decide!⟩

/-- C5 as stated fails: on `<s> <p> (<a> <b>) .` there are no library tables
for which `Parse` returns anything but the one enclosing triple, whose object
is the text `(a b)`: no blank node and no first or rest triple is generated. -/
theorem Parse_collection_counterexample :
    ¬ ∃ lib : StdLib, Parse lib "<s> <p> (<a> <b>) .".toList ≠
      some ([⟨"s".toList, "p".toList, "(a b)".toList⟩], none) := by
  rintro ⟨lib, h⟩
  apply h
  have hdoc : "<s> <p> (<a> <b>) .".toList =
      collectionStatement "s".toList "p".toList ["a".toList, "b".toList] := by decide
  rw [hdoc, Parse_collectionStatement_aux lib _ _ _ (by decide) (by decide) (by decide)]
  rfl

/-- C5 as amended: a collection is returned as a text, and generates no blank
node and no triple.  For all IRI texts `s`, `p`, `o1`, ..., `on` that hold no
`>` and do not begin with `:`, `Parse` of `<s> <p> (<o1> ... <on>) .` returns
exactly one triple, the enclosing one, whose object is `(` followed by the
members separated by single spaces and `)`, which is `()` for `n = 0`.
Whatever the members are, `parseCollection` leaves the triples of the parser
unchanged; and when it returns a value on a parser at a token boundary, the
value is the parenthesised text of the items it was given followed by the
values of the members up to the matching `)`, in order: the resolved value of
an IRI token, the value of a literal or blank-node token as it stands, and for
a nested collection its own parenthesised text. -/
theorem Parse_collectionStatement (lib : StdLib) (s pr : Str) (os : List Str)
    (hs : PlainText s) (hpr : PlainText pr) (hos : ∀ o ∈ os, PlainText o) :
    Parse lib (collectionStatement s pr os) =
      some ([{ Subject := s, Predicate := pr, Object := collectionText os }], none) ∧
    (∀ (fuel : Nat) (p p' : Parser) (items : List Str) (r : Except ParseErr Str),
      Parser.parseCollection lib fuel p items = some (r, p') → p'.triples = p.triples) ∧
    (∀ (fuel : Nat) (p p' : Parser) (toks : List Token) (items : List Str) (v : Str),
      p.Ahead lib toks → Parser.parseCollection lib fuel p items = some (Except.ok v, p') →
        ∃ (members : List Str) (rest : List Token),
          memberTerms p.prefixes p.base toks.length toks = some (members, rest) ∧
          v = collectionText (items ++ members) ∧ p'.Ahead lib rest) := by
  refine ⟨?_, ?_, ?_⟩
  · have hmap : os.map plainIRI = os := by
      induction os with
      | nil => rfl
      | cons o os ih =>
        rw [List.map_cons, plainIRI_of_PlainText o (hos o (by simp)),
          ih (fun o' ho' => hos o' (by simp [ho']))]
    rw [Parse_collectionStatement_aux lib s pr os hs.1 hpr.1 (fun o ho => (hos o ho).1),
      plainIRI_of_PlainText s hs, plainIRI_of_PlainText pr hpr, hmap]
  · intro fuel p p' items r h
    exact (parseObject_parseCollection_triples lib fuel).2 p p' items r h
  · intro fuel p p' toks items v hahead h
    obtain ⟨members, rest, hm, hv, ha, _, _⟩ :=
      (parseObject_parseCollection_Rem lib fuel).2 p p' toks items v
        (Ahead_Rem lib p toks hahead) h
    exact ⟨members, rest, (memberTerms_length _ _ _ _ _ _ hm).2, hv, ha⟩

/-- The amended C5 at `<s> <p> (<a> <b>) .`, at `<s> <p> () .`, and at the
members `"v" _:b (<:c> d)` of a collection, which are a literal, a blank-node
label and a nested collection. -/
theorem Parse_collectionStatement_witness :
    (collectionStatement "s".toList "p".toList ["a".toList, "b".toList] =
        "<s> <p> (<a> <b>) .".toList ∧
      Parse sampleLib (collectionStatement "s".toList "p".toList ["a".toList, "b".toList]) =
        some ([⟨"s".toList, "p".toList, "(a b)".toList⟩], none)) ∧
    (collectionStatement "s".toList "p".toList [] = "<s> <p> () .".toList ∧
      Parse sampleLib (collectionStatement "s".toList "p".toList []) =
        some ([⟨"s".toList, "p".toList, "()".toList⟩], none)) ∧
    (∃ p', Parser.parseCollection sampleLib 9 (NewParser mixedMembers) [] =
        some (Except.ok "(v _:b (c d))".toList, p') ∧
      p'.triples = [] ∧
      ∃ (members : List Str) (rest : List Token),
        memberTerms (fun _ => none) [] 9 mixedTokens = some (members, rest) ∧
        "(v _:b (c d))".toList = collectionText ([] ++ members) ∧ p'.Ahead sampleLib rest) ∧
    memberTerms (fun _ => none) [] 9 mixedTokens =
      some (["v".toList, "_:b".toList, "(c d)".toList],
        [⟨TokenType.Dot, ".".toList, 1, 15⟩, ⟨TokenType.EOF, [], 1, 15⟩]) :=
  ⟨⟨by decide, (Parse_collectionStatement sampleLib _ _ _ (by simp [PlainText])
      (by simp [PlainText]) (by simp [PlainText])).1⟩,
   ⟨by decide, (Parse_collectionStatement sampleLib _ _ _ (by simp [PlainText])
      (by simp [PlainText]) (by simp [PlainText])).1⟩,
   parseCollection_mixedMembers.elim fun p' hp' =>
     ⟨p', hp',
      (Parse_collectionStatement sampleLib [] [] [] (by simp [PlainText]) (by simp [PlainText])
        (by simp)).2.1 9 _ p' [] _ hp',
      (Parse_collectionStatement sampleLib [] [] [] (by simp [PlainText]) (by simp [PlainText])
        (by simp)).2.2 9 (NewParser mixedMembers) p' mixedTokens [] _
        ⟨rfl, 9, tokens_mixedMembers⟩ hp'⟩,
   by decide⟩

/-- C6 as stated fails: on `<s> <p1> <o1> ; <p2> <o2> .` there are no library
tables for which `Parse` returns without an error. -/
theorem Parse_semicolon_counterexample :
    ¬ ∃ (lib : StdLib) (ts : List Triple),
      Parse lib "<s> <p1> <o1> ; <p2> <o2> .".toList = some (ts, none) := by
  rintro ⟨lib, ts, h⟩
  obtain ⟨tok, _, htok⟩ := Parse_semicolonText_aux lib "s".toList "p1".toList "o1".toList
    "p2".toList "o2".toList (by decide) (by decide) (by decide)
  have hdoc : semicolonText "s".toList "p1".toList "o1".toList "p2".toList "o2".toList =
      "<s> <p1> <o1> ; <p2> <o2> .".toList := by decide
  rw [hdoc, h] at htok
  cases htok

/-- C6 as amended: for all IRI texts `s`, `p1`, `o1` without `>` (and any `p2`,
`o2`), `Parse` of `<s> <p1> <o1> ; <p2> <o2> .` returns no triple and the error
`expected '.'` for the `;` token: a statement is one subject, one predicate and
one object closed by a dot. -/
theorem Parse_semicolonText (lib : StdLib) (s p1 o1 p2 o2 : Str)
    (hs : '>' ∉ s) (hp1 : '>' ∉ p1) (ho1 : '>' ∉ o1) :
    ∃ tok : Token, tok.Typ = TokenType.Semicolon ∧
      Parse lib (semicolonText s p1 o1 p2 o2) = some ([], some (ParseErr.expectedDot tok)) :=
  Parse_semicolonText_aux lib s p1 o1 p2 o2 hs hp1 ho1

/-- The amended C6 at `<s> <p1> <o1> ; <p2> <o2> .`. -/
theorem Parse_semicolonText_witness :
    ('>' ∉ "s".toList ∧ '>' ∉ "p1".toList ∧ '>' ∉ "o1".toList) ∧
    ∃ tok : Token, tok.Typ = TokenType.Semicolon ∧
      Parse sampleLib
          (semicolonText "s".toList "p1".toList "o1".toList "p2".toList "o2".toList) =
        some ([], some (ParseErr.expectedDot tok)) :=
  ⟨by decide, Parse_semicolonText sampleLib _ _ _ _ _ (by decide) (by decide) (by decide)⟩

/-- C7: `Parse` returns on every input, and whenever it returns an error the
triples it returns are empty, also when statements before the failing one
were parsed; and the loop of `Parse` stops at an error: when the statement at
the head of the loop fails, the loop returns that error and no triple at once,
whatever was parsed before and whatever input is left. -/
theorem Parse_all_or_nothing (lib : StdLib) :
    (∀ input : Str, ∃ (ts : List Triple) (err : Option ParseErr),
      Parse lib input = some (ts, err) ∧ (err ≠ none → ts = [])) ∧
    (∀ (fuel : Nat) (p p1 p2 : Parser) (token : Token) (e : ParseErr),
      p.nextToken lib = some (token, p1) → token.Typ ≠ TokenType.EOF →
      token.Typ ≠ TokenType.Prefix →
      p1.backup.parseTriple lib fuel = some (Except.error e, p2) →
      Parser.ParseLoop lib (fuel + 1) p = some ([], some e)) := by
  constructor
  · intro input
    obtain ⟨⟨ts, err⟩, h⟩ := Parse_total lib input
    refine ⟨ts, err, h, fun hne => ?_⟩
    cases err with
    | none => exact absurd rfl hne
    | some e => exact ParseLoop_error_nil lib _ _ ts e h
  · intro fuel p p1 p2 token e hnt heof hdir herr
    exact ParseLoop_stops lib fuel p p1 p2 token e hnt heof hdir herr

/-- C7 at a document whose first statement is parsed and whose second one
fails: the error of the second statement is returned, with no triple, and the
third statement is not parsed. -/
theorem Parse_all_or_nothing_witness :
    Parse sampleLib "<s> <p> <o> .\n<a> <b> ;\n<c> <d> <e> .".toList =
      some ([], some (ParseErr.invalidObject ⟨TokenType.Semicolon, [';'], 2, 9⟩)) ∧
    ∃ (ts : List Triple) (err : Option ParseErr),
      Parse sampleLib "<s> <p> <o> .\n<a> <b> ;\n<c> <d> <e> .".toList = some (ts, err) ∧
        (err ≠ none → ts = []) :=
  ⟨by decide!, (Parse_all_or_nothing sampleLib).1 _⟩

/-- C8: for every list of triples whose texts hold no `>` and do not begin
with `:`, `Parse` of the document that writes each triple as `<s> <p> <o> .`,
in list order and one statement per line, returns no error and exactly that
list, in the same order; the empty list is the empty document. -/
theorem Parse_documentText (lib : StdLib) (ts : List Triple)
    (hts : ∀ t ∈ ts, PlainText t.Subject ∧ PlainText t.Predicate ∧ PlainText t.Object) :
    Parse lib (documentText ts) = some (ts, none) := by
  have h := ParseLoop_document lib ts hts (parseFuel (documentText ts))
    (NewParser (documentText ts)) (NewParser_At _)
    (by have := length_le_documentText ts; simp [parseFuel]; omega)
  simpa [Parse, NewParser] using h

/-- C8 at the two statements `<s> <p> <o> .` and `<a:b> <c> <d e> .`. -/
theorem Parse_documentText_witness :
    documentText [⟨"s".toList, "p".toList, "o".toList⟩,
        ⟨"a:b".toList, "c".toList, "d e".toList⟩] =
      "<s> <p> <o> .\n<a:b> <c> <d e> .\n".toList ∧
    Parse sampleLib (documentText [⟨"s".toList, "p".toList, "o".toList⟩,
        ⟨"a:b".toList, "c".toList, "d e".toList⟩]) =
      some ([⟨"s".toList, "p".toList, "o".toList⟩,
        ⟨"a:b".toList, "c".toList, "d e".toList⟩], none) :=
  ⟨by decide, Parse_documentText sampleLib _ (by simp [PlainText])⟩

/-- C10: a document that begins with `@` followed by any word `w`, whatever
follows, makes `Parse` return an error and no triple: the `@` is lexed as an
error token, which is not a subject.  This holds for every `w`, in particular
for every `w` other than `prefix` and `base`. -/
theorem Parse_malformed_directive (lib : StdLib) (w rest : Str) :
    Parse lib ('@' :: (w ++ rest)) =
      some ([], some (ParseErr.invalidSubject (unexpectedCharacter lib '@' 1 1))) :=
  Parse_leading_at lib _

/-- C9 as stated fails: on an opening quote, `abc` and the end of input there
are no library tables for which `Lex` returns an error token. -/
theorem Lex_unterminated_counterexample :
    ¬ ∃ (lib : StdLib) (tok : Token) (l' : Lexer),
      (NewLexer "\"abc".toList).Lex lib = some (tok, l') ∧ tok.Typ = TokenType.Error := by
  rintro ⟨lib, tok, l', h, ht⟩
  obtain ⟨tok', l'', h1, h2, _⟩ := Lex_open_literal lib "abc".toList (by decide)
  have hdoc : ('"' :: "abc".toList) = "\"abc".toList := by decide
  rw [hdoc, h] at h1
  cases h1
  rw [h2] at ht
  cases ht

/-- C9 as amended: for every string `w` without a quote, `Lex` on an opening
quote followed by `w` and the end of input returns a literal token whose value
is `w`, with the whole input read: the end of input closes the literal and no
error is reported. -/
theorem Lex_unterminated (lib : StdLib) (w : Str) (hw : '"' ∉ w) :
    ∃ tok l', (NewLexer ('"' :: w)).Lex lib = some (tok, l') ∧
      tok.Typ = TokenType.Literal ∧ tok.Value = w ∧ l'.input = [] := by
  obtain ⟨tok, l', h1, h2, h3, h4, _⟩ := Lex_open_literal lib w hw
  exact ⟨tok, l', h1, h2, h3, h4⟩

/-- The amended C9 at an opening quote followed by `abc`. -/
theorem Lex_unterminated_witness :
    '"' ∉ "abc".toList ∧
    ∃ tok l', (NewLexer ('"' :: "abc".toList)).Lex sampleLib = some (tok, l') ∧
      tok.Typ = TokenType.Literal ∧ tok.Value = "abc".toList ∧ l'.input = [] :=
  ⟨by decide, Lex_unterminated sampleLib _ (by decide)⟩

/-- C11 as stated fails: on `# c`, a newline and `<s>` there are no library
tables for which the first token `Lex` returns is anything but a comment token
holding ` c`. -/
theorem Lex_comment_counterexample :
    ¬ ∃ lib : StdLib, (NewLexer "# c\n<s>".toList).Lex lib ≠
      some (⟨TokenType.Comment, " c".toList, 2, 0⟩,
        ⟨"<s>".toList, 2, 0, false, Char.ofNat 0⟩) := by
  rintro ⟨lib, h⟩
  exact h (Lex_comment_example lib)

/-- C11 as amended: a comment is a token.  For every text `c` without a
newline, `Lex` on `#` followed by `c` and a newline, or by `c` and the end of
input, returns a token of kind `Comment` whose value is `c`, and has read the
comment and its newline and nothing more. -/
theorem Lex_comment_token (lib : StdLib) (c rest : Str) (hc : '\n' ∉ c) (l : Lexer)
    (hb : l.buffered = false)
    (hin : l.input = '#' :: (c ++ '\n' :: rest) ∨ (l.input = '#' :: c ∧ rest = [])) :
    ∃ tok l', l.Lex lib = some (tok, l') ∧ tok.Typ = TokenType.Comment ∧ tok.Value = c ∧
      l'.input = rest ∧ l'.buffered = false :=
  Lex_comment lib c rest hc l hb hin

/-- The amended C11 at `# c`, a newline and `<s>`. -/
theorem Lex_comment_token_witness :
    ('\n' ∉ " c".toList ∧ (NewLexer "# c\n<s>".toList).buffered = false) ∧
    ∃ tok l', (NewLexer "# c\n<s>".toList).Lex sampleLib = some (tok, l') ∧
      tok.Typ = TokenType.Comment ∧ tok.Value = " c".toList ∧
      l'.input = "<s>".toList ∧ l'.buffered = false :=
  ⟨by decide, Lex_comment_token sampleLib " c".toList "<s>".toList (by decide) _ rfl
    (Or.inl (by decide))⟩

/-- C12 (the code departs from the claim): `Lex` has no case for a digit.  On
every input that begins with a decimal digit `d` it returns the error token
for the unexpected character `d`, not an integer literal, and `Parse` of
`<s> <p> 42 .` returns the error `invalid object` for that token and no
triple. -/
theorem Lex_number (lib : StdLib) (d : Char) (rest s p : Str)
    (hd : 0x30 ≤ d.toNat ∧ d.toNat ≤ 0x39) (hs : '>' ∉ s) (hp : '>' ∉ p) :
    (NewLexer (d :: rest)).Lex lib =
      some (unexpectedCharacter lib d 1 1, ⟨rest, 1, 1, false, Char.ofNat 0⟩) ∧
    ∃ (line col : Int), Parse lib (integerStatement s p) =
      some ([], some (ParseErr.invalidObject (unexpectedCharacter lib '4' line col))) := by
  constructor
  · rw [Lex_digit lib d rest hd (NewLexer (d :: rest)) rfl rfl]
    rfl
  · exact Parse_integerStatement_aux lib s p hs hp

/-- C12 at `42 ` and at `<s> <p> 42 .`. -/
theorem Lex_number_witness :
    integerStatement "s".toList "p".toList = "<s> <p> 42 .".toList ∧
    (NewLexer "42 ".toList).Lex sampleLib =
      some (unexpectedCharacter sampleLib '4' 1 1, ⟨"2 ".toList, 1, 1, false, Char.ofNat 0⟩) ∧
    ∃ (line col : Int), Parse sampleLib (integerStatement "s".toList "p".toList) =
      some ([], some (ParseErr.invalidObject (unexpectedCharacter sampleLib '4' line col))) :=
  ⟨by decide, Lex_number sampleLib '4' "2 ".toList "s".toList "p".toList (by decide)
    (by decide) (by decide)⟩

/-- C13: for `w` one of `true` and `false`, followed by white space, a
delimiter or the end of input, `Lex` returns a literal token whose value is
`w` followed by the boolean datatype suffix; and for all IRI texts `s` and `p`
that hold no `>` and do not begin with `:`, `Parse` of `<s> <p> true .`
returns no error and exactly the one triple whose object is `true` followed
by that suffix. -/
theorem Lex_boolean_literal (lib : StdLib) (w rest s p : Str)
    (hw : w = "true".toList ∨ w = "false".toList) (hrest : EndsRun lib rest)
    (hs : PlainText s) (hp : PlainText p) :
    (∃ tok l', (NewLexer (w ++ rest)).Lex lib = some (tok, l') ∧
      tok.Typ = TokenType.Literal ∧
      tok.Value = w ++ "^^<http://www.w3.org/2001/XMLSchema#boolean>".toList) ∧
    Parse lib (booleanStatement s p) =
      some ([{ Subject := s, Predicate := p,
               Object := "true^^<http://www.w3.org/2001/XMLSchema#boolean>".toList }], none) := by
  constructor
  · obtain ⟨tok, l', h1, h2, h3, _⟩ := Lex_boolean lib w rest hw hrest (NewLexer (w ++ rest))
      rfl rfl
    exact ⟨tok, l', h1, h2, h3⟩
  · rw [Parse_booleanStatement_aux lib s p hs.1 hp.1, plainIRI_of_PlainText s hs,
      plainIRI_of_PlainText p hp]
    rfl

/-- C13 at `false;` and at `<s> <p> true .`. -/
theorem Lex_boolean_literal_witness :
    booleanStatement "s".toList "p".toList = "<s> <p> true .".toList ∧
    (∃ tok l', (NewLexer ("false".toList ++ ";".toList)).Lex sampleLib = some (tok, l') ∧
      tok.Typ = TokenType.Literal ∧
      tok.Value = "false".toList ++ "^^<http://www.w3.org/2001/XMLSchema#boolean>".toList) ∧
    Parse sampleLib (booleanStatement "s".toList "p".toList) =
      some ([{ Subject := "s".toList, Predicate := "p".toList,
               Object := "true^^<http://www.w3.org/2001/XMLSchema#boolean>".toList }], none) :=
  ⟨by decide, Lex_boolean_literal sampleLib "false".toList ";".toList "s".toList "p".toList
    (Or.inr rfl) (Or.inr ⟨';', [], rfl, by decide⟩) (by simp [PlainText]) (by simp [PlainText])⟩

/-- C14 (the code departs from the claim): `Lex` never returns the keyword
token for `a`.  For every IRI text `s` without `>` and every `o`, the `a` of
`<s> a <o> .` is lexed as a blank-node token and `Parse` returns the error
`invalid predicate` for it and no triple. -/
theorem Parse_aStatement (lib : StdLib) (s o : Str) (hs : '>' ∉ s) :
    ∃ tok : Token, tok.Typ = TokenType.BlankNode ∧ tok.Value = ['a'] ∧
      Parse lib (aStatement s o) = some ([], some (ParseErr.invalidPredicate tok)) :=
  Parse_aStatement_aux lib s o hs

/-- C14 at `<s> a <o> .`. -/
theorem Parse_aStatement_witness :
    aStatement "s".toList "o".toList = "<s> a <o> .".toList ∧
    ∃ tok : Token, tok.Typ = TokenType.BlankNode ∧ tok.Value = ['a'] ∧
      Parse sampleLib (aStatement "s".toList "o".toList) =
        some ([], some (ParseErr.invalidPredicate tok)) :=
  ⟨by decide, Parse_aStatement sampleLib "s".toList "o".toList (by decide)⟩

/-- C15 as stated fails: on `<abc>` there are no library tables for which the
IRI token carries anything but column 5, the column of its `>`. -/
theorem Lex_position_counterexample :
    ¬ ∃ lib : StdLib, (NewLexer "<abc>".toList).Lex lib ≠
      some (⟨TokenType.IRI, "abc".toList, 1, 5⟩, ⟨[], 1, 5, false, Char.ofNat 0⟩) := by
  rintro ⟨lib, h⟩
  exact h (Lex_IRI_position lib "abc".toList [] (by decide) (by decide))

/-- C15 as amended: a token carries the position the lexer has reached when
the token is built, not the position of its first character.  For every token
that `Lex` returns, other than a literal token, `Line` and `Col` are the line
and column of the lexer when the call returns; the line starts at 1 and the
column at 0, a newline read from the input adds one to the line and sets the
column to zero, and every other rune read adds one to the column; so `<s>` at
the start of the input, for `s` on one line, carries line 1 and the column of
its `>`, which is the length of `s` plus 2. -/
theorem Lex_position (lib : StdLib) :
    (∀ (l l' : Lexer) (tok : Token), l.Lex lib = some (tok, l') →
      tok.Typ ≠ TokenType.Literal → tok.Line = l'.line ∧ tok.Col = l'.col) ∧
    (∀ input : Str, (NewLexer input).line = 1 ∧ (NewLexer input).col = 0) ∧
    (∀ (l : Lexer) (c : Char) (rest : Str), l.buffered = false → l.input = c :: rest →
      l.next = ((c, false),
        if c = '\n' then { l with input := rest, line := l.line + 1, col := 0 }
        else { l with input := rest, col := l.col + 1 })) ∧
    (∀ s rest : Str, '>' ∉ s → '\n' ∉ s →
      (NewLexer ('<' :: (s ++ '>' :: rest))).Lex lib =
        some (⟨TokenType.IRI, s, 1, (s.length + 2 : Nat)⟩,
          ⟨rest, 1, (s.length + 2 : Nat), false, Char.ofNat 0⟩)) := by
  refine ⟨fun l l' tok h hne => LexLoop_position lib _ l l' tok h hne,
    fun _ => ⟨rfl, rfl⟩, ?_, fun s rest hs hnl => Lex_IRI_position lib s rest hs hnl⟩
  intro l c rest hb hin
  unfold Lexer.next
  rw [hb, hin]
  simp only [Bool.false_eq_true, if_false]
  split <;> rfl

/-- The amended C15 at `<abc>`, whose token carries column 5. -/
theorem Lex_position_witness :
    ('>' ∉ "abc".toList ∧ '\n' ∉ "abc".toList) ∧
    (NewLexer ('<' :: ("abc".toList ++ '>' :: []))).Lex sampleLib =
      some (⟨TokenType.IRI, "abc".toList, 1, 5⟩, ⟨[], 1, 5, false, Char.ofNat 0⟩) :=
  ⟨by decide, (Lex_position sampleLib).2.2.2 "abc".toList [] (by decide) (by decide)⟩

/-- C16 as stated fails: on `_: x`, where a space follows `_:`, there are no
library tables for which `Lex` returns anything but a blank-node token with
the value `_:`. -/
theorem Lex_blankNode_counterexample :
    ¬ ∃ lib : StdLib, (NewLexer "_: x".toList).Lex lib ≠
      some (⟨TokenType.BlankNode, "_:".toList, 1, 2⟩, ⟨"x".toList, 1, 2, true, ' '⟩) := by
  rintro ⟨lib, h⟩
  exact h (Lex_blankNode_example lib)

/-- C16 as amended: for every input that begins with `_:`, `Lex` returns a
blank-node token whose value is `_:` followed by the runes up to the next
white space, delimiter or end of input, also when there is no such rune and
the value is `_:` alone; `Lex` returns the error token of `lexBlankNode`
when `_` is followed by the end of input or by a rune other than `:`. -/
theorem Lex_blankNode_label (lib : StdLib) (label rest : Str)
    (hlabel : ∀ c ∈ label, endsRun lib c = false) (hrest : EndsRun lib rest) :
    (∃ (l' : Lexer) (line col : Int),
      (NewLexer ('_' :: ':' :: (label ++ rest))).Lex lib =
        some (⟨TokenType.BlankNode, '_' :: ':' :: label, line, col⟩, l')) ∧
    ∀ other : Str, other.head? ≠ some ':' →
      ∃ l' : Lexer, (NewLexer ('_' :: other)).Lex lib =
        some (invalidBlankNode l'.line l'.col, l') := by
  constructor
  · obtain ⟨l', h, _⟩ := Lex_blankNode lib label rest hlabel hrest
      (NewLexer ('_' :: ':' :: (label ++ rest))) rfl rfl
    exact ⟨l', _, _, h⟩
  · intro other hother
    exact Lex_blankNode_invalid lib other hother (NewLexer ('_' :: other)) rfl rfl

/-- The amended C16 at `_:b1 .`, at `_: x` with its empty label, and at `_x`. -/
theorem Lex_blankNode_label_witness :
    (∃ (l' : Lexer) (line col : Int),
      (NewLexer ('_' :: ':' :: ("b1".toList ++ " .".toList))).Lex sampleLib =
        some (⟨TokenType.BlankNode, '_' :: ':' :: "b1".toList, line, col⟩, l')) ∧
    (∃ (l' : Lexer) (line col : Int),
      (NewLexer ('_' :: ':' :: ([] ++ " x".toList))).Lex sampleLib =
        some (⟨TokenType.BlankNode, '_' :: ':' :: [], line, col⟩, l')) ∧
    ∃ l' : Lexer, (NewLexer ('_' :: "x".toList)).Lex sampleLib =
      some (invalidBlankNode l'.line l'.col, l') :=
  ⟨(Lex_blankNode_label sampleLib "b1".toList " .".toList (by decide)
      (Or.inr ⟨' ', ".".toList, rfl, by decide⟩)).1,
   (Lex_blankNode_label sampleLib [] " x".toList (by simp)
      (Or.inr ⟨' ', "x".toList, rfl, by decide⟩)).1,
   (Lex_blankNode_label sampleLib [] [] (by simp) (Or.inl rfl)).2 "x".toList (by decide)⟩

/-- C17 (the code departs from the claim): after `^^` the lexer calls `lexIRI`
without asking for a `<`, and `lexIRI` always returns an IRI token, so the
error branch is never taken.  For every `v` without a quote and every text `d`
without `>`, `Lex` on the quoted literal `v`, `^^`, `d` and the end of input
returns a literal token whose value is `v^^d`: a bare word after `^^` is taken
as the datatype and no error token is returned.  When `^^` is followed by
`<iri>`, the literal token is returned with the datatype text `<iri`, and
nothing past the closing `>` is read. -/
theorem Lex_datatype (lib : StdLib) (v d iri rest : Str) (hv : '"' ∉ v) (hd : '>' ∉ d)
    (hi : '>' ∉ iri) :
    (∃ (l' : Lexer) (line col : Int),
      (NewLexer ('"' :: (v ++ '"' :: '^' :: '^' :: d))).Lex lib =
        some (⟨TokenType.Literal, v ++ '^' :: '^' :: d, line, col⟩, l') ∧
      l'.input = [] ∧ l'.buffered = false) ∧
    (∃ (l' : Lexer) (line col : Int),
      (NewLexer ('"' :: (v ++ '"' :: '^' :: '^' :: '<' :: (iri ++ '>' :: rest)))).Lex lib =
        some (⟨TokenType.Literal, v ++ '^' :: '^' :: '<' :: iri, line, col⟩, l') ∧
      l'.input = rest ∧ l'.buffered = false) :=
  ⟨Lex_datatype_open lib v d hv hd _ rfl rfl,
   Lex_datatype_IRI lib v iri rest hv hi _ rfl rfl⟩

/-- C17 at the quoted literal `v` followed by `^^abc`, and by `^^<i> .`. -/
theorem Lex_datatype_witness :
    '"' :: ("v".toList ++ '"' :: '^' :: '^' :: "abc".toList) = "\"v\"^^abc".toList ∧
    (∃ (l' : Lexer) (line col : Int),
      (NewLexer ('"' :: ("v".toList ++ '"' :: '^' :: '^' :: "abc".toList))).Lex sampleLib =
        some (⟨TokenType.Literal, "v".toList ++ '^' :: '^' :: "abc".toList, line, col⟩, l') ∧
      l'.input = [] ∧ l'.buffered = false) ∧
    (∃ (l' : Lexer) (line col : Int),
      (NewLexer ('"' :: ("v".toList ++ '"' :: '^' :: '^' :: '<' ::
          ("i".toList ++ '>' :: " .".toList)))).Lex sampleLib =
        some (⟨TokenType.Literal, "v".toList ++ '^' :: '^' :: '<' :: "i".toList, line, col⟩,
          l') ∧
      l'.input = " .".toList ∧ l'.buffered = false) :=
  ⟨by decide, Lex_datatype sampleLib "v".toList "abc".toList "i".toList " .".toList
    (by decide) (by decide) (by decide)⟩

/-- C18: for every `v` without a quote and every tag run `t`, the runes after
`@` up to the next white space, delimiter or end of input, `Lex` on the quoted
literal `v` followed by `@` and `t` returns a literal token whose value is `v`,
`@` and `t` when every rune of `t` is a letter or a hyphen, and returns an
error token when some rune of `t` is neither. -/
theorem Lex_language_tag (lib : StdLib) (v t rest : Str) (hv : '"' ∉ v)
    (ht : ∀ c ∈ t, endsRun lib c = false) (hrest : EndsRun lib rest) :
    ((∀ c ∈ t, isLetter lib c = true ∨ c = '-') →
      ∃ (l' : Lexer) (line col : Int),
        (NewLexer ('"' :: (v ++ '"' :: '@' :: (t ++ rest)))).Lex lib =
          some (⟨TokenType.Literal, v ++ '@' :: t, line, col⟩, l')) ∧
    ((∃ c ∈ t, isLetter lib c = false ∧ c ≠ '-') →
      ∃ (tok : Token) (l' : Lexer),
        (NewLexer ('"' :: (v ++ '"' :: '@' :: (t ++ rest)))).Lex lib = some (tok, l') ∧
          tok.Typ = TokenType.Error) := by
  obtain ⟨hgood, hbad⟩ := Lex_language_tag_aux lib v t rest hv ht hrest
    (NewLexer ('"' :: (v ++ '"' :: '@' :: (t ++ rest)))) rfl rfl
  constructor
  · intro h
    obtain ⟨l', line, col, h1, _⟩ := hgood h
    exact ⟨l', line, col, h1⟩
  · intro h
    obtain ⟨l', h1⟩ := hbad h
    exact ⟨_, l', h1, rfl⟩

/-- C18 at the quoted literal `chat` with the tags `fr-CA` and `e1`. -/
theorem Lex_language_tag_witness :
    (∃ (l' : Lexer) (line col : Int),
      (NewLexer ('"' :: ("chat".toList ++ '"' :: '@' :: ("fr-CA".toList ++ " .".toList)))).Lex
          sampleLib =
        some (⟨TokenType.Literal, "chat".toList ++ '@' :: "fr-CA".toList, line, col⟩, l')) ∧
    ∃ (tok : Token) (l' : Lexer),
      (NewLexer ('"' :: ("chat".toList ++ '"' :: '@' :: ("e1".toList ++ " .".toList)))).Lex
          sampleLib = some (tok, l') ∧
        tok.Typ = TokenType.Error :=
  ⟨(Lex_language_tag sampleLib "chat".toList "fr-CA".toList " .".toList (by decide)
      (by decide) (Or.inr ⟨' ', ".".toList, rfl, by decide⟩)).1 (by decide),
   (Lex_language_tag sampleLib "chat".toList "e1".toList " .".toList (by decide)
      (by decide) (Or.inr ⟨' ', ".".toList, rfl, by decide⟩)).2 ⟨'1', by decide, by decide⟩⟩

/-- C19: on every input, one of the first `3 * length + 1` calls of `Lex`
returns the end-of-input token; `Parse` returns on every input, with triples
or with an error; and on a statement whose collection is never closed before
the end of input, `<s> <p> (<o1> ... <on>`, `Parse` returns the error
`invalid object` for the end-of-input token and no triple. -/
theorem Lex_Parse_terminate (lib : StdLib) :
    (∀ input : Str, ∃ (n : Nat) (tok : Token) (l' : Lexer), n ≤ 3 * input.length ∧
      Lexer.LexN lib n (NewLexer input) = some (tok, l') ∧ tok.Typ = TokenType.EOF) ∧
    (∀ input : Str, ∃ (ts : List Triple) (err : Option ParseErr),
      Parse lib input = some (ts, err)) ∧
    (∀ (s p : Str) (os : List Str), '>' ∉ s → '>' ∉ p → (∀ o ∈ os, '>' ∉ o) →
      ∃ tok : Token, tok.Typ = TokenType.EOF ∧
        Parse lib (unclosedStatement s p os) =
          some ([], some (ParseErr.invalidObject tok))) := by
  refine ⟨fun input => ?_, fun input => ?_, fun s p os hs hp hos =>
    Parse_unclosedStatement_aux lib s p os hs hp hos⟩
  · exact LexN_reaches_eof lib (3 * input.length) (NewLexer input)
      (by simp [Lexer.measure, NewLexer])
  · obtain ⟨⟨ts, err⟩, h⟩ := Parse_total lib input
    exact ⟨ts, err, h⟩

/-- C19 at `<s> <p> (<a> <b>`, whose collection is never closed. -/
theorem Lex_Parse_terminate_witness :
    unclosedStatement "s".toList "p".toList ["a".toList, "b".toList] =
      "<s> <p> (<a> <b>".toList ∧
    ∃ tok : Token, tok.Typ = TokenType.EOF ∧
      Parse sampleLib (unclosedStatement "s".toList "p".toList ["a".toList, "b".toList]) =
        some ([], some (ParseErr.invalidObject tok)) :=
  ⟨by decide, (Lex_Parse_terminate sampleLib).2.2 "s".toList "p".toList
    ["a".toList, "b".toList] (by decide) (by decide) (by decide)⟩

/-- C20 (the code departs from the claim): the loops of `lexBlankNode` and
`lexWord` push back the zero rune when the input ends.  For every blank-node
label and every bareword that runs up to the end of input, the call of `Lex`
after the one that returned the word's token does not return the end-of-input
token: it returns the error token for the unexpected character `0`, which
does not occur in the input. -/
theorem Lex_phantom_rune (lib : StdLib) (a : Char) (w : Str)
    (hl : isLetter lib a = true) (ha : endsRun lib a = false)
    (hw : ∀ c ∈ w, endsRun lib c = false) :
    (∃ (l1 l2 : Lexer) (line col : Int),
      (NewLexer ('_' :: ':' :: w)).Lex lib =
        some (⟨TokenType.BlankNode, '_' :: ':' :: w, line, col⟩, l1) ∧
      l1.Lex lib = some (unexpectedCharacter lib (Char.ofNat 0) line col, l2)) ∧
    (∃ (l1 l2 : Lexer),
      (NewLexer (a :: w)).Lex lib = some (wordToken (a :: w) l1.line l1.col, l1) ∧
      l1.Lex lib = some (unexpectedCharacter lib (Char.ofNat 0) l1.line l1.col, l2)) := by
  constructor
  · obtain ⟨l1, h1, hafter⟩ := Lex_blankNode lib w [] hw (Or.inl rfl)
      (NewLexer ('_' :: ':' :: w)) rfl (by simp [NewLexer])
    exact ⟨l1, _, _, _, h1, Lex_after_run_eof lib l1 hafter⟩
  · obtain ⟨l1, h1, hafter⟩ := Lex_word lib a w [] hl ha hw (Or.inl rfl)
      (NewLexer (a :: w)) rfl (by simp [NewLexer])
    exact ⟨l1, _, h1, Lex_after_run_eof lib l1 hafter⟩

/-- C20 at `_:b` and at the bareword `ab`. -/
theorem Lex_phantom_rune_witness :
    (∃ (l1 l2 : Lexer) (line col : Int),
      (NewLexer ('_' :: ':' :: "b".toList)).Lex sampleLib =
        some (⟨TokenType.BlankNode, '_' :: ':' :: "b".toList, line, col⟩, l1) ∧
      l1.Lex sampleLib = some (unexpectedCharacter sampleLib (Char.ofNat 0) line col, l2)) ∧
    (∃ (l1 l2 : Lexer),
      (NewLexer ('a' :: "b".toList)).Lex sampleLib =
        some (wordToken ('a' :: "b".toList) l1.line l1.col, l1) ∧
      l1.Lex sampleLib =
        some (unexpectedCharacter sampleLib (Char.ofNat 0) l1.line l1.col, l2)) :=
  Lex_phantom_rune sampleLib 'a' "b".toList (by decide) (by decide) (by decide)

end Turtle
